import Mathlib

/-! A shallow embedding of the nufs storage engine.

The C sources (`blocks.c`, `inode.c`, `directory.c`, `nufs.c`) are embedded as
pure functions over an explicit state:

* `State.mem` is the memory-mapped image `blocks_base[0 .. NUFS_SIZE)`, one
  natural number per byte address;
* `State.inode_table` is the static array `inode_table[MAX_FILES]`.

An `inode_t *` is the index of the table slot it points to.  A function that
can hit an `assert`, dereference a null pointer or index outside an array
returns `Option`; `none` stands for "the call does not return normally".
Unsigned 64-bit arithmetic (`size_t`) is written with an explicit `% 2 ^ 64`
and conversions to `int` with `to_int`.  A C string argument is the list of
its bytes before the terminating NUL.
-/

namespace Nufs

/-! ## Constants -/

abbrev BLOCK_COUNT : Nat := 256
abbrev BLOCK_SIZE : Nat := 4096
abbrev NUFS_SIZE : Nat := BLOCK_SIZE * BLOCK_COUNT
abbrev MAX_FILES : Nat := 256
abbrev MAX_FILE_SIZE : Nat := 4 * BLOCK_SIZE
abbrev DIR_NAME_LENGTH : Nat := 48
/-- The value of `sizeof(dir_entry_t)`: `char name[48]`, `int inum`, `char _reserved[12]`. -/
abbrev DIR_ENTRY_SIZE : Nat := 64

abbrev ENOENT : Int := 2
abbrev EEXIST : Int := 17
abbrev EFBIG : Int := 27
abbrev ENOSPC : Int := 28
abbrev ENAMETOOLONG : Int := 36
abbrev S_IFDIR : Nat := 0o040000
abbrev S_IFREG : Nat := 0o100000

/-! ## Machine integers -/

/-- Conversion of an unsigned value to `int` (two's complement, 32 bits). -/
def to_int (u : Nat) : Int :=
  if u % 2 ^ 32 < 2 ^ 31 then ((u % 2 ^ 32 : Nat) : Int) else ((u % 2 ^ 32 : Nat) : Int) - 2 ^ 32

/-- Conversion of a signed value to `size_t` (64 bits). -/
def to_u64 (x : Int) : Nat := (x % 2 ^ 64).toNat

/-! ## Memory -/

abbrev Mem := Nat → Nat

def memset (mem : Mem) (dst c n : Nat) : Mem :=
  fun a => if dst ≤ a ∧ a < dst + n then c else mem a

def memcpy (mem : Mem) (dst : Nat) (src : Nat → Nat) (n : Nat) : Mem :=
  fun a => if dst ≤ a ∧ a < dst + n then src (a - dst) else mem a

def memmove (mem : Mem) (dst src n : Nat) : Mem :=
  fun a => if dst ≤ a ∧ a < dst + n then mem (src + (a - dst)) else mem a

/-- The loop shape `for (i = lo; i < lo + n; i++) if (p i) return i;`. -/
def find_from (p : Nat → Bool) : Nat → Nat → Option Nat
  | _, 0 => none
  | lo, n + 1 => if p lo then some lo else find_from p (lo + 1) n

/-! ## blocks.c -/

/-- Source: `blocks_get_block`; the address of block `bnum` relative to `blocks_base`. -/
def blocks_get_block (bnum : Int) : Option Nat :=
  if 0 ≤ bnum ∧ bnum < BLOCK_COUNT then some (BLOCK_SIZE * bnum.toNat) else none

/-- Modelled from the spec: `bitmap.c` is not among the sources.  The block-usage bit
vector has one bit per block; bit `ii` is bit `ii % 8` of the byte at `bm + ii / 8`. -/
def bitmap_get (mem : Mem) (bm ii : Nat) : Bool :=
  (mem (bm + ii / 8)).testBit (ii % 8)

/-- Modelled from the spec: `bitmap.c` is not among the sources.  Sets or clears bit `ii`
and leaves every other bit as it is. -/
def bitmap_put (mem : Mem) (bm ii : Nat) (vv : Bool) : Mem :=
  Function.update mem (bm + ii / 8)
    (if vv then mem (bm + ii / 8) ||| 1 <<< (ii % 8)
     else mem (bm + ii / 8) &&& (255 ^^^ 1 <<< (ii % 8)))

/-- The memory `alloc_block` leaves behind when it hands out block `i`. -/
def alloc_mem (mem : Mem) (i : Nat) : Mem :=
  memset (bitmap_put mem 0 i true) (BLOCK_SIZE * i) 0 BLOCK_SIZE

/-- Source: `alloc_block`: the block number (or `-1`) and the memory afterwards. -/
def alloc_block (mem : Mem) : Int × Mem :=
  match find_from (fun ii => !bitmap_get mem 0 ii) 1 (BLOCK_COUNT - 1) with
  | some ii => ((ii : Int), alloc_mem mem ii)
  | none => (-1, mem)

/-- Source: `free_block`.  A negative index is outside what `bitmap_put` is defined on. -/
def free_block (mem : Mem) (bnum : Int) : Option Mem :=
  if 0 ≤ bnum then some (bitmap_put mem 0 bnum.toNat false) else none

/-- Source: `blocks_init` on a fresh (empty, hence zero-filled) image file. -/
def blocks_init : Mem :=
  bitmap_put (memset (fun _ => 0) 0 0 BLOCK_SIZE) 0 0 true

/-! ## inode.c -/

structure Inode where
  refs : Int
  mode : Int
  size : Int
  blocks : Fin 4 → Int

structure State where
  mem : Mem
  inode_table : Nat → Inode

def Inode.set_block (n : Inode) (i : Fin 4) (b : Int) : Inode :=
  { n with blocks := Function.update n.blocks i b }

def State.set_inode (s : State) (i : Nat) (n : Inode) : State :=
  { s with inode_table := Function.update s.inode_table i n }

/-- Source: `get_inode`; `none` is the null pointer. -/
def get_inode (inum : Int) : Option Nat :=
  if inum < 0 ∨ inum ≥ MAX_FILES then none else some inum.toNat

/-- Source: `alloc_inode`. -/
def alloc_inode (s : State) : Int × State :=
  match find_from (fun i => (s.inode_table i).refs == 0) 0 MAX_FILES with
  | some i => ((i : Int), s.set_inode i { refs := 1, mode := 0, size := 0, blocks := fun _ => -1 })
  | none => (-1, s)

/-- One iteration of the loop of `free_inode` and `shrink_inode`. -/
def free_slot (node : Nat) (i : Fin 4) (s : State) : Option State :=
  if (s.inode_table node).blocks i ≠ -1 then
    match free_block s.mem ((s.inode_table node).blocks i) with
    | none => none
    | some m => some ({ s with mem := m }.set_inode node ((s.inode_table node).set_block i (-1)))
  else some s

/-- Source: `free_inode`. -/
def free_inode (s : State) (inum : Int) : Option State :=
  if inum < 0 ∨ inum ≥ MAX_FILES then some s
  else
    (((free_slot inum.toNat 0 s).bind (free_slot inum.toNat 1)).bind
      (free_slot inum.toNat 2)).bind fun s3 =>
    (free_slot inum.toNat 3 s3).bind fun s4 =>
    some (s4.set_inode inum.toNat
      { refs := 0, mode := 0, size := 0, blocks := (s4.inode_table inum.toNat).blocks })

/-- The loop of `grow_inode`, from slot `i`, with `n` iterations to go: the state after
the loop, and whether an allocation failed. -/
def grow_loop (node : Nat) : Nat → Nat → State → Option (Bool × State)
  | 0, _, s => some (true, s)
  | n + 1, i, s =>
    if h : i < 4 then
      if (s.inode_table node).blocks ⟨i, h⟩ = -1 then
        if (alloc_block s.mem).1 = -1 then some (false, s)
        else
          grow_loop node n (i + 1)
            ({ s with mem := (alloc_block s.mem).2 }.set_inode node
              ((s.inode_table node).set_block ⟨i, h⟩ (alloc_block s.mem).1))
      else grow_loop node n (i + 1) s
    else none

/-- Source: `grow_inode`. -/
def grow_inode (s : State) (node : Nat) (size : Int) : Option (Int × State) :=
  if size > MAX_FILE_SIZE then some (-EFBIG, s)
  else
    match grow_loop node ((size + BLOCK_SIZE - 1).tdiv BLOCK_SIZE).toNat 0 s with
    | none => none
    | some (false, s1) => some (-ENOSPC, s1)
    | some (true, s1) => some (0, s1.set_inode node { s1.inode_table node with size := size })

/-- Source: `inode_get_bnum`. -/
def inode_get_bnum (n : Inode) (file_bnum : Int) : Option Int :=
  if file_bnum ≥ 4 then some (-1)
  else if h : 0 ≤ file_bnum ∧ file_bnum.toNat < 4 then some (n.blocks ⟨file_bnum.toNat, h.2⟩)
  else none

/-! ## directory.c -/

/-- The test `strcmp(p, name) == 0` for the string stored at address `a`. -/
def streq (mem : Mem) : Nat → List Nat → Bool
  | a, [] => mem a == 0
  | a, c :: cs => mem a == c && streq mem (a + 1) cs

/-- The `int` stored in little-endian order at address `a`. -/
def load_int (mem : Mem) (a : Nat) : Int :=
  to_int (mem a + 256 * mem (a + 1) + 65536 * mem (a + 2) + 16777216 * mem (a + 3))

/-- Byte `j` of the `int` value `v`, little-endian. -/
def int_byte (v : Int) (j : Nat) : Nat := (v % 2 ^ 32).toNat / 256 ^ j % 256

def store_int (mem : Mem) (a : Nat) (v : Int) : Mem := memcpy mem a (int_byte v) 4

/-- The value of `di->size / sizeof(dir_entry_t)` assigned to an `int`. -/
def dir_count (size : Int) : Int := to_int (to_u64 size / DIR_ENTRY_SIZE)

/-- Address of `entries[i].name`. -/
def entry_addr (entries i : Nat) : Nat := entries + DIR_ENTRY_SIZE * i

/-- The scan shared by lookup, put and delete: the first `i < count` with
`strcmp(entries[i].name, name) == 0`. -/
def find_entry (mem : Mem) (entries : Nat) (count : Int) (name : List Nat) : Option Nat :=
  find_from (fun i => streq mem (entry_addr entries i) name) 0 count.toNat

/-- Source: `directory_init`. -/
def directory_init (s : State) : State :=
  { s with mem := (alloc_block s.mem).2 }.set_inode 0
    { refs := 1, mode := 0o040755, size := 0,
      blocks := fun i => if i = 0 then (alloc_block s.mem).1 else -1 }

/-- Source: `directory_lookup`. -/
def directory_lookup (s : State) (di : Nat) (name : List Nat) : Option Int :=
  if (s.inode_table di).blocks 0 = -1 then some (-1)
  else
    match blocks_get_block ((s.inode_table di).blocks 0) with
    | none => none
    | some entries =>
      match find_entry s.mem entries (dir_count (s.inode_table di).size) name with
      | some i => some (load_int s.mem (entry_addr entries i + DIR_NAME_LENGTH))
      | none => some (-1)

/-- The first step of `directory_put`: give the directory a block when it has none.
The result is the error to return, or the state to go on with. -/
def put_ensure_block (s : State) (di : Nat) : Int ⊕ State :=
  if (s.inode_table di).blocks 0 = -1 then
    if (alloc_block s.mem).1 = -1 then Sum.inl (-ENOSPC)
    else
      Sum.inr ({ s with mem := (alloc_block s.mem).2 }.set_inode di
        { s.inode_table di with
          size := 0
          blocks := Function.update (s.inode_table di).blocks 0 (alloc_block s.mem).1 })
  else Sum.inr s

/-- The stores of `directory_put` into `entries[count]`: `strncpy` of at most 47 bytes
padded with NUL, the terminating NUL at index 47, and the inode number. -/
def write_entry (mem : Mem) (a : Nat) (name : List Nat) (inum : Int) : Mem :=
  store_int (memcpy mem a (fun j => (name.take (DIR_NAME_LENGTH - 1)).getD j 0) DIR_NAME_LENGTH)
    (a + DIR_NAME_LENGTH) inum

/-- Source: `directory_put`. -/
def directory_put (s : State) (di : Nat) (name : List Nat) (inum : Int) : Option (Int × State) :=
  if name.length ≥ DIR_NAME_LENGTH then some (-ENAMETOOLONG, s)
  else
    match put_ensure_block s di with
    | Sum.inl e => some (e, s)
    | Sum.inr s1 =>
      match blocks_get_block ((s1.inode_table di).blocks 0) with
      | none => none
      | some entries =>
        match find_entry s1.mem entries (dir_count (s1.inode_table di).size) name with
        | some _ => some (-EEXIST, s1)
        | none =>
          if to_u64 (dir_count (s1.inode_table di).size + 1) * DIR_ENTRY_SIZE % 2 ^ 64
              > BLOCK_SIZE then some (-ENOSPC, s1)
          else if dir_count (s1.inode_table di).size < 0 then none
          else
            some (0,
              { s1 with
                mem := write_entry s1.mem
                  (entry_addr entries (dir_count (s1.inode_table di).size).toNat) name inum
                }.set_inode di
                { s1.inode_table di with size := (s1.inode_table di).size + DIR_ENTRY_SIZE })

/-- Source: `directory_delete`. -/
def directory_delete (s : State) (di : Nat) (name : List Nat) : Option (Int × State) :=
  if (s.inode_table di).blocks 0 = -1 then some (-ENOENT, s)
  else
    match blocks_get_block ((s.inode_table di).blocks 0) with
    | none => none
    | some entries =>
      match find_entry s.mem entries (dir_count (s.inode_table di).size) name with
      | some i =>
        some (0,
          { s with
            mem :=
              if (i : Int) < dir_count (s.inode_table di).size - 1 then
                memmove s.mem (entry_addr entries i) (entry_addr entries (i + 1))
                  (((dir_count (s.inode_table di).size).toNat - i - 1) * DIR_ENTRY_SIZE)
              else s.mem
            }.set_inode di
            { s.inode_table di with size := (s.inode_table di).size - DIR_ENTRY_SIZE })
      | none => some (-ENOENT, s)

/-- The C string starting at address `a`, as read by `strdup`; `none` when no NUL is
met within `fuel` bytes. -/
def cstr_at (mem : Mem) : Nat → Nat → Option (List Nat)
  | 0, _ => none
  | fuel + 1, a => if mem a = 0 then some [] else (cstr_at mem fuel (a + 1)).map (mem a :: ·)

/-- The loop of `directory_list`: `list = s_cons(strdup(entries[i].name), list)`.
Modelled from the spec: `slist.c` is not among the sources; `s_cons` puts the new
string in front of the list. -/
def list_loop (mem : Mem) (entries : Nat) : Nat → Nat → List (List Nat) → Option (List (List Nat))
  | 0, _, acc => some acc
  | n + 1, i, acc =>
    match cstr_at mem NUFS_SIZE (entry_addr entries i) with
    | none => none
    | some nm => list_loop mem entries n (i + 1) (nm :: acc)

/-- Source: `directory_list`; the null list is the empty list. -/
def directory_list (s : State) (di : Nat) : Option (List (List Nat)) :=
  if (s.inode_table di).blocks 0 = -1 then some []
  else
    match blocks_get_block ((s.inode_table di).blocks 0) with
    | none => none
    | some entries => list_loop s.mem entries (dir_count (s.inode_table di).size).toNat 0 []

/-- Source: `find_inode_by_name`. -/
def find_inode_by_name (s : State) (path : List Nat) : Option Int :=
  directory_lookup s 0 path

/-! ## nufs.c -/

structure Stat where
  st_mode : Nat
  st_size : Int
  st_uid : Nat
  st_nlink : Nat

/-- The result of `memset(st, 0, sizeof(struct stat))`. -/
def Stat.zero : Stat := { st_mode := 0, st_size := 0, st_uid := 0, st_nlink := 0 }

/-- The stores `inode->refs = 1; inode->mode = type | mode; inode->size = 0` of the two
create handlers. -/
def init_inode (n : Inode) (type mode : Nat) : Inode :=
  { n with refs := 1, mode := to_int ((type ||| mode) % 2 ^ 32), size := 0 }

/-- Source: `nufs_mknod`.  The character `/` is byte 47. -/
def nufs_mknod (s : State) (path : List Nat) (mode : Nat) : Option (Int × State) :=
  let filename := if path.head? = some 47 then path.tail else path
  match find_inode_by_name s filename with
  | none => none
  | some found =>
    if found ≠ -1 then some (-EEXIST, s)
    else if (alloc_inode s).1 = -1 then some (-ENOSPC, (alloc_inode s).2)
    else
      match get_inode (alloc_inode s).1 with
      | none => none
      | some i =>
        match directory_put
            ((alloc_inode s).2.set_inode i
              { init_inode ((alloc_inode s).2.inode_table i) S_IFREG mode with
                blocks := fun _ => -1 })
            0 filename (alloc_inode s).1 with
        | none => none
        | some (rv, s3) =>
          if rv < 0 then (free_inode s3 (alloc_inode s).1).map fun s4 => (-ENOSPC, s4)
          else some (0, s3)

/-- Source: `nufs_getattr`; `uid` is the value of `getuid()`. -/
def nufs_getattr (s : State) (uid : Nat) (path : List Nat) : Option (Int × Stat) :=
  if path = [47] then
    some (0, { Stat.zero with st_mode := S_IFDIR ||| 0o755, st_size := 0, st_uid := uid })
  else
    match path with
    | [] => none
    | _ :: filename =>
      match find_inode_by_name s filename with
      | none => none
      | some inum =>
        if inum = -1 then some (-ENOENT, Stat.zero)
        else
          match get_inode inum with
          | none => none
          | some i =>
            some (0,
              { st_mode := ((s.inode_table i).mode % 2 ^ 32).toNat
                st_size := (s.inode_table i).size
                st_uid := uid
                st_nlink := 1 })

/-- The first half of an iteration of the loop of `nufs_write`: the block to write to,
allocated when the slot is empty.  `none`: no normal return; `some none`: `break`. -/
def write_get_block (s : State) (node : Nat) (block_index : Int) :
    Option (Option (Int × State)) :=
  match inode_get_bnum (s.inode_table node) block_index with
  | none => none
  | some block_num =>
    if block_num = -1 then
      if (alloc_block s.mem).1 = -1 then some none
      else if h : 0 ≤ block_index ∧ block_index.toNat < 4 then
        some (some ((alloc_block s.mem).1,
          { s with mem := (alloc_block s.mem).2 }.set_inode node
            ((s.inode_table node).set_block ⟨block_index.toNat, h.2⟩ (alloc_block s.mem).1)))
      else none
    else some (some (block_num, s))

/-- The loop of `nufs_write`, at `bytes_written = bw`; every iteration writes at least
one byte, so `size` iterations always suffice. -/
def write_loop (buf : Nat → Nat) (size offset node : Nat) :
    Nat → Nat → State → Option (Nat × State)
  | 0, bw, s => if bw < size then none else some (bw, s)
  | fuel + 1, bw, s =>
    if bw < size then
      match write_get_block s node (to_int ((offset + bw) % 2 ^ 64 / BLOCK_SIZE)) with
      | none => none
      | some none => some (bw, s)
      | some (some (block_num, s1)) =>
        match blocks_get_block block_num with
        | none => none
        | some block =>
          write_loop buf size offset node fuel
            (bw + min (size - bw) (BLOCK_SIZE - (offset + bw) % 2 ^ 64 % BLOCK_SIZE))
            { s1 with
              mem := memcpy s1.mem (block + (offset + bw) % 2 ^ 64 % BLOCK_SIZE)
                (fun j => buf (bw + j))
                (min (size - bw) (BLOCK_SIZE - (offset + bw) % 2 ^ 64 % BLOCK_SIZE)) }
    else some (bw, s)

/-- Source: `nufs_write`, for a non-negative `offset`; `buf` gives the byte at each
index of the caller's buffer. -/
def nufs_write (s : State) (path : List Nat) (buf : Nat → Nat) (size offset : Nat) :
    Option (Int × State) :=
  match path with
  | [] => none
  | _ :: filename =>
    match find_inode_by_name s filename with
    | none => none
    | some inum =>
      if inum = -1 then some (-ENOENT, s)
      else if (offset + size) % 2 ^ 64 > MAX_FILE_SIZE then some (-EFBIG, s)
      else
        match get_inode inum with
        | none => none
        | some i =>
          match
            (if (offset + size) % 2 ^ 64 > to_u64 (s.inode_table i).size then
              grow_inode s i (to_int ((offset + size) % 2 ^ 64))
            else some (0, s)) with
          | none => none
          | some (rv, s1) =>
            if rv < 0 then some (-ENOSPC, s1)
            else
              match write_loop buf size offset i size 0 s1 with
              | none => none
              | some (bw, s2) =>
                some (to_int bw,
                  s2.set_inode i
                    { s2.inode_table i with
                      size :=
                        if (offset + bw) % 2 ^ 64 > to_u64 (s2.inode_table i).size then
                          to_int ((offset + bw) % 2 ^ 64)
                        else (s2.inode_table i).size })

/-- The loop of `nufs_read`; `acc` is what has been copied to the buffer so far, so
`bytes_read` is its length.  Every iteration reads at least one byte. -/
def read_loop (mem : Mem) (n : Inode) : Nat → Nat → Nat → List Nat → Option (List Nat)
  | 0, _, remaining, acc => if remaining > 0 then none else some acc
  | fuel + 1, offset, remaining, acc =>
    if remaining > 0 then
      match inode_get_bnum n (to_int (offset / BLOCK_SIZE)) with
      | none => none
      | some block_num =>
        if block_num = -1 then some acc
        else
          match blocks_get_block block_num with
          | none => none
          | some block =>
            read_loop mem n fuel
              (offset + min remaining (BLOCK_SIZE - offset % BLOCK_SIZE))
              (remaining - min remaining (BLOCK_SIZE - offset % BLOCK_SIZE))
              (acc ++ (List.range (min remaining (BLOCK_SIZE - offset % BLOCK_SIZE))).map
                fun j => mem (block + offset % BLOCK_SIZE + j))
    else some acc

/-- The clamped length `remaining` computed by `nufs_read`. -/
def read_remaining (isize : Int) (size offset : Nat) : Nat :=
  if (offset + size) % 2 ^ 64 > to_u64 isize then to_u64 (isize - offset) else size

/-- Source: `nufs_read`, for a non-negative `offset`: the return value and the bytes
copied to the start of `buf`. -/
def nufs_read (s : State) (path : List Nat) (size offset : Nat) :
    Option (Int × List Nat) :=
  match path with
  | [] => none
  | _ :: filename =>
    match find_inode_by_name s filename with
    | none => none
    | some inum =>
      if inum = -1 then some (-ENOENT, [])
      else
        match get_inode inum with
        | none => none
        | some i =>
          if (offset : Int) ≥ (s.inode_table i).size then some (0, [])
          else
            match read_loop s.mem (s.inode_table i)
                (read_remaining (s.inode_table i).size size offset) offset
                (read_remaining (s.inode_table i).size size offset) [] with
            | none => none
            | some out => some (to_int out.length, out)

/-- The loop of `nufs_readdir` over the listed names; `st` is the `struct stat` that is
reused from one `filler` call to the next. -/
def readdir_loop (s : State) : List (List Nat) → Stat → Option (List (List Nat × Stat))
  | [], _ => some []
  | nm :: rest, st =>
    match find_inode_by_name s nm with
    | none => none
    | some inum =>
      if inum ≥ 0 then
        match get_inode inum with
        | none => none
        | some i =>
          (readdir_loop s rest
            { st with st_mode := ((s.inode_table i).mode % 2 ^ 32).toNat
                      st_size := (s.inode_table i).size }).map
            fun out =>
              (nm, { st with st_mode := ((s.inode_table i).mode % 2 ^ 32).toNat
                             st_size := (s.inode_table i).size }) :: out
      else readdir_loop s rest st

/-- Source: `nufs_readdir`: the return value and the sequence of `filler` calls.
The bytes 46 are the character `.`. -/
def nufs_readdir (s : State) : Option (Int × List (List Nat × Stat)) :=
  match directory_list s 0 with
  | none => none
  | some entries =>
    (readdir_loop s entries Stat.zero).map fun out =>
      (0, ([46], Stat.zero) :: ([46, 46], Stat.zero) :: out)

/-- Source: `nufs_unlink`. -/
def nufs_unlink (s : State) (path : List Nat) : Option (Int × State) :=
  match path with
  | [] => none
  | _ :: filename =>
    match directory_lookup s 0 filename with
    | none => none
    | some inum =>
      if inum = -1 then some (-ENOENT, s)
      else
        match get_inode inum with
        | none => none
        | some i =>
          match directory_delete
              (s.set_inode i { s.inode_table i with refs := (s.inode_table i).refs - 1 })
              0 filename with
          | none => none
          | some (_, s2) =>
            if (s2.inode_table i).refs ≤ 0 then (free_inode s2 inum).map fun s3 => (0, s3)
            else some (0, s2)

/-- Source: `nufs_rename`. -/
def nufs_rename (s : State) (src dst : List Nat) : Option (Int × State) :=
  match src, dst with
  | _ :: src_name, _ :: dst_name =>
    match directory_lookup s 0 src_name with
    | none => none
    | some inum =>
      if inum = -1 then some (-ENOENT, s)
      else
        match directory_lookup s 0 dst_name with
        | none => none
        | some found =>
          match (if found ≠ -1 then (directory_delete s 0 dst_name).map Prod.snd
                 else some s) with
          | none => none
          | some s1 =>
            match directory_delete s1 0 src_name with
            | none => none
            | some (_, s2) => directory_put s2 0 dst_name inum
  | _, _ => none

/-- Source: `nufs_mkdir`. -/
def nufs_mkdir (s : State) (path : List Nat) (mode : Nat) : Option (Int × State) :=
  let dirname := if path.head? = some 47 then path.tail else path
  match find_inode_by_name s dirname with
  | none => none
  | some found =>
    if found ≠ -1 then some (-EEXIST, s)
    else if (alloc_inode s).1 = -1 then some (-ENOSPC, (alloc_inode s).2)
    else
      match get_inode (alloc_inode s).1 with
      | none => none
      | some i =>
        match directory_put
            ({ (alloc_inode s).2 with mem := (alloc_block (alloc_inode s).2.mem).2 }.set_inode i
              { init_inode ((alloc_inode s).2.inode_table i) S_IFDIR mode with
                blocks := fun k => if k = 0 then (alloc_block (alloc_inode s).2.mem).1 else -1 })
            0 dirname (alloc_inode s).1 with
        | none => none
        | some (rv, s3) =>
          if rv < 0 then
            match free_block s3.mem ((s3.inode_table i).blocks 0) with
            | none => none
            | some m => (free_inode { s3 with mem := m } (alloc_inode s).1).map fun s4 => (rv, s4)
          else some (0, s3)

/-- The state after `blocks_init` on a fresh image and `directory_init`, as in `main`;
the static inode table starts zero-filled. -/
def init_state : State :=
  directory_init
    { mem := blocks_init
      inode_table := fun _ => { refs := 0, mode := 0, size := 0, blocks := fun _ => 0 } }

/-! ## Notions used to state the properties -/

/-- Logical block `k` of the inode is mapped: `k < 4` and the slot is not `-1`. -/
def slot_allocated (n : Inode) (k : Nat) : Prop :=
  ∃ h : k < 4, n.blocks ⟨k, h⟩ ≠ -1

/-- Every direct slot is `-1` or the index of a block of the image. -/
def slots_valid (n : Inode) : Prop :=
  ∀ k : Fin 4, n.blocks k = -1 ∨ (0 ≤ n.blocks k ∧ n.blocks k < BLOCK_COUNT)

/-- The byte stored at file position `p`, through the direct-block mapping. -/
def file_byte (mem : Mem) (n : Inode) (p : Nat) : Nat :=
  if h : p / BLOCK_SIZE < 4 then
    mem (BLOCK_SIZE * (n.blocks ⟨p / BLOCK_SIZE, h⟩).toNat + p % BLOCK_SIZE)
  else 0

/-- The stored bytes at file positions `[offset, offset + count)`. -/
def file_bytes (mem : Mem) (n : Inode) (offset count : Nat) : List Nat :=
  (List.range count).map fun j => file_byte mem n (offset + j)

/-- The clamped read length in the words of the spec: `max(0, min(length, size - offset))`. -/
def clamped_length (isize : Int) (length offset : Nat) : Nat :=
  (max 0 (min (length : Int) (isize - offset))).toNat

/-- The address, relative to `blocks_base`, of the byte at file position `p`. -/
def file_addr (n : Inode) (p : Nat) : Nat :=
  if h : p / BLOCK_SIZE < 4 then
    BLOCK_SIZE * (n.blocks ⟨p / BLOCK_SIZE, h⟩).toNat + p % BLOCK_SIZE
  else 0

/-- The number of free blocks: the clear bits among bits 1..255 of the bit vector. -/
def free_blocks (mem : Mem) : Nat :=
  ((Finset.Ico 1 BLOCK_COUNT).filter fun j => bitmap_get mem 0 j = false).card

/-- The number of blocks a file of `size` bytes needs, `ceil(size / BLOCK_SIZE)`. -/
def blocks_needed (size : Nat) : Nat := (size + BLOCK_SIZE - 1) / BLOCK_SIZE

/-- The bytes of the name field at address `a` before its first NUL, reading at most
`fuel` bytes. -/
def read_name (mem : Mem) : Nat → Nat → List Nat
  | 0, _ => []
  | fuel + 1, a => if mem a = 0 then [] else mem a :: read_name mem fuel (a + 1)

/-- The name held by the directory entry at address `a`. -/
def entry_name (mem : Mem) (a : Nat) : List Nat := read_name mem DIR_NAME_LENGTH a

/-- The address of the entry array of directory `di`. -/
def dir_base (s : State) (di : Nat) : Nat := BLOCK_SIZE * ((s.inode_table di).blocks 0).toNat

/-- The number of entries of directory `di`. -/
def dir_len (s : State) (di : Nat) : Nat := (dir_count (s.inode_table di).size).toNat

/-- The entries of directory `di` as (name, inode number) pairs, in slot order. -/
def dir_entries (s : State) (di : Nat) : List (List Nat × Int) :=
  (List.range (dir_len s di)).map fun i =>
    (entry_name s.mem (entry_addr (dir_base s di) i),
      load_int s.mem (entry_addr (dir_base s di) i + DIR_NAME_LENGTH))

/-- Lookup in a list of entries: the inode number of the first entry with the name,
or `-1`. -/
def lookup_entries (l : List (List Nat × Int)) (name : List Nat) : Int :=
  match l.find? fun e => e.1 == name with
  | some e => e.2
  | none => -1

/-- A well-formed directory inode: it has a data block other than block 0, its size is
within that block and a multiple of the entry size, and every entry's name is
NUL-terminated inside its name field. -/
def dir_ok (s : State) (di : Nat) : Prop :=
  1 ≤ (s.inode_table di).blocks 0 ∧ (s.inode_table di).blocks 0 < BLOCK_COUNT ∧
    0 ≤ (s.inode_table di).size ∧ (s.inode_table di).size ≤ BLOCK_SIZE ∧
    (s.inode_table di).size % DIR_ENTRY_SIZE = 0 ∧
    ∀ e ∈ dir_entries s di, e.1.length < DIR_NAME_LENGTH

instance (s : State) (di : Nat) : Decidable (dir_ok s di) := by
  unfold dir_ok
  infer_instance

/-- The bytes of a C string: none of them is NUL. -/
def is_name (name : List Nat) : Prop := ∀ c ∈ name, c ≠ 0

instance (name : List Nat) : Decidable (is_name name) := by
  unfold is_name
  infer_instance

/-- The relation between the state `s` at the start of `free_inode` on `node` and the
state `c` reached inside its loop: only slots of `node` were set to `-1`, only bits of
blocks held by `node` were cleared, and the bit of every slot emptied so far is clear. -/
def freeing (node : Nat) (s c : State) : Prop :=
  (∀ j, j ≠ node → c.inode_table j = s.inode_table j) ∧
    (c.inode_table node).refs = (s.inode_table node).refs ∧
    (c.inode_table node).mode = (s.inode_table node).mode ∧
    (c.inode_table node).size = (s.inode_table node).size ∧
    (∀ k, (c.inode_table node).blocks k = (s.inode_table node).blocks k ∨
      (c.inode_table node).blocks k = -1) ∧
    (∀ a, BLOCK_COUNT / 8 ≤ a → c.mem a = s.mem a) ∧
    (∀ k, (s.inode_table node).blocks k ≠ -1 → (c.inode_table node).blocks k = -1 →
      bitmap_get c.mem 0 ((s.inode_table node).blocks k).toNat = false) ∧
    ∀ j, (∀ k, (s.inode_table node).blocks k ≠ -1 → ((s.inode_table node).blocks k).toNat ≠ j) →
      bitmap_get c.mem 0 j = bitmap_get s.mem 0 j

/-- The relation between the state `s` before a run of block allocations for inode
`node` and the state `c` after it: only empty slots of `node` were filled, each with a
block that was free in `s`, the filled slots hold pairwise distinct blocks, the bits set
in `c` are those set in `s` and those of the filled slots, and the bytes of every block
in use in `s` are as they were. -/
def grown (node : Nat) (s c : State) : Prop :=
  (∀ j, j ≠ node → c.inode_table j = s.inode_table j) ∧
    (c.inode_table node).refs = (s.inode_table node).refs ∧
    (c.inode_table node).mode = (s.inode_table node).mode ∧
    (c.inode_table node).size = (s.inode_table node).size ∧
    (∀ k, (c.inode_table node).blocks k = (s.inode_table node).blocks k ∨
      ((s.inode_table node).blocks k = -1 ∧ 1 ≤ (c.inode_table node).blocks k ∧
        (c.inode_table node).blocks k < BLOCK_COUNT ∧
        bitmap_get s.mem 0 ((c.inode_table node).blocks k).toNat = false)) ∧
    (∀ k k2, k ≠ k2 → (s.inode_table node).blocks k = -1 →
      (c.inode_table node).blocks k ≠ -1 → (s.inode_table node).blocks k2 = -1 →
      (c.inode_table node).blocks k ≠ (c.inode_table node).blocks k2) ∧
    (∀ j, j < BLOCK_COUNT →
      (bitmap_get c.mem 0 j = true ↔
        bitmap_get s.mem 0 j = true ∨
          ∃ k, (s.inode_table node).blocks k = -1 ∧ (c.inode_table node).blocks k = (j : Int))) ∧
    ∀ a, BLOCK_SIZE ≤ a → bitmap_get s.mem 0 (a / BLOCK_SIZE) = true → c.mem a = s.mem a

/-- Inserting the entries of `l` one after the other with `directory_put`; `none` as soon
as an insert does not return 0. -/
def put_all (di : Nat) : List (List Nat × Int) → State → Option State
  | [], s => some s
  | e :: l, s =>
    match directory_put s di e.1 e.2 with
    | some (rv, s1) => if rv = 0 then put_all di l s1 else none
    | none => none

/-- The representation invariant of the storage engine that every handler keeps.  An
inode is live when its `refs` is not 0.  The root directory holds block 1, marked used,
and no other live inode holds it. -/
structure Inv (s : State) : Prop where
  root : (s.inode_table 0).refs = 1
  refs : ∀ i, i < MAX_FILES → (s.inode_table i).refs = 0 ∨ (s.inode_table i).refs = 1
  slots : ∀ i, i < MAX_FILES → (s.inode_table i).refs ≠ 0 → ∀ k : Fin 4,
    (s.inode_table i).blocks k = -1 ∨
      (1 ≤ (s.inode_table i).blocks k ∧ (s.inode_table i).blocks k < BLOCK_COUNT)
  rootblk : (s.inode_table 0).blocks 0 = 1
  rootbit : bitmap_get s.mem 0 1 = true
  priv : ∀ i, i < MAX_FILES → i ≠ 0 → (s.inode_table i).refs ≠ 0 → ∀ k : Fin 4,
    (s.inode_table i).blocks k ≠ 1
  sizes : ∀ i, i < MAX_FILES → (s.inode_table i).refs ≠ 0 →
    0 ≤ (s.inode_table i).size ∧ (s.inode_table i).size ≤ MAX_FILE_SIZE ∧
      ∀ k : Fin 4, ((BLOCK_SIZE * k.val : Nat) : Int) < (s.inode_table i).size →
        (s.inode_table i).blocks k ≠ -1
  dir : dir_ok s 0
  names : ((dir_entries s 0).map Prod.fst).Nodup
  inums : ((dir_entries s 0).map Prod.snd).Nodup
  live : ∀ e ∈ dir_entries s 0,
    1 ≤ e.2 ∧ e.2 < MAX_FILES ∧ (s.inode_table e.2.toNat).refs = 1

/-- Modelled from the spec: `bitmap.c` is not among the sources, and the spec gives
`release` no meaning at an index below 0.  The memory after `bitmap_put(bbm, -1, 0)`:
`hit` tells whether the helper stores into the bit vector, at byte `-1 / 8 = 0` and bit
`-1 & 7 = 7`, or stores nothing inside the image. -/
def oob_release (mem : Mem) (hit : Bool) : Mem :=
  if hit then bitmap_put mem 0 7 false else mem

/-- Source: `nufs_mkdir` on the path where the unchecked `alloc_block()` returned `-1`
and the insert failed, so that the rollback calls `free_block(-1)`: that call leaves the
memory `oob_release s3.mem hit`, and `free_inode(inum); return rv` follow.  The result is
`none` when the call does not take this path. -/
def nufs_mkdir_oob (s : State) (path : List Nat) (mode : Nat) (hit : Bool) :
    Option (Int × State) :=
  let dirname := if path.head? = some 47 then path.tail else path
  match find_inode_by_name s dirname with
  | none => none
  | some found =>
    if found ≠ -1 then none
    else if (alloc_inode s).1 = -1 then none
    else
      match get_inode (alloc_inode s).1 with
      | none => none
      | some i =>
        match directory_put
            ({ (alloc_inode s).2 with mem := (alloc_block (alloc_inode s).2.mem).2 }.set_inode i
              { init_inode ((alloc_inode s).2.inode_table i) S_IFDIR mode with
                blocks := fun k => if k = 0 then (alloc_block (alloc_inode s).2.mem).1 else -1 })
            0 dirname (alloc_inode s).1 with
        | none => none
        | some (rv, s3) =>
          if rv < 0 ∧ (s3.inode_table i).blocks 0 < 0 then
            (free_inode { s3 with mem := oob_release s3.mem hit } (alloc_inode s).1).map
              fun s4 => (rv, s4)
          else none

/-- The states reachable from initialization by calls of the operation handlers.  A
path is a C string (`is_name`: no NUL byte); the buffer of a write has fewer than
`2 ^ 63` bytes and its offset is a non-negative `off_t`, so `offset + size` does not wrap
around in `size_t`.  The step `mkdir_oob` is the call of `nufs_mkdir` whose rollback
makes the out-of-range call `free_block(-1)`. -/
inductive Reachable : State → Prop
  | init : Reachable init_state
  | mknod (s s2 : State) (path : List Nat) (mode : Nat) (rv : Int) :
    Reachable s → is_name path → nufs_mknod s path mode = some (rv, s2) → Reachable s2
  | mkdir (s s2 : State) (path : List Nat) (mode : Nat) (rv : Int) :
    Reachable s → is_name path → nufs_mkdir s path mode = some (rv, s2) → Reachable s2
  | mkdir_oob (s s2 : State) (path : List Nat) (mode : Nat) (hit : Bool) (rv : Int) :
    Reachable s → is_name path → nufs_mkdir_oob s path mode hit = some (rv, s2) →
    Reachable s2
  | write (s s2 : State) (path : List Nat) (buf : Nat → Nat) (size offset : Nat) (rv : Int) :
    Reachable s → is_name path → offset + size < 2 ^ 64 →
    nufs_write s path buf size offset = some (rv, s2) → Reachable s2
  | unlink (s s2 : State) (path : List Nat) (rv : Int) :
    Reachable s → is_name path → nufs_unlink s path = some (rv, s2) → Reachable s2
  | rename (s s2 : State) (src dst : List Nat) (rv : Int) :
    Reachable s → is_name src → is_name dst → nufs_rename s src dst = some (rv, s2) →
    Reachable s2
  | read (s : State) (path : List Nat) (size offset : Nat) (r : Int × List Nat) :
    Reachable s → nufs_read s path size offset = some r → Reachable s
  | getattr (s : State) (uid : Nat) (path : List Nat) (r : Int × Stat) :
    Reachable s → nufs_getattr s uid path = some r → Reachable s
  | readdir (s : State) (r : Int × List (List Nat × Stat)) :
    Reachable s → nufs_readdir s = some r → Reachable s

/-- The test `S_ISDIR(mode)` of `sys/stat.h`: the file-type bits `mode & 0170000` are
those of a directory. -/
def is_dir (mode : Int) : Prop := (mode % 2 ^ 32).toNat &&& 0o170000 = S_IFDIR

instance (mode : Int) : Decidable (is_dir mode) := by
  unfold is_dir
  infer_instance

/-- The reachable states when `nufs_write` is applied only to paths that do not resolve
to a directory-typed inode. -/
inductive ReachableFiles : State → Prop
  | init : ReachableFiles init_state
  | mknod (s s2 : State) (path : List Nat) (mode : Nat) (rv : Int) :
    ReachableFiles s → is_name path → nufs_mknod s path mode = some (rv, s2) →
    ReachableFiles s2
  | mkdir (s s2 : State) (path : List Nat) (mode : Nat) (rv : Int) :
    ReachableFiles s → is_name path → nufs_mkdir s path mode = some (rv, s2) →
    ReachableFiles s2
  | mkdir_oob (s s2 : State) (path : List Nat) (mode : Nat) (hit : Bool) (rv : Int) :
    ReachableFiles s → is_name path → nufs_mkdir_oob s path mode hit = some (rv, s2) →
    ReachableFiles s2
  | write (s s2 : State) (path : List Nat) (buf : Nat → Nat) (size offset : Nat) (rv : Int) :
    ReachableFiles s → is_name path → offset + size < 2 ^ 64 →
    (∀ i : Nat, find_inode_by_name s path.tail = some (i : Int) →
      ¬is_dir (s.inode_table i).mode) →
    nufs_write s path buf size offset = some (rv, s2) → ReachableFiles s2
  | unlink (s s2 : State) (path : List Nat) (rv : Int) :
    ReachableFiles s → is_name path → nufs_unlink s path = some (rv, s2) → ReachableFiles s2
  | rename (s s2 : State) (src dst : List Nat) (rv : Int) :
    ReachableFiles s → is_name src → is_name dst → nufs_rename s src dst = some (rv, s2) →
    ReachableFiles s2
  | read (s : State) (path : List Nat) (size offset : Nat) (r : Int × List Nat) :
    ReachableFiles s → nufs_read s path size offset = some r → ReachableFiles s
  | getattr (s : State) (uid : Nat) (path : List Nat) (r : Int × Stat) :
    ReachableFiles s → nufs_getattr s uid path = some r → ReachableFiles s
  | readdir (s : State) (r : Int × List (List Nat × Stat)) :
    ReachableFiles s → nufs_readdir s = some r → ReachableFiles s

/-! ## Concrete states -/

/-- The state a handler call leaves behind (the initial state when it does not return). -/
def state_of (r : Option (Int × State)) : State :=
  match r with
  | some (_, s) => s
  | none => init_state

/-- After `mknod("/a", 0644)` on the initial state. -/
def demo_created : State := state_of (nufs_mknod init_state [47, 97] 0o644)

/-- A buffer content without NUL bytes. -/
def demo_buf (j : Nat) : Nat := j % 251 + 1

/-- After writing 5000 bytes at offset 0 to `/a`. -/
def demo_written : State := state_of (nufs_write demo_created [47, 97] demo_buf 5000 0)

/-- After creating a second file `/b`. -/
def demo_two : State := state_of (nufs_mknod demo_written [47, 98] 0o644)

/-- The initial state with every bit of the block bit vector set: no free block. -/
def demo_full : State := { init_state with mem := memset init_state.mem 0 255 (BLOCK_COUNT / 8) }

/-- A path whose name has 48 bytes, one more than a directory entry can hold. -/
def demo_long_path : List Nat := 47 :: List.replicate 48 97

/-- After `mkdir("/d", 0755)` on the initial state. -/
def demo_dir : State := state_of (nufs_mkdir init_state [47, 100] 0o755)

/-- After writing 5 bytes at offset 0 to the path `/d` of that directory. -/
def demo_dir_written : State := state_of (nufs_write demo_dir [47, 100] demo_buf 5 0)

/-- Sixty-four pairwise distinct names of 47 bytes, the longest a directory entry holds,
each with an inode number. -/
def demo_names : List (List Nat × Int) :=
  (List.range 64).map fun i => ((48 + i) :: List.replicate 46 97, ((i + 1 : Nat) : Int))

/-! ## The bounded scan -/

theorem find_from_eq_some_iff (p : Nat → Bool) (n lo i : Nat) :
    find_from p lo n = some i ↔
      lo ≤ i ∧ i < lo + n ∧ p i = true ∧ ∀ j, lo ≤ j → j < i → p j = false := by
  induction n generalizing lo with
  | zero =>
    unfold find_from
    constructor
    · intro h
      cases h
    · rintro ⟨h1, h2, -⟩
      omega
  | succ n ih =>
    unfold find_from
    by_cases hp : p lo = true
    · rw [if_pos hp]
      constructor
      · intro h
        have hi : lo = i := Option.some.inj h
        subst hi
        exact ⟨le_refl _, by omega, hp, fun j h1 h2 => by omega⟩
      · rintro ⟨h1, _, _, h4⟩
        by_cases hne : lo = i
        · rw [hne]
        · have := h4 lo (le_refl _) (by omega)
          rw [hp] at this
          cases this
    · rw [if_neg hp, ih]
      have hpf : p lo = false := by simpa using hp
      constructor
      · rintro ⟨h1, h2, h3, h4⟩
        refine ⟨by omega, by omega, h3, fun j h5 h6 => ?_⟩
        by_cases hj : j = lo
        · rw [hj]; exact hpf
        · exact h4 j (by omega) h6
      · rintro ⟨h1, h2, h3, h4⟩
        have hne : lo ≠ i := by
          intro h
          rw [h] at hpf
          rw [hpf] at h3
          cases h3
        exact ⟨by omega, by omega, h3, fun j h5 h6 => h4 j (by omega) h6⟩

theorem find_from_eq_none_iff (p : Nat → Bool) (n lo : Nat) :
    find_from p lo n = none ↔ ∀ j, lo ≤ j → j < lo + n → p j = false := by
  induction n generalizing lo with
  | zero =>
    simp only [find_from, true_iff]
    intro j h1 h2
    omega
  | succ n ih =>
    unfold find_from
    by_cases hp : p lo = true
    · rw [if_pos hp]
      constructor
      · intro h
        cases h
      · intro h
        have := h lo (le_refl _) (by omega)
        rw [hp] at this
        cases this
    · rw [if_neg hp, ih]
      have hpf : p lo = false := by simpa using hp
      constructor
      · intro h j h1 h2
        by_cases hj : j = lo
        · rw [hj]; exact hpf
        · exact h j (by omega) (by omega)
      · intro h j h1 h2
        exact h j (by omega) (by omega)

theorem find_from_congr (p q : Nat → Bool) (n lo : Nat)
    (h : ∀ j, lo ≤ j → j < lo + n → p j = q j) : find_from p lo n = find_from q lo n := by
  induction n generalizing lo with
  | zero => rfl
  | succ n ih =>
    unfold find_from
    rw [h lo (le_refl _) (by omega), ih (lo + 1) fun j h1 h2 => h j (by omega) (by omega)]

/-! ## The bit vector -/

theorem bitmap_get_put (mem : Mem) (i j : Nat) (v : Bool) :
    bitmap_get (bitmap_put mem 0 i v) 0 j = if j = i then v else bitmap_get mem 0 j := by
  unfold bitmap_get bitmap_put
  by_cases h8 : j / 8 = i / 8
  · have hj8 : j % 8 < 8 := Nat.mod_lt _ (by norm_num)
    have h255 : (255 : Nat).testBit (j % 8) = true := by
      have := Nat.testBit_two_pow_sub_one 8 (j % 8)
      simpa [hj8] using this
    rw [h8, Function.update_same]
    by_cases hji : j = i
    · subst hji
      cases v <;>
        simp [Nat.testBit_lor, Nat.testBit_and, Nat.testBit_xor, Nat.one_shiftLeft,
          Nat.testBit_two_pow, h255]
    · have hmod : i % 8 ≠ j % 8 := by omega
      cases v <;>
        simp [Nat.testBit_lor, Nat.testBit_and, Nat.testBit_xor, Nat.one_shiftLeft,
          Nat.testBit_two_pow, h255, hji, hmod]
  · have hji : j ≠ i := by
      rintro rfl
      exact h8 rfl
    have hne : 0 + j / 8 ≠ 0 + i / 8 := by omega
    simp only [Function.update_noteq hne, hji, if_false]

theorem bitmap_put_apply_of_ne (mem : Mem) (i a : Nat) (v : Bool) (h : a ≠ i / 8) :
    bitmap_put mem 0 i v a = mem a := by
  unfold bitmap_put
  exact Function.update_noteq (by omega) _ _

theorem bitmap_get_congr (m1 m2 : Mem) (j : Nat) (h : m1 (j / 8) = m2 (j / 8)) :
    bitmap_get m1 0 j = bitmap_get m2 0 j := by
  unfold bitmap_get
  simp only [Nat.zero_add, h]


/-! ## alloc_block -/

theorem alloc_block_cases (mem : Mem) :
    ((alloc_block mem).1 = -1 ∧ (alloc_block mem).2 = mem ∧
        ∀ j, 1 ≤ j → j < BLOCK_COUNT → bitmap_get mem 0 j = true) ∨
      ∃ i : Nat, (alloc_block mem).1 = (i : Int) ∧ (alloc_block mem).2 = alloc_mem mem i ∧
        1 ≤ i ∧ i < BLOCK_COUNT ∧ bitmap_get mem 0 i = false ∧
        ∀ j, 1 ≤ j → j < i → bitmap_get mem 0 j = true := by
  unfold alloc_block
  cases hf : find_from (fun ii => !bitmap_get mem 0 ii) 1 (BLOCK_COUNT - 1) with
  | none =>
    left
    refine ⟨rfl, rfl, fun j h1 h2 => ?_⟩
    have := (find_from_eq_none_iff _ _ _).1 hf j h1 (by omega)
    simpa using this
  | some i =>
    right
    obtain ⟨h1, h2, h3, h4⟩ := (find_from_eq_some_iff _ _ _ _).1 hf
    refine ⟨i, rfl, rfl, h1, by omega, by simpa using h3, fun j hj1 hj2 => ?_⟩
    have := h4 j hj1 hj2
    simpa using this

theorem alloc_mem_apply (mem : Mem) (i a : Nat) (h1 : a ≠ i / 8)
    (h2 : a < BLOCK_SIZE * i ∨ BLOCK_SIZE * i + BLOCK_SIZE ≤ a) : alloc_mem mem i a = mem a := by
  unfold alloc_mem memset
  simp only [BLOCK_SIZE] at h2 ⊢
  rw [if_neg (by omega), bitmap_put_apply_of_ne _ _ _ _ h1]

theorem alloc_mem_block (mem : Mem) (i o : Nat) (h : o < BLOCK_SIZE) :
    alloc_mem mem i (BLOCK_SIZE * i + o) = 0 := by
  unfold alloc_mem memset
  simp only [BLOCK_SIZE] at h ⊢
  rw [if_pos (by omega)]

theorem alloc_mem_bit (mem : Mem) (i j : Nat) (hi : 1 ≤ i) (hj : j < 8 * BLOCK_SIZE) :
    bitmap_get (alloc_mem mem i) 0 j = if j = i then true else bitmap_get mem 0 j := by
  rw [← bitmap_get_put mem i j true]
  apply bitmap_get_congr
  unfold alloc_mem memset
  simp only [BLOCK_SIZE] at hj ⊢
  rw [if_neg (by omega)]

/-! ## Machine integers -/

theorem to_int_of_lt (u : Nat) (h : u < 2 ^ 31) : to_int u = (u : Int) := by
  unfold to_int
  have h1 : u % 2 ^ 32 = u := Nat.mod_eq_of_lt (by omega)
  rw [h1, if_pos h]

theorem to_u64_natCast (u : Nat) (h : u < 2 ^ 64) : to_u64 (u : Int) = u := by
  unfold to_u64
  omega

theorem to_int_nonneg_of_lt (u : Nat) (h : u < 2 ^ 31) : 0 ≤ to_int u := by
  rw [to_int_of_lt u h]
  omega

/-! ## The direct-block mapping -/

theorem inode_get_bnum_lt (n : Inode) (k : Nat) (h : k < 4) :
    inode_get_bnum n (k : Int) = some (n.blocks ⟨k, h⟩) := by
  unfold inode_get_bnum
  rw [if_neg (by omega)]
  have h2 : 0 ≤ (k : Int) ∧ (k : Int).toNat < 4 := ⟨by omega, by simpa using h⟩
  rw [dif_pos h2]
  simp

theorem inode_get_bnum_ge (n : Inode) (k : Nat) (h : 4 ≤ k) :
    inode_get_bnum n (k : Int) = some (-1) := by
  unfold inode_get_bnum
  rw [if_pos (by omega)]

theorem inode_get_bnum_not_allocated (n : Inode) (k : Nat) (h : ¬slot_allocated n k) :
    inode_get_bnum n (k : Int) = some (-1) := by
  by_cases hk : k < 4
  · rw [inode_get_bnum_lt n k hk]
    by_contra hne
    exact h ⟨hk, fun hb => hne (by rw [hb])⟩
  · exact inode_get_bnum_ge n k (by omega)

theorem blocks_get_block_valid (b : Int) (h0 : 0 ≤ b) (h1 : b < BLOCK_COUNT) :
    blocks_get_block b = some (BLOCK_SIZE * b.toNat) := by
  unfold blocks_get_block
  rw [if_pos ⟨h0, h1⟩]

theorem file_byte_eq (mem : Mem) (n : Inode) (p k : Nat) (hk : k < 4) (hp : p / BLOCK_SIZE = k) :
    file_byte mem n p = mem (BLOCK_SIZE * (n.blocks ⟨k, hk⟩).toNat + p % BLOCK_SIZE) := by
  subst hp
  unfold file_byte
  rw [dif_pos hk]

theorem file_bytes_length (mem : Mem) (n : Inode) (o c : Nat) :
    (file_bytes mem n o c).length = c := by
  simp [file_bytes]

theorem file_bytes_add (mem : Mem) (n : Inode) (o a b : Nat) :
    file_bytes mem n o (a + b) = file_bytes mem n o a ++ file_bytes mem n (o + a) b := by
  unfold file_bytes
  rw [List.range_add, List.map_append, List.map_map]
  congr 1
  apply List.map_congr_left
  intro j _
  simp [Nat.add_assoc]

/-! ## The read loop -/

theorem read_loop_spec (mem : Mem) (n : Inode) (hv : slots_valid n) :
    ∀ (fuel offset remaining stop : Nat) (acc : List Nat),
      remaining ≤ fuel → offset + remaining < 2 ^ 31 →
      offset ≤ stop → stop ≤ offset + remaining →
      (offset < stop →
        ∀ k, offset / BLOCK_SIZE ≤ k → BLOCK_SIZE * k < stop → slot_allocated n k) →
      (stop = offset + remaining ∨
        (¬slot_allocated n (stop / BLOCK_SIZE) ∧ (stop = offset ∨ stop % BLOCK_SIZE = 0))) →
      read_loop mem n fuel offset remaining acc =
        some (acc ++ file_bytes mem n offset (stop - offset)) := by
  intro fuel
  induction fuel with
  | zero =>
    intro offset remaining stop acc h1 _ h3 h4 _ _
    have hr : remaining = 0 := by omega
    have hs : stop - offset = 0 := by omega
    subst hr
    simp [read_loop, hs, file_bytes]
  | succ fuel ih =>
    intro offset remaining stop acc h1 h2 h3 h4 h5 h6
    unfold read_loop
    by_cases hr : remaining > 0
    · rw [if_pos hr]
      have hidx : offset / BLOCK_SIZE < 2 ^ 31 := by
        have := Nat.div_le_self offset BLOCK_SIZE
        omega
      rw [to_int_of_lt _ hidx]
      by_cases hso : stop = offset
      · have hna : ¬slot_allocated n (offset / BLOCK_SIZE) := by
          rcases h6 with h6 | ⟨h6, _⟩
          · omega
          · rw [hso] at h6
            exact h6
        rw [inode_get_bnum_not_allocated n _ hna]
        simp [hso, file_bytes]
      · have hgt : offset < stop := by omega
        have hal : slot_allocated n (offset / BLOCK_SIZE) := by
          apply h5 hgt _ (le_refl _)
          have := Nat.mul_div_le offset BLOCK_SIZE
          omega
        obtain ⟨hk, hb⟩ := hal
        rw [inode_get_bnum_lt n _ hk]
        simp only [hb, if_false]
        rcases hv ⟨offset / BLOCK_SIZE, hk⟩ with hbad | ⟨hb0, hb1⟩
        · exact absurd hbad hb
        rw [blocks_get_block_valid _ hb0 hb1]
        simp only
        have hmod : offset % BLOCK_SIZE < BLOCK_SIZE := Nat.mod_lt _ (by norm_num)
        have hdm := Nat.div_add_mod offset BLOCK_SIZE
        have hbb : offset + min remaining (BLOCK_SIZE - offset % BLOCK_SIZE) ≤ stop := by
          rcases h6 with h6 | ⟨_, h6⟩
          · omega
          · rcases h6 with h6 | h6
            · omega
            · have hdm2 := Nat.div_add_mod stop BLOCK_SIZE
              rw [h6] at hdm2
              have : offset / BLOCK_SIZE < stop / BLOCK_SIZE := by
                by_contra hc
                have : stop / BLOCK_SIZE ≤ offset / BLOCK_SIZE := by omega
                have := Nat.mul_le_mul_left BLOCK_SIZE this
                omega
              have := Nat.mul_le_mul_left BLOCK_SIZE (Nat.succ_le_of_lt this)
              simp only [BLOCK_SIZE] at *
              omega
        rw [ih _ _ stop _ (by omega) (by omega) hbb (by omega)]
        · rw [List.append_assoc]
          congr 2
          have hsplit : stop - offset = min remaining (BLOCK_SIZE - offset % BLOCK_SIZE) +
              (stop - (offset + min remaining (BLOCK_SIZE - offset % BLOCK_SIZE))) := by omega
          rw [hsplit, file_bytes_add]
          congr 1
          unfold file_bytes
          apply List.map_congr_left
          intro j hj
          have hj2 : j < min remaining (BLOCK_SIZE - offset % BLOCK_SIZE) := List.mem_range.1 hj
          have hjd : (offset + j) / BLOCK_SIZE = offset / BLOCK_SIZE := by
            simp only [BLOCK_SIZE] at *
            omega
          have hjm : (offset + j) % BLOCK_SIZE = offset % BLOCK_SIZE + j := by
            simp only [BLOCK_SIZE] at *
            omega
          rw [file_byte_eq mem n (offset + j) _ hk hjd, hjm, Nat.add_assoc]
        · intro _ k hk1 hk2
          apply h5 hgt k _ hk2
          have : offset / BLOCK_SIZE ≤
              (offset + min remaining (BLOCK_SIZE - offset % BLOCK_SIZE)) / BLOCK_SIZE :=
            Nat.div_le_div_right (by omega)
          omega
        · rcases h6 with h6 | ⟨h6a, h6b⟩
          · left
            omega
          · right
            refine ⟨h6a, ?_⟩
            rcases h6b with h6b | h6b
            · omega
            · right
              exact h6b
    · have hr0 : remaining = 0 := by omega
      have hs : stop - offset = 0 := by omega
      subst hr0
      simp [hs, file_bytes]

theorem read_loop_total (mem : Mem) (n : Inode) (hv : slots_valid n)
    (offset remaining : Nat) (h2 : offset + remaining < 2 ^ 31) :
    ∃ c, c ≤ remaining ∧
      read_loop mem n remaining offset remaining [] = some (file_bytes mem n offset c) ∧
      ((∀ k, offset / BLOCK_SIZE ≤ k → BLOCK_SIZE * k < offset + remaining →
          slot_allocated n k) → c = remaining) ∧
      (∀ k, offset / BLOCK_SIZE ≤ k → BLOCK_SIZE * k < offset + remaining →
        ¬slot_allocated n k → (∀ j, offset / BLOCK_SIZE ≤ j → j < k → slot_allocated n j) →
        c = BLOCK_SIZE * k - offset) := by
  classical
  by_cases hall : ∀ k, offset / BLOCK_SIZE ≤ k → BLOCK_SIZE * k < offset + remaining →
      slot_allocated n k
  · refine ⟨remaining, le_refl _, ?_, fun _ => rfl, fun k h1 h3 h4 _ => absurd (hall k h1 h3) h4⟩
    have := read_loop_spec mem n hv remaining offset remaining (offset + remaining) []
      (le_refl _) h2 (by omega) (le_refl _) (fun _ => hall) (Or.inl rfl)
    simpa using this
  · have hex : ∃ k, offset / BLOCK_SIZE ≤ k ∧ BLOCK_SIZE * k < offset + remaining ∧
        ¬slot_allocated n k := by
      by_contra hc
      apply hall
      intro k h1 h3
      by_contra h4
      exact hc ⟨k, h1, h3, h4⟩
    obtain ⟨hk1, hk2, hk3⟩ := Nat.find_spec hex
    have hmin : ∀ j, offset / BLOCK_SIZE ≤ j → j < Nat.find hex → slot_allocated n j := by
      intro j hj1 hj2
      by_contra hj3
      have hlt : BLOCK_SIZE * j < offset + remaining := by
        have := Nat.mul_le_mul_left BLOCK_SIZE (le_of_lt hj2)
        omega
      exact Nat.find_min hex hj2 ⟨hj1, hlt, hj3⟩
    have hdm := Nat.div_add_mod offset BLOCK_SIZE
    have hmod : offset % BLOCK_SIZE < BLOCK_SIZE := Nat.mod_lt _ (by norm_num)
    have hstop : (max offset (BLOCK_SIZE * Nat.find hex)) / BLOCK_SIZE = Nat.find hex := by
      rcases le_total offset (BLOCK_SIZE * Nat.find hex) with h | h
      · rw [max_eq_right h]
        exact Nat.mul_div_cancel_left _ (by norm_num)
      · rw [max_eq_left h]
        have := Nat.mul_le_mul_left BLOCK_SIZE hk1
        have : Nat.find hex ≤ offset / BLOCK_SIZE := by
          rw [Nat.le_div_iff_mul_le (by norm_num), Nat.mul_comm]
          exact h
        omega
    refine ⟨max offset (BLOCK_SIZE * Nat.find hex) - offset, by omega, ?_,
      fun h => absurd h hall, ?_⟩
    · have := read_loop_spec mem n hv remaining offset remaining
        (max offset (BLOCK_SIZE * Nat.find hex)) [] (le_refl _) h2 (le_max_left _ _) (by omega)
        (fun hlt k h1 h3 => hmin k h1 (by
          by_contra hc
          have h5 : Nat.find hex ≤ k := by omega
          have := Nat.mul_le_mul_left BLOCK_SIZE h5
          have h6 : offset < BLOCK_SIZE * Nat.find hex := by
            rcases le_total offset (BLOCK_SIZE * Nat.find hex) with h | h
            · rw [max_eq_right h] at hlt
              exact hlt
            · rw [max_eq_left h] at hlt
              omega
          rw [max_eq_right (le_of_lt h6)] at h3
          omega))
        (Or.inr ⟨by rw [hstop]; exact hk3, by
          rcases le_total offset (BLOCK_SIZE * Nat.find hex) with h | h
          · right
            rw [max_eq_right h]
            exact Nat.mul_mod_right _ _
          · left
            exact max_eq_left h⟩)
      simpa using this
    · intro k h1 h3 h4 h5
      have hkeq : k = Nat.find hex := by
        rcases Nat.lt_trichotomy k (Nat.find hex) with h | h | h
        · exact absurd (hmin k h1 h) h4
        · exact h
        · exact absurd (h5 _ hk1 h) hk3
      rw [hkeq]
      omega

theorem get_inode_natCast (i : Nat) (h : i < MAX_FILES) : get_inode (i : Int) = some i := by
  unfold get_inode
  rw [if_neg (by omega)]
  simp

theorem nufs_read_spec (s : State) (c0 : Nat) (name : List Nat) (i size offset : Nat)
    (hfind : find_inode_by_name s name = some (i : Int)) (hi : i < MAX_FILES)
    (hv : slots_valid (s.inode_table i)) (hsz : (s.inode_table i).size < 2 ^ 31)
    (hsum : offset + size < 2 ^ 64) :
    ∃ out, nufs_read s (c0 :: name) size offset = some ((out.length : Int), out) ∧
      out.length ≤ clamped_length (s.inode_table i).size size offset ∧
      out = file_bytes s.mem (s.inode_table i) offset out.length ∧
      ((∀ k, offset / BLOCK_SIZE ≤ k →
          BLOCK_SIZE * k < offset + clamped_length (s.inode_table i).size size offset →
          slot_allocated (s.inode_table i) k) →
        out.length = clamped_length (s.inode_table i).size size offset) ∧
      (∀ k, offset / BLOCK_SIZE ≤ k →
        BLOCK_SIZE * k < offset + clamped_length (s.inode_table i).size size offset →
        ¬slot_allocated (s.inode_table i) k →
        (∀ j, offset / BLOCK_SIZE ≤ j → j < k → slot_allocated (s.inode_table i) j) →
        out.length = BLOCK_SIZE * k - offset) := by
  unfold nufs_read
  simp only [hfind]
  rw [if_neg (by omega), get_inode_natCast i hi]
  simp only
  by_cases hoff : (offset : Int) ≥ (s.inode_table i).size
  · rw [if_pos hoff]
    have hc : clamped_length (s.inode_table i).size size offset = 0 := by
      unfold clamped_length
      omega
    refine ⟨[], rfl, by simp, by simp [file_bytes], fun _ => by simp [hc], ?_⟩
    intro k h1 h3 _ _
    rw [hc] at h3
    simp only [List.length_nil]
    omega
  · rw [if_neg hoff]
    have hrem : read_remaining (s.inode_table i).size size offset =
        clamped_length (s.inode_table i).size size offset := by
      unfold read_remaining clamped_length to_u64
      have h64 : (offset + size) % 2 ^ 64 = offset + size := Nat.mod_eq_of_lt hsum
      rw [h64]
      split_ifs with h <;> omega
    rw [hrem]
    have hcl : offset + clamped_length (s.inode_table i).size size offset < 2 ^ 31 := by
      unfold clamped_length
      omega
    obtain ⟨c, hc1, hc2, hc3, hc4⟩ := read_loop_total s.mem (s.inode_table i) hv offset
      (clamped_length (s.inode_table i).size size offset) hcl
    rw [hc2]
    have hlen : (file_bytes s.mem (s.inode_table i) offset c).length = c :=
      file_bytes_length _ _ _ _
    refine ⟨file_bytes s.mem (s.inode_table i) offset c, ?_, ?_, ?_, ?_, ?_⟩
    · simp only [hlen]
      rw [to_int_of_lt c (by omega)]
    · rw [hlen]
      exact hc1
    · rw [hlen]
    · rw [hlen]
      exact hc3
    · rw [hlen]
      exact hc4

/-! ## The write loop never overshoots -/

theorem write_loop_le (buf : Nat → Nat) (size offset node : Nat) :
    ∀ (fuel bw : Nat) (s : State) (r : Nat × State), bw ≤ size →
      write_loop buf size offset node fuel bw s = some r → r.1 ≤ size := by
  intro fuel
  induction fuel with
  | zero =>
    intro bw s r hbw h
    unfold write_loop at h
    split_ifs at h with h1
    cases h
    exact hbw
  | succ fuel ih =>
    intro bw s r hbw h
    unfold write_loop at h
    split_ifs at h with h1
    · split at h
      · cases h
      · cases h
        exact hbw
      · split at h
        · cases h
        · exact ih _ _ r (by omega) h
    · cases h
      exact hbw

theorem nufs_write_efbig (s : State) (c0 : Nat) (name : List Nat) (inum : Int)
    (buf : Nat → Nat) (size offset : Nat)
    (hfind : find_inode_by_name s name = some inum) (hex : inum ≠ -1)
    (hsum : offset + size < 2 ^ 64) :
    (offset + size > MAX_FILE_SIZE →
      nufs_write s (c0 :: name) buf size offset = some (-EFBIG, s)) ∧
    (offset + size ≤ MAX_FILE_SIZE →
      ∀ r, nufs_write s (c0 :: name) buf size offset = some r → r.1 ≠ -EFBIG) := by
  have h64 : (offset + size) % 2 ^ 64 = offset + size := Nat.mod_eq_of_lt hsum
  constructor
  · intro hbig
    unfold nufs_write
    simp only [hfind]
    rw [if_neg hex, h64, if_pos hbig]
  · intro hsmall r hr
    unfold nufs_write at hr
    simp only [hfind] at hr
    rw [if_neg hex, h64, if_neg (by omega)] at hr
    split at hr
    · cases hr
    · split at hr
      · cases hr
      · split_ifs at hr with h2
        · cases hr
          simp
        · split at hr
          · cases hr
          · rename_i bw s2 hw
            cases hr
            have hle := write_loop_le buf size offset _ size 0 _ (bw, s2) (Nat.zero_le _) hw
            simp only at hle
            have : bw < 2 ^ 31 := by
              simp only [MAX_FILE_SIZE, BLOCK_SIZE] at hsmall
              omega
            rw [to_int_of_lt bw this]
            simp only [EFBIG]
            omega

/-! ## The write loop on mapped blocks -/

theorem write_get_block_allocated (s : State) (node k : Nat) (hk : k < 4)
    (hb : (s.inode_table node).blocks ⟨k, hk⟩ ≠ -1) :
    write_get_block s node (k : Int) = some (some ((s.inode_table node).blocks ⟨k, hk⟩, s)) := by
  unfold write_get_block
  rw [inode_get_bnum_lt _ k hk]
  simp only [hb, if_false]

theorem file_addr_eq (n : Inode) (p k : Nat) (hk : k < 4) (hp : p / BLOCK_SIZE = k) :
    file_addr n p = BLOCK_SIZE * (n.blocks ⟨k, hk⟩).toNat + p % BLOCK_SIZE := by
  subst hp
  unfold file_addr
  rw [dif_pos hk]

theorem file_byte_eq_addr (mem : Mem) (n : Inode) (p : Nat) (hp : p / BLOCK_SIZE < 4) :
    file_byte mem n p = mem (file_addr n p) := by
  unfold file_byte file_addr
  rw [dif_pos hp, dif_pos hp]

theorem state_mem_eta (s : State) : ({ s with mem := s.mem } : State) = s := by
  cases s
  rfl

theorem write_loop_spec (buf : Nat → Nat) (size offset node : Nat)
    (hsz : offset + size ≤ MAX_FILE_SIZE) :
    ∀ (fuel bw : Nat) (s : State), bw ≤ size → size - bw ≤ fuel →
      slots_valid (s.inode_table node) →
      (∀ k, BLOCK_SIZE * k < offset + size → slot_allocated (s.inode_table node) k) →
      ∃ m, write_loop buf size offset node fuel bw s = some (size, { s with mem := m }) ∧
        (∀ a, (∀ p, offset + bw ≤ p → p < offset + size →
            file_addr (s.inode_table node) p ≠ a) → m a = s.mem a) ∧
        ((∀ p q, offset + bw ≤ p → p < offset + size → offset + bw ≤ q → q < offset + size →
            file_addr (s.inode_table node) p = file_addr (s.inode_table node) q → p = q) →
          ∀ p, offset + bw ≤ p → p < offset + size →
            m (file_addr (s.inode_table node) p) = buf (p - offset)) := by
  intro fuel
  induction fuel with
  | zero =>
    intro bw s h1 h2 _ _
    have hbw : bw = size := by omega
    subst hbw
    refine ⟨s.mem, ?_, fun _ _ => rfl, fun _ p hp1 hp2 => by omega⟩
    unfold write_loop
    rw [if_neg (by omega), state_mem_eta]
  | succ fuel ih =>
    intro bw s h1 h2 hv hal
    unfold write_loop
    by_cases hlt : bw < size
    · rw [if_pos hlt]
      have hpos : (offset + bw) % 2 ^ 64 = offset + bw := by
        apply Nat.mod_eq_of_lt
        simp only [MAX_FILE_SIZE, BLOCK_SIZE] at hsz
        omega
      rw [hpos]
      have hk : (offset + bw) / BLOCK_SIZE < 4 := by
        simp only [MAX_FILE_SIZE, BLOCK_SIZE] at hsz ⊢
        omega
      have hidx : (offset + bw) / BLOCK_SIZE < 2 ^ 31 := by omega
      rw [to_int_of_lt _ hidx]
      have hmul : BLOCK_SIZE * ((offset + bw) / BLOCK_SIZE) < offset + size := by
        have := Nat.mul_div_le (offset + bw) BLOCK_SIZE
        omega
      obtain ⟨_, hb⟩ := hal _ hmul
      rw [write_get_block_allocated s node _ hk hb]
      simp only
      rcases hv ⟨(offset + bw) / BLOCK_SIZE, hk⟩ with hbad | ⟨hb0, hb1⟩
      · exact absurd hbad hb
      rw [blocks_get_block_valid _ hb0 hb1]
      simp only
      have hmod : (offset + bw) % BLOCK_SIZE < BLOCK_SIZE := Nat.mod_lt _ (by norm_num)
      obtain ⟨m, hm1, hm2, hm3⟩ := ih
        (bw + min (size - bw) (BLOCK_SIZE - (offset + bw) % BLOCK_SIZE))
        ⟨memcpy s.mem
            (BLOCK_SIZE * ((s.inode_table node).blocks ⟨(offset + bw) / BLOCK_SIZE, hk⟩).toNat +
              (offset + bw) % BLOCK_SIZE)
            (fun j => buf (bw + j))
            (min (size - bw) (BLOCK_SIZE - (offset + bw) % BLOCK_SIZE)), s.inode_table⟩
        (by omega) (by omega) hv hal
      refine ⟨m, hm1, ?_, ?_⟩
      · intro a ha
        rw [hm2 a (fun p hp1 hp2 => ha p (by omega) hp2)]
        dsimp only
        unfold memcpy
        rw [if_neg]
        rintro ⟨ha1, ha2⟩
        apply ha (offset + bw + (a - (BLOCK_SIZE *
          ((s.inode_table node).blocks ⟨(offset + bw) / BLOCK_SIZE, hk⟩).toNat +
            (offset + bw) % BLOCK_SIZE))) (by omega) (by omega)
        rw [file_addr_eq _ _ _ hk (by simp only [BLOCK_SIZE] at *; omega)]
        simp only [BLOCK_SIZE] at *
        omega
      · intro hinj p hp1 hp2
        by_cases hpc : p < offset + (bw + min (size - bw) (BLOCK_SIZE - (offset + bw) % BLOCK_SIZE))
        · rw [hm2 _ (fun q hq1 hq2 hq3 => by
            have := hinj q p (by omega) hq2 hp1 hp2 hq3
            omega)]
          dsimp only
          have hpa : file_addr (s.inode_table node) p = BLOCK_SIZE *
              ((s.inode_table node).blocks ⟨(offset + bw) / BLOCK_SIZE, hk⟩).toNat +
                (offset + bw) % BLOCK_SIZE + (p - (offset + bw)) := by
            rw [file_addr_eq _ _ _ hk (by simp only [BLOCK_SIZE] at *; omega)]
            simp only [BLOCK_SIZE] at *
            omega
          unfold memcpy
          rw [if_pos (by rw [hpa]; omega), hpa, Nat.add_sub_cancel_left]
          dsimp only
          congr 1
          omega
        · exact hm3 (fun p q hp1 hp2 hq1 hq2 => hinj p q (by omega) hp2 (by omega) hq2)
            p (by omega) hp2
    · have hbw : bw = size := by omega
      subst hbw
      refine ⟨s.mem, ?_, fun _ _ => rfl, fun _ p hp1 hp2 => by omega⟩
      rw [if_neg hlt, state_mem_eta]

/-! ## Counting free blocks -/

theorem free_blocks_alloc_mem (mem : Mem) (b : Nat) (h1 : 1 ≤ b) (h2 : b < BLOCK_COUNT)
    (hb : bitmap_get mem 0 b = false) : free_blocks (alloc_mem mem b) + 1 = free_blocks mem := by
  unfold free_blocks
  have hset : ((Finset.Ico 1 BLOCK_COUNT).filter fun j => bitmap_get (alloc_mem mem b) 0 j = false) =
      ((Finset.Ico 1 BLOCK_COUNT).filter fun j => bitmap_get mem 0 j = false).erase b := by
    ext j
    simp only [Finset.mem_filter, Finset.mem_Ico, Finset.mem_erase]
    constructor
    · rintro ⟨⟨hj1, hj2⟩, hj3⟩
      rw [alloc_mem_bit mem b j h1 (by simp only [BLOCK_SIZE, BLOCK_COUNT] at *; omega)] at hj3
      by_cases hjb : j = b
      · simp [hjb] at hj3
      · simp only [hjb, if_false] at hj3
        exact ⟨hjb, ⟨hj1, hj2⟩, hj3⟩
    · rintro ⟨hjb, ⟨hj1, hj2⟩, hj3⟩
      refine ⟨⟨hj1, hj2⟩, ?_⟩
      rw [alloc_mem_bit mem b j h1 (by simp only [BLOCK_SIZE, BLOCK_COUNT] at *; omega)]
      simp only [hjb, if_false]
      exact hj3
  rw [hset]
  have hmem : b ∈ (Finset.Ico 1 BLOCK_COUNT).filter fun j => bitmap_get mem 0 j = false := by
    simp only [Finset.mem_filter, Finset.mem_Ico]
    exact ⟨⟨h1, h2⟩, hb⟩
  rw [Finset.card_erase_of_mem hmem]
  have := Finset.card_pos.2 ⟨b, hmem⟩
  omega

theorem alloc_block_of_free (mem : Mem) (h : 0 < free_blocks mem) : (alloc_block mem).1 ≠ -1 := by
  intro hfail
  rcases alloc_block_cases mem with ⟨_, _, h3⟩ | ⟨i, h1, _⟩
  · unfold free_blocks at h
    obtain ⟨j, hj⟩ := Finset.card_pos.1 h
    simp only [Finset.mem_filter, Finset.mem_Ico] at hj
    have := h3 j hj.1.1 hj.1.2
    rw [hj.2] at this
    cases this
  · rw [h1] at hfail
    omega

/-! ## The loop of grow_inode -/

theorem grow_loop_skip (node : Nat) :
    ∀ (c c2 idx : Nat) (s : State), idx + c ≤ 4 →
      (∀ k : Fin 4, idx ≤ k.val → k.val < idx + c → (s.inode_table node).blocks k ≠ -1) →
      grow_loop node (c + c2) idx s = grow_loop node c2 (idx + c) s := by
  intro c
  induction c with
  | zero =>
    intro c2 idx s _ _
    simp
  | succ c ih =>
    intro c2 idx s h1 h2
    have hidx : idx < 4 := by omega
    have hstep : c + 1 + c2 = (c + c2) + 1 := by omega
    rw [hstep]
    conv_lhs => unfold grow_loop
    rw [dif_pos hidx, if_neg (h2 ⟨idx, hidx⟩ (le_refl _) (by simp))]
    rw [ih c2 (idx + 1) s (by omega) (fun k hk1 hk2 => h2 k (by omega) (by omega))]
    have hassoc : idx + 1 + c = idx + (c + 1) := by omega
    rw [hassoc]

theorem grow_loop_fill (node : Nat) :
    ∀ (cnt idx : Nat) (s : State), idx + cnt ≤ 4 → cnt ≤ free_blocks s.mem →
      (∀ k : Fin 4, idx ≤ k.val → k.val < idx + cnt → (s.inode_table node).blocks k = -1) →
      ∃ s', grow_loop node cnt idx s = some (true, s') ∧
        (∀ j, j ≠ node → s'.inode_table j = s.inode_table j) ∧
        (s'.inode_table node).refs = (s.inode_table node).refs ∧
        (s'.inode_table node).mode = (s.inode_table node).mode ∧
        (s'.inode_table node).size = (s.inode_table node).size ∧
        (∀ k : Fin 4, k.val < idx ∨ idx + cnt ≤ k.val →
          (s'.inode_table node).blocks k = (s.inode_table node).blocks k) ∧
        (∀ k : Fin 4, idx ≤ k.val → k.val < idx + cnt →
          ∃ b : Nat, (s'.inode_table node).blocks k = (b : Int) ∧ 1 ≤ b ∧ b < BLOCK_COUNT ∧
            bitmap_get s.mem 0 b = false) ∧
        (∀ k k2 : Fin 4, idx ≤ k.val → k.val < idx + cnt → idx ≤ k2.val → k2.val < idx + cnt →
          k ≠ k2 → (s'.inode_table node).blocks k ≠ (s'.inode_table node).blocks k2) ∧
        (∀ j, j < BLOCK_COUNT → bitmap_get s.mem 0 j = true → bitmap_get s'.mem 0 j = true) ∧
        (∀ a, BLOCK_SIZE ≤ a → a < NUFS_SIZE → bitmap_get s.mem 0 (a / BLOCK_SIZE) = true →
          s'.mem a = s.mem a) := by
  intro cnt
  induction cnt with
  | zero =>
    intro idx s _ _ _
    refine ⟨s, rfl, fun _ _ => rfl, rfl, rfl, rfl, fun _ _ => rfl, ?_, ?_, fun _ _ h => h,
      fun _ _ _ _ => rfl⟩
    · intro k h1 h2
      omega
    · intro k k2 h1 h2
      omega
  | succ cnt ih =>
    intro idx s h1 h2 h3
    have hidx : idx < 4 := by omega
    unfold grow_loop
    rw [dif_pos hidx, if_pos (h3 ⟨idx, hidx⟩ (le_refl _) (by simp))]
    have hne := alloc_block_of_free s.mem (by omega)
    rw [if_neg hne]
    rcases alloc_block_cases s.mem with ⟨hf, _⟩ | ⟨b, hb1, hb2, hb3, hb4, hb5, _⟩
    · exact absurd hf hne
    rw [hb1, hb2]
    have hfree := free_blocks_alloc_mem s.mem b hb3 hb4 hb5
    obtain ⟨s', hs1, hs2, hs3, hs4, hs5, hs6, hs7, hs8, hs9, hs10⟩ := ih (idx + 1)
      (State.set_inode ⟨alloc_mem s.mem b, s.inode_table⟩ node
        ((s.inode_table node).set_block ⟨idx, hidx⟩ (b : Int)))
      (by omega) (by simp only [State.set_inode]; omega)
      (by
        intro k hk1 hk2
        simp only [State.set_inode, Function.update_same, Inode.set_block]
        rw [Function.update_noteq]
        · exact h3 k (by omega) (by omega)
        · intro hk
          rw [hk] at hk1
          simp at hk1)
    simp only [State.set_inode, Function.update_same, Inode.set_block] at hs2 hs3 hs4 hs5 hs6 hs7 hs9 hs10
    have hbit : ∀ j, j < BLOCK_COUNT → bitmap_get (alloc_mem s.mem b) 0 j =
        if j = b then true else bitmap_get s.mem 0 j := fun j hj =>
      alloc_mem_bit s.mem b j hb3 (by simp only [BLOCK_SIZE, BLOCK_COUNT] at *; omega)
    have hidxblk : (s'.inode_table node).blocks ⟨idx, hidx⟩ = (b : Int) := by
      rw [hs6 ⟨idx, hidx⟩ (Or.inl (by simp))]
      simp
    refine ⟨s', hs1, ?_, hs3, hs4, hs5, ?_, ?_, ?_, ?_, ?_⟩
    · intro j hj
      rw [hs2 j hj, Function.update_noteq hj]
    · intro k hk
      rw [hs6 k (by omega)]
      rw [Function.update_noteq]
      intro hk2
      rw [hk2] at hk
      simp at hk
    · intro k hk1 hk2
      by_cases hki : k.val = idx
      · have hk : k = ⟨idx, hidx⟩ := Fin.ext hki
        rw [hk, hidxblk]
        exact ⟨b, rfl, hb3, hb4, hb5⟩
      · obtain ⟨b2, hb21, hb22, hb23, hb24⟩ := hs7 k (by omega) (by omega)
        refine ⟨b2, hb21, hb22, hb23, ?_⟩
        rw [hbit b2 hb23] at hb24
        by_cases hbb : b2 = b
        · simp [hbb] at hb24
        · simpa [hbb] using hb24
    · intro k k2 hk1 hk2 hk3 hk4 hne2
      have key : ∀ k3 : Fin 4, idx + 1 ≤ k3.val → k3.val < idx + (cnt + 1) →
          (s'.inode_table node).blocks k3 ≠ (b : Int) := by
        intro k3 hk31 hk32 heq
        obtain ⟨b2, hb21, _, hb23, hb24⟩ := hs7 k3 hk31 (by omega)
        rw [hb21] at heq
        have hbb : b2 = b := by omega
        rw [hbit b2 hb23] at hb24
        simp [hbb] at hb24
      by_cases hki : k.val = idx
      · have hk : k = ⟨idx, hidx⟩ := Fin.ext hki
        have hk2i : k2.val ≠ idx := by
          intro h
          apply hne2
          rw [hk]
          exact (Fin.ext h).symm
        rw [hk, hidxblk]
        exact fun h => key k2 (by omega) hk4 h.symm
      · by_cases hk2i : k2.val = idx
        · have hk2e : k2 = ⟨idx, hidx⟩ := Fin.ext hk2i
          rw [hk2e, hidxblk]
          exact key k (by omega) hk2
        · exact hs8 k k2 (by omega) (by omega) (by omega) (by omega) hne2
    · intro j hj hjt
      apply hs9 j hj
      rw [hbit j hj, hjt]
      simp
    · intro a ha1 ha2 ha3
      have hdiv : a / BLOCK_SIZE < BLOCK_COUNT := by
        simp only [BLOCK_SIZE, BLOCK_COUNT, NUFS_SIZE] at *
        omega
      rw [hs10 a ha1 ha2 (by rw [hbit _ hdiv, ha3]; simp)]
      apply alloc_mem_apply
      · simp only [BLOCK_SIZE, BLOCK_COUNT] at *
        omega
      · by_contra hc
        have : a / BLOCK_SIZE = b := by
          simp only [BLOCK_SIZE] at *
          omega
        rw [this, hb5] at ha3
        cases ha3

theorem blocks_needed_lt_iff (size k : Nat) : k < blocks_needed size ↔ BLOCK_SIZE * k < size := by
  unfold blocks_needed
  simp only [BLOCK_SIZE]
  omega

theorem grow_needed_eq (sz : Nat) :
    (((sz : Int) + (BLOCK_SIZE : Int) - 1).tdiv (BLOCK_SIZE : Int)).toNat = blocks_needed sz := by
  unfold blocks_needed
  simp only [BLOCK_SIZE]
  rw [Int.tdiv_eq_ediv (by omega) (by omega)]
  omega

theorem grow_inode_spec (s : State) (node isz sz : Nat)
    (hexact : ∀ k : Fin 4, (s.inode_table node).blocks k ≠ -1 ↔ k.val < blocks_needed isz)
    (hlt : isz < sz) (hsz : sz ≤ MAX_FILE_SIZE)
    (hfree : blocks_needed sz - blocks_needed isz ≤ free_blocks s.mem) :
    ∃ s1, grow_inode s node (sz : Int) = some (0, s1) ∧
      (∀ j, j ≠ node → s1.inode_table j = s.inode_table j) ∧
      (s1.inode_table node).refs = (s.inode_table node).refs ∧
      (s1.inode_table node).mode = (s.inode_table node).mode ∧
      (s1.inode_table node).size = (sz : Int) ∧
      (∀ k : Fin 4, k.val < blocks_needed isz ∨ blocks_needed sz ≤ k.val →
        (s1.inode_table node).blocks k = (s.inode_table node).blocks k) ∧
      (∀ k : Fin 4, blocks_needed isz ≤ k.val → k.val < blocks_needed sz →
        ∃ b : Nat, (s1.inode_table node).blocks k = (b : Int) ∧ 1 ≤ b ∧ b < BLOCK_COUNT ∧
          bitmap_get s.mem 0 b = false) ∧
      (∀ k k2 : Fin 4, blocks_needed isz ≤ k.val → k.val < blocks_needed sz →
        blocks_needed isz ≤ k2.val → k2.val < blocks_needed sz →
        k ≠ k2 → (s1.inode_table node).blocks k ≠ (s1.inode_table node).blocks k2) ∧
      (∀ j, j < BLOCK_COUNT → bitmap_get s.mem 0 j = true → bitmap_get s1.mem 0 j = true) ∧
      (∀ a, BLOCK_SIZE ≤ a → a < NUFS_SIZE → bitmap_get s.mem 0 (a / BLOCK_SIZE) = true →
        s1.mem a = s.mem a) := by
  have hN4 : blocks_needed sz ≤ 4 := by
    unfold blocks_needed
    simp only [MAX_FILE_SIZE, BLOCK_SIZE] at *
    omega
  have hON : blocks_needed isz ≤ blocks_needed sz := by
    unfold blocks_needed
    simp only [BLOCK_SIZE]
    omega
  unfold grow_inode
  rw [if_neg (by simp only [MAX_FILE_SIZE] at *; omega), grow_needed_eq]
  have hsplit : blocks_needed sz = blocks_needed isz + (blocks_needed sz - blocks_needed isz) := by
    omega
  rw [hsplit, grow_loop_skip node _ _ 0 s (by omega)
    (fun k _ hk => (hexact k).2 (by omega))]
  obtain ⟨s', hs1, hs2, hs3, hs4, hs5, hs6, hs7, hs8, hs9, hs10⟩ :=
    grow_loop_fill node (blocks_needed sz - blocks_needed isz) (0 + blocks_needed isz) s
      (by omega) hfree (fun k hk1 hk2 => by
        by_contra hc
        have := (hexact k).1 hc
        omega)
  rw [hs1]
  simp only
  refine ⟨_, rfl, ?_, ?_, ?_, ?_, ?_, ?_, ?_, hs9, hs10⟩
  · intro j hj
    simp only [State.set_inode]
    rw [Function.update_noteq hj]
    exact hs2 j hj
  · simp only [State.set_inode, Function.update_same]
    exact hs3
  · simp only [State.set_inode, Function.update_same]
    exact hs4
  · simp only [State.set_inode, Function.update_same]
  · intro k hk
    simp only [State.set_inode, Function.update_same]
    exact hs6 k (by omega)
  · intro k hk1 hk2
    simp only [State.set_inode, Function.update_same]
    exact hs7 k (by omega) (by omega)
  · intro k k2 hk1 hk2 hk3 hk4 hne
    simp only [State.set_inode, Function.update_same]
    exact hs8 k k2 (by omega) (by omega) (by omega) (by omega) hne

theorem grow_if_needed (s : State) (node isz sz : Nat)
    (hexact : ∀ k : Fin 4, (s.inode_table node).blocks k ≠ -1 ↔ k.val < blocks_needed isz)
    (hsize : (s.inode_table node).size = (isz : Int))
    (hsz : sz ≤ MAX_FILE_SIZE)
    (hfree : blocks_needed (max isz sz) - blocks_needed isz ≤ free_blocks s.mem) :
    ∃ s1, (if sz > isz then grow_inode s node (sz : Int) else some (0, s)) = some (0, s1) ∧
      (∀ j, j ≠ node → s1.inode_table j = s.inode_table j) ∧
      (s1.inode_table node).refs = (s.inode_table node).refs ∧
      (s1.inode_table node).mode = (s.inode_table node).mode ∧
      (s1.inode_table node).size = ((max isz sz : Nat) : Int) ∧
      (∀ k : Fin 4, k.val < blocks_needed isz ∨ blocks_needed (max isz sz) ≤ k.val →
        (s1.inode_table node).blocks k = (s.inode_table node).blocks k) ∧
      (∀ k : Fin 4, blocks_needed isz ≤ k.val → k.val < blocks_needed (max isz sz) →
        ∃ b : Nat, (s1.inode_table node).blocks k = (b : Int) ∧ 1 ≤ b ∧ b < BLOCK_COUNT ∧
          bitmap_get s.mem 0 b = false) ∧
      (∀ k k2 : Fin 4, blocks_needed isz ≤ k.val → k.val < blocks_needed (max isz sz) →
        blocks_needed isz ≤ k2.val → k2.val < blocks_needed (max isz sz) →
        k ≠ k2 → (s1.inode_table node).blocks k ≠ (s1.inode_table node).blocks k2) ∧
      (∀ j, j < BLOCK_COUNT → bitmap_get s.mem 0 j = true → bitmap_get s1.mem 0 j = true) ∧
      (∀ a, BLOCK_SIZE ≤ a → a < NUFS_SIZE → bitmap_get s.mem 0 (a / BLOCK_SIZE) = true →
        s1.mem a = s.mem a) := by
  by_cases hgt : sz > isz
  · rw [if_pos hgt]
    have hmax : max isz sz = sz := max_eq_right (le_of_lt hgt)
    rw [hmax] at hfree ⊢
    exact grow_inode_spec s node isz sz hexact hgt hsz hfree
  · rw [if_neg hgt]
    have hmax : max isz sz = isz := max_eq_left (by omega)
    rw [hmax]
    refine ⟨s, rfl, fun _ _ => rfl, rfl, rfl, hsize, fun _ _ => rfl, ?_, ?_, fun _ _ h => h,
      fun _ _ _ _ => rfl⟩
    · intro k h1 h2
      omega
    · intro k k2 h1 h2
      omega

theorem file_addr_inj (n : Inode) (hv : slots_valid n) (lim : Nat) (hlim : lim ≤ MAX_FILE_SIZE)
    (hal : ∀ k : Fin 4, BLOCK_SIZE * k.val < lim → n.blocks k ≠ -1)
    (hdist : ∀ k k2 : Fin 4, BLOCK_SIZE * k.val < lim → BLOCK_SIZE * k2.val < lim → k ≠ k2 →
      n.blocks k ≠ n.blocks k2)
    (p q : Nat) (hp : p < lim) (hq : q < lim) (h : file_addr n p = file_addr n q) : p = q := by
  have hp4 : p / BLOCK_SIZE < 4 := by
    simp only [MAX_FILE_SIZE, BLOCK_SIZE] at *
    omega
  have hq4 : q / BLOCK_SIZE < 4 := by
    simp only [MAX_FILE_SIZE, BLOCK_SIZE] at *
    omega
  rw [file_addr_eq n p _ hp4 rfl, file_addr_eq n q _ hq4 rfl] at h
  have hpl : BLOCK_SIZE * (p / BLOCK_SIZE) < lim := by
    have := Nat.mul_div_le p BLOCK_SIZE
    omega
  have hql : BLOCK_SIZE * (q / BLOCK_SIZE) < lim := by
    have := Nat.mul_div_le q BLOCK_SIZE
    omega
  have hpm : p % BLOCK_SIZE < BLOCK_SIZE := Nat.mod_lt _ (by norm_num)
  have hqm : q % BLOCK_SIZE < BLOCK_SIZE := Nat.mod_lt _ (by norm_num)
  have hpd := Nat.div_add_mod p BLOCK_SIZE
  have hqd := Nat.div_add_mod q BLOCK_SIZE
  by_cases hk : (⟨p / BLOCK_SIZE, hp4⟩ : Fin 4) = ⟨q / BLOCK_SIZE, hq4⟩
  · have hk2 : p / BLOCK_SIZE = q / BLOCK_SIZE := by
      simpa using congrArg Fin.val hk
    rw [hk] at h
    simp only [BLOCK_SIZE] at *
    omega
  · exfalso
    have hne := hdist ⟨p / BLOCK_SIZE, hp4⟩ ⟨q / BLOCK_SIZE, hq4⟩ hpl hql hk
    have h1 := hal ⟨p / BLOCK_SIZE, hp4⟩ hpl
    have h2 := hal ⟨q / BLOCK_SIZE, hq4⟩ hql
    rcases hv ⟨p / BLOCK_SIZE, hp4⟩ with hb | ⟨hb1, _⟩
    · exact h1 hb
    rcases hv ⟨q / BLOCK_SIZE, hq4⟩ with hb | ⟨hb2, _⟩
    · exact h2 hb
    apply hne
    simp only [BLOCK_SIZE] at *
    omega

theorem nufs_write_main (s : State) (c0 : Nat) (name : List Nat) (i isz : Nat)
    (buf : Nat → Nat) (n offset : Nat)
    (hfind : find_inode_by_name s name = some (i : Int)) (hi : i < MAX_FILES)
    (hsize : (s.inode_table i).size = (isz : Int)) (hisz : isz < 2 ^ 31)
    (hexact : ∀ k : Fin 4, (s.inode_table i).blocks k ≠ -1 ↔ k.val < blocks_needed isz)
    (hv : slots_valid (s.inode_table i))
    (hsum : offset + n ≤ MAX_FILE_SIZE)
    (hfree : blocks_needed (max isz (offset + n)) - blocks_needed isz ≤ free_blocks s.mem) :
    ∃ s', nufs_write s (c0 :: name) buf n offset = some ((n : Int), s') ∧
      (∀ j, j ≠ i → s'.inode_table j = s.inode_table j) ∧
      (s'.inode_table i).refs = (s.inode_table i).refs ∧
      (s'.inode_table i).mode = (s.inode_table i).mode ∧
      (s'.inode_table i).size = ((max isz (offset + n) : Nat) : Int) ∧
      (∀ k : Fin 4, k.val < blocks_needed isz ∨ blocks_needed (max isz (offset + n)) ≤ k.val →
        (s'.inode_table i).blocks k = (s.inode_table i).blocks k) ∧
      (∀ k : Fin 4, blocks_needed isz ≤ k.val → k.val < blocks_needed (max isz (offset + n)) →
        ∃ b : Nat, (s'.inode_table i).blocks k = (b : Int) ∧ 1 ≤ b ∧ b < BLOCK_COUNT ∧
          bitmap_get s.mem 0 b = false) ∧
      (∀ k k2 : Fin 4, blocks_needed isz ≤ k.val →
        k.val < blocks_needed (max isz (offset + n)) →
        blocks_needed isz ≤ k2.val → k2.val < blocks_needed (max isz (offset + n)) →
        k ≠ k2 → (s'.inode_table i).blocks k ≠ (s'.inode_table i).blocks k2) ∧
      (∀ a, BLOCK_SIZE ≤ a → a < NUFS_SIZE → bitmap_get s.mem 0 (a / BLOCK_SIZE) = true →
        (∀ k : Fin 4, k.val < blocks_needed isz →
          (s.inode_table i).blocks k ≠ ((a / BLOCK_SIZE : Nat) : Int)) →
        s'.mem a = s.mem a) ∧
      ((∀ k k2 : Fin 4, BLOCK_SIZE * k.val < offset + n → BLOCK_SIZE * k2.val < offset + n →
          k ≠ k2 → (s'.inode_table i).blocks k ≠ (s'.inode_table i).blocks k2) →
        ∀ p, offset ≤ p → p < offset + n →
          file_byte s'.mem (s'.inode_table i) p = buf (p - offset)) := by
  have hlim : offset + n < 2 ^ 31 := by
    simp only [MAX_FILE_SIZE, BLOCK_SIZE] at hsum
    omega
  have h64 : (offset + n) % 2 ^ 64 = offset + n := Nat.mod_eq_of_lt (by omega)
  obtain ⟨s1, hg, hs2, hs3, hs4, hs5, hs6, hs7, hs8, _, hs10⟩ :=
    grow_if_needed s i isz (offset + n) hexact hsize hsum hfree
  -- the inode after growing
  have hv1 : slots_valid (s1.inode_table i) := by
    intro k
    by_cases hk : k.val < blocks_needed isz ∨ blocks_needed (max isz (offset + n)) ≤ k.val
    · rw [hs6 k hk]
      exact hv k
    · obtain ⟨b, hb1, hb2, hb3, _⟩ := hs7 k (by omega) (by omega)
      right
      rw [hb1]
      simp only [BLOCK_COUNT] at *
      omega
  have hall : ∀ k : Fin 4, k.val < blocks_needed (max isz (offset + n)) →
      (s1.inode_table i).blocks k ≠ -1 := by
    intro k hk
    by_cases hk2 : k.val < blocks_needed isz
    · rw [hs6 k (Or.inl hk2)]
      exact (hexact k).2 hk2
    · obtain ⟨b, hb1, _⟩ := hs7 k (by omega) hk
      rw [hb1]
      omega
  have hal1 : ∀ k, BLOCK_SIZE * k < offset + n → slot_allocated (s1.inode_table i) k := by
    intro k hk
    have hk4 : k < 4 := by
      simp only [MAX_FILE_SIZE, BLOCK_SIZE] at *
      omega
    refine ⟨hk4, hall ⟨k, hk4⟩ ?_⟩
    rw [blocks_needed_lt_iff]
    exact lt_of_lt_of_le hk (le_max_right _ _)
  obtain ⟨m, hw1, hw2, hw3⟩ := write_loop_spec buf n offset i hsum n 0 s1 (Nat.zero_le _)
    (by omega) hv1 hal1
  simp only [Nat.add_zero] at hw2 hw3
  refine ⟨State.set_inode ⟨m, s1.inode_table⟩ i
    { s1.inode_table i with size := (s1.inode_table i).size }, ?_, ?_, ?_, ?_, ?_, ?_, ?_, ?_, ?_, ?_⟩
  · unfold nufs_write
    simp only [hfind]
    rw [if_neg (by omega), h64, if_neg (by omega), get_inode_natCast i hi]
    simp only [hsize]
    rw [to_u64_natCast isz (by omega), to_int_of_lt _ hlim, hg]
    simp only
    rw [if_neg (by omega), hw1]
    simp only
    rw [h64, hs5, to_u64_natCast _ (by omega), if_neg (by omega), to_int_of_lt n (by omega)]
  · intro j hj
    simp only [State.set_inode]
    rw [Function.update_noteq hj]
    exact hs2 j hj
  · simp only [State.set_inode, Function.update_same]
    exact hs3
  · simp only [State.set_inode, Function.update_same]
    exact hs4
  · simp only [State.set_inode, Function.update_same]
    exact hs5
  · intro k hk
    simp only [State.set_inode, Function.update_same]
    exact hs6 k hk
  · intro k hk1 hk2
    simp only [State.set_inode, Function.update_same]
    exact hs7 k hk1 hk2
  · intro k k2 hk1 hk2 hk3 hk4 hne
    simp only [State.set_inode, Function.update_same]
    exact hs8 k k2 hk1 hk2 hk3 hk4 hne
  · intro a ha1 ha2 ha3 ha4
    simp only [State.set_inode]
    rw [hw2 a, hs10 a ha1 ha2 ha3]
    intro p hp1 hp2 hpa
    have hp4 : p / BLOCK_SIZE < 4 := by
      simp only [MAX_FILE_SIZE, BLOCK_SIZE] at *
      omega
    rw [file_addr_eq _ p _ hp4 rfl] at hpa
    have hpl : BLOCK_SIZE * (p / BLOCK_SIZE) < offset + n := by
      have := Nat.mul_div_le p BLOCK_SIZE
      omega
    have hpm : p % BLOCK_SIZE < BLOCK_SIZE := Nat.mod_lt _ (by norm_num)
    have hblk : ((s1.inode_table i).blocks ⟨p / BLOCK_SIZE, hp4⟩).toNat = a / BLOCK_SIZE := by
      simp only [BLOCK_SIZE] at *
      omega
    have hnn : (s1.inode_table i).blocks ⟨p / BLOCK_SIZE, hp4⟩ ≠ -1 :=
      hall _ (by rw [blocks_needed_lt_iff]; exact lt_of_lt_of_le hpl (le_max_right _ _))
    have hnonneg : 0 ≤ (s1.inode_table i).blocks ⟨p / BLOCK_SIZE, hp4⟩ := by
      rcases hv1 ⟨p / BLOCK_SIZE, hp4⟩ with h | ⟨h, _⟩
      · exact absurd h hnn
      · exact h
    by_cases hold : p / BLOCK_SIZE < blocks_needed isz
    · apply ha4 ⟨p / BLOCK_SIZE, hp4⟩ hold
      rw [← hs6 ⟨p / BLOCK_SIZE, hp4⟩ (Or.inl hold)]
      omega
    · obtain ⟨b, hb1, _, _, hb4⟩ := hs7 ⟨p / BLOCK_SIZE, hp4⟩ (by simpa using hold)
        (by rw [blocks_needed_lt_iff]; exact lt_of_lt_of_le hpl (le_max_right _ _))
      rw [hb1] at hblk
      simp only [Int.toNat_ofNat] at hblk
      rw [hblk, ha3] at hb4
      cases hb4
  · intro hdist p hp1 hp2
    simp only [State.set_inode, Function.update_same] at hdist ⊢
    have hp4 : p / BLOCK_SIZE < 4 := by
      simp only [MAX_FILE_SIZE, BLOCK_SIZE] at *
      omega
    have hinj := file_addr_inj (s1.inode_table i) hv1 (offset + n) hsum
      (fun k hk => hall k (by rw [blocks_needed_lt_iff]; exact lt_of_lt_of_le hk (le_max_right _ _)))
      hdist
    have := hw3 (fun p q _ hp2 _ hq2 h => hinj p q hp2 hq2 h) p hp1 hp2
    rw [← this]
    unfold file_byte file_addr
    rw [dif_pos hp4, dif_pos hp4]

/-! ## Directory entries as a list -/

theorem dir_count_eq (size : Int) (h0 : 0 ≤ size) (h1 : size < 2 ^ 31) :
    dir_count size = ((size.toNat / DIR_ENTRY_SIZE : Nat) : Int) := by
  unfold dir_count to_u64
  have h2 : (size % 2 ^ 64).toNat = size.toNat := by omega
  rw [h2, to_int_of_lt]
  have := Nat.div_le_self size.toNat DIR_ENTRY_SIZE
  omega

theorem streq_iff_read_name (mem : Mem) :
    ∀ (name : List Nat) (fuel a : Nat), is_name name → (read_name mem fuel a).length < fuel →
      (streq mem a name = true ↔ read_name mem fuel a = name) := by
  intro name
  induction name with
  | nil =>
    intro fuel a _ hlen
    cases fuel with
    | zero => simp at hlen
    | succ fuel =>
      unfold streq read_name
      by_cases h : mem a = 0
      · simp [h]
      · simp [h]
  | cons c cs ih =>
    intro fuel a hn hlen
    have hc : c ≠ 0 := hn c (List.mem_cons_self _ _)
    have hcs : is_name cs := fun x hx => hn x (List.mem_cons_of_mem _ hx)
    cases fuel with
    | zero => simp at hlen
    | succ fuel =>
      unfold streq
      unfold read_name at hlen ⊢
      by_cases h : mem a = 0
      · have hne : ¬(0 = c) := fun h2 => hc h2.symm
        simp [h, hne]
      · rw [if_neg h] at hlen ⊢
        simp only [List.length_cons, Nat.add_lt_add_iff_right] at hlen
        simp only [Bool.and_eq_true, beq_iff_eq, List.cons.injEq]
        rw [ih fuel (a + 1) hcs hlen]

theorem find_from_eq_find (p : Nat → Bool) (n lo : Nat) :
    find_from p lo n = (List.range' lo n).find? p := by
  induction n generalizing lo with
  | zero => rfl
  | succ n ih =>
    unfold find_from
    rw [List.range'_succ, List.find?_cons]
    by_cases h : p lo = true
    · simp [h]
    · simp only [h, if_false]
      rw [ih]
      simp [h]

theorem find_congr_mem {α : Type} (p q : α → Bool) (l : List α) (h : ∀ x ∈ l, p x = q x) :
    l.find? p = l.find? q := by
  induction l with
  | nil => rfl
  | cons x xs ih =>
    rw [List.find?_cons, List.find?_cons, h x (List.mem_cons_self _ _),
      ih fun y hy => h y (List.mem_cons_of_mem _ hy)]

theorem dir_ok_block (s : State) (di : Nat) (hok : dir_ok s di) :
    (s.inode_table di).blocks 0 ≠ -1 ∧
      blocks_get_block ((s.inode_table di).blocks 0) = some (dir_base s di) := by
  obtain ⟨h1, h2, _⟩ := hok
  exact ⟨by omega, blocks_get_block_valid _ (by omega) h2⟩

theorem dir_ok_len (s : State) (di : Nat) (hok : dir_ok s di) :
    dir_count (s.inode_table di).size = (dir_len s di : Int) ∧
      dir_len s di = (s.inode_table di).size.toNat / DIR_ENTRY_SIZE ∧
      dir_len s di ≤ BLOCK_SIZE / DIR_ENTRY_SIZE := by
  obtain ⟨_, _, h3, h4, _, _⟩ := hok
  have hc := dir_count_eq (s.inode_table di).size h3 (by simp only [BLOCK_SIZE] at h4; omega)
  unfold dir_len
  rw [hc]
  rw [Int.toNat_ofNat]
  refine ⟨rfl, rfl, ?_⟩
  simp only [BLOCK_SIZE, DIR_ENTRY_SIZE] at *
  omega

theorem dir_ok_name (s : State) (di : Nat) (hok : dir_ok s di) (i : Nat) (hi : i < dir_len s di) :
    (entry_name s.mem (entry_addr (dir_base s di) i)).length < DIR_NAME_LENGTH := by
  obtain ⟨_, _, _, _, _, h5⟩ := hok
  apply h5 (entry_name s.mem (entry_addr (dir_base s di) i),
    load_int s.mem (entry_addr (dir_base s di) i + DIR_NAME_LENGTH))
  unfold dir_entries
  exact List.mem_map.2 ⟨i, List.mem_range.2 hi, rfl⟩

theorem streq_entry (s : State) (di : Nat) (hok : dir_ok s di) (name : List Nat)
    (hn : is_name name) (i : Nat) (hi : i < dir_len s di) :
    streq s.mem (entry_addr (dir_base s di) i) name =
      (entry_name s.mem (entry_addr (dir_base s di) i) == name) := by
  have h := streq_iff_read_name s.mem name DIR_NAME_LENGTH (entry_addr (dir_base s di) i) hn
    (dir_ok_name s di hok i hi)
  unfold entry_name
  by_cases h2 : read_name s.mem DIR_NAME_LENGTH (entry_addr (dir_base s di) i) = name
  · rw [h.2 h2]
    simp [h2]
  · have : streq s.mem (entry_addr (dir_base s di) i) name = false := by
      by_contra hc
      exact h2 (h.1 (by simpa using hc))
    rw [this]
    simp [h2]

theorem find_entry_spec (s : State) (di : Nat) (hok : dir_ok s di) (name : List Nat)
    (hn : is_name name) :
    find_entry s.mem (dir_base s di) (dir_count (s.inode_table di).size) name =
      (List.range (dir_len s di)).find? fun i =>
        entry_name s.mem (entry_addr (dir_base s di) i) == name := by
  unfold find_entry
  rw [find_from_eq_find, (dir_ok_len s di hok).1, Int.toNat_ofNat, ← List.range_eq_range']
  apply find_congr_mem
  intro i hi
  exact streq_entry s di hok name hn i (List.mem_range.1 hi)

theorem lookup_entries_eq (s : State) (di : Nat) (name : List Nat) :
    lookup_entries (dir_entries s di) name =
      match (List.range (dir_len s di)).find? fun i =>
          entry_name s.mem (entry_addr (dir_base s di) i) == name with
      | some i => load_int s.mem (entry_addr (dir_base s di) i + DIR_NAME_LENGTH)
      | none => -1 := by
  unfold lookup_entries dir_entries
  rw [List.find?_map]
  cases h : List.find? ((fun e : List Nat × Int => e.1 == name) ∘ fun i =>
      (entry_name s.mem (entry_addr (dir_base s di) i),
        load_int s.mem (entry_addr (dir_base s di) i + DIR_NAME_LENGTH)))
      (List.range (dir_len s di)) with
  | none =>
    have h2 : (List.range (dir_len s di)).find? (fun i =>
        entry_name s.mem (entry_addr (dir_base s di) i) == name) = none := h
    rw [h2]
    rfl
  | some i =>
    have h2 : (List.range (dir_len s di)).find? (fun i =>
        entry_name s.mem (entry_addr (dir_base s di) i) == name) = some i := h
    rw [h2]
    rfl

theorem directory_lookup_spec (s : State) (di : Nat) (name : List Nat) (hok : dir_ok s di)
    (hn : is_name name) :
    directory_lookup s di name = some (lookup_entries (dir_entries s di) name) := by
  unfold directory_lookup
  rw [if_neg (dir_ok_block s di hok).1, (dir_ok_block s di hok).2]
  simp only
  rw [find_entry_spec s di hok name hn, lookup_entries_eq]
  cases (List.range (dir_len s di)).find? fun i =>
      entry_name s.mem (entry_addr (dir_base s di) i) == name <;> rfl

/-! ## What a directory depends on -/

theorem read_name_congr (m1 m2 : Mem) :
    ∀ (fuel a : Nat), (∀ j, j < fuel → m1 (a + j) = m2 (a + j)) →
      read_name m1 fuel a = read_name m2 fuel a := by
  intro fuel
  induction fuel with
  | zero =>
    intro a _
    rfl
  | succ fuel ih =>
    intro a h
    unfold read_name
    have h0 := h 0 (by omega)
    rw [Nat.add_zero] at h0
    rw [h0, ih (a + 1) fun j hj => by
      have := h (j + 1) (by omega)
      rw [← Nat.add_assoc] at this
      rw [Nat.add_assoc, Nat.add_comm 1 j, ← Nat.add_assoc]
      exact this]

theorem load_int_congr (m1 m2 : Mem) (a : Nat) (h : ∀ j, j < 4 → m1 (a + j) = m2 (a + j)) :
    load_int m1 a = load_int m2 a := by
  unfold load_int
  have h0 := h 0 (by omega)
  rw [Nat.add_zero] at h0
  rw [h0, h 1 (by omega), h 2 (by omega), h 3 (by omega)]

theorem dir_entries_congr (s s2 : State) (di : Nat) (hlen : dir_len s di ≤ BLOCK_SIZE / DIR_ENTRY_SIZE)
    (hinode : s2.inode_table di = s.inode_table di)
    (hmem : ∀ a, dir_base s di ≤ a → a < dir_base s di + BLOCK_SIZE → s2.mem a = s.mem a) :
    dir_entries s2 di = dir_entries s di := by
  have hbase : dir_base s2 di = dir_base s di := by
    unfold dir_base
    rw [hinode]
  have hl : dir_len s2 di = dir_len s di := by
    unfold dir_len
    rw [hinode]
  unfold dir_entries
  rw [hbase, hl]
  apply List.map_congr_left
  intro i hi
  have hi2 : i < dir_len s di := List.mem_range.1 hi
  have hi3 : i < 64 := by
    simp only [BLOCK_SIZE, DIR_ENTRY_SIZE] at hlen
    omega
  congr 1
  · unfold entry_name
    apply read_name_congr
    intro j hj
    apply hmem
    · unfold entry_addr
      omega
    · unfold entry_addr
      simp only [BLOCK_SIZE, DIR_ENTRY_SIZE, DIR_NAME_LENGTH] at *
      omega
  · apply load_int_congr
    intro j hj
    apply hmem
    · unfold entry_addr
      omega
    · unfold entry_addr
      simp only [BLOCK_SIZE, DIR_ENTRY_SIZE, DIR_NAME_LENGTH] at *
      omega

theorem dir_ok_congr (s s2 : State) (di : Nat) (hok : dir_ok s di)
    (hinode : s2.inode_table di = s.inode_table di)
    (hmem : ∀ a, dir_base s di ≤ a → a < dir_base s di + BLOCK_SIZE → s2.mem a = s.mem a) :
    dir_ok s2 di ∧ dir_entries s2 di = dir_entries s di := by
  have he := dir_entries_congr s s2 di (dir_ok_len s di hok).2.2 hinode hmem
  refine ⟨?_, he⟩
  unfold dir_ok
  rw [hinode, he]
  exact hok

theorem lookup_congr (s s2 : State) (di : Nat) (name : List Nat) (hok : dir_ok s di)
    (hn : is_name name) (hinode : s2.inode_table di = s.inode_table di)
    (hmem : ∀ a, dir_base s di ≤ a → a < dir_base s di + BLOCK_SIZE → s2.mem a = s.mem a) :
    directory_lookup s2 di name = directory_lookup s di name := by
  obtain ⟨hok2, he⟩ := dir_ok_congr s s2 di hok hinode hmem
  rw [directory_lookup_spec s2 di name hok2 hn, directory_lookup_spec s di name hok hn, he]

/-- Addresses of the directory block lie in a block whose number is the slot value. -/
theorem dir_base_div (s : State) (di : Nat) (hok : dir_ok s di) (a : Nat)
    (h1 : dir_base s di ≤ a) (h2 : a < dir_base s di + BLOCK_SIZE) :
    BLOCK_SIZE ≤ a ∧ a < NUFS_SIZE ∧
      ((a / BLOCK_SIZE : Nat) : Int) = (s.inode_table di).blocks 0 ∧
      a / BLOCK_SIZE = ((s.inode_table di).blocks 0).toNat := by
  obtain ⟨hb1, hb2, _⟩ := hok
  unfold dir_base at h1 h2
  simp only [BLOCK_SIZE, BLOCK_COUNT, NUFS_SIZE] at *
  omega

theorem map_getD_range (l : List Nat) :
    (List.range l.length).map (fun j => l.getD j 0) = l := by
  apply List.ext_getElem
  · simp
  · intro j h1 h2
    simp [List.getD_eq_getElem?_getD, List.getElem?_eq_getElem h2]

/-- What `nufs_write` leaves of the root directory: the lookups are as before. -/
theorem nufs_write_lookup (s s2 : State) (i isz : Nat) (hok : dir_ok s 0)
    (hbit : bitmap_get s.mem 0 ((s.inode_table 0).blocks 0).toNat = true)
    (hi0 : i ≠ 0)
    (hnoroot : ∀ k : Fin 4, (s.inode_table i).blocks k ≠ (s.inode_table 0).blocks 0)
    (hinode : ∀ j, j ≠ i → s2.inode_table j = s.inode_table j)
    (hframe : ∀ a, BLOCK_SIZE ≤ a → a < NUFS_SIZE → bitmap_get s.mem 0 (a / BLOCK_SIZE) = true →
      (∀ k : Fin 4, k.val < blocks_needed isz →
        (s.inode_table i).blocks k ≠ ((a / BLOCK_SIZE : Nat) : Int)) → s2.mem a = s.mem a)
    (name : List Nat) (hn : is_name name) :
    directory_lookup s2 0 name = directory_lookup s 0 name := by
  apply lookup_congr s s2 0 name hok hn (hinode 0 (Ne.symm hi0))
  intro a ha1 ha2
  obtain ⟨h1, h2, h3, h4⟩ := dir_base_div s 0 hok a ha1 ha2
  apply hframe a h1 h2
  · rw [h4]
    exact hbit
  · intro k _
    rw [h3]
    exact hnoroot k

theorem nufs_getattr_found (s : State) (uid c0 : Nat) (name : List Nat) (i : Nat)
    (hne : name ≠ []) (hfind : directory_lookup s 0 name = some (i : Int)) (hi : i < MAX_FILES) :
    nufs_getattr s uid (c0 :: name) =
      some (0, { st_mode := ((s.inode_table i).mode % 2 ^ 32).toNat
                 st_size := (s.inode_table i).size
                 st_uid := uid
                 st_nlink := 1 }) := by
  have hp : ¬(c0 :: name = [47]) := by
    intro h
    simp only [List.cons.injEq] at h
    exact hne h.2
  unfold nufs_getattr find_inode_by_name
  rw [if_neg hp]
  simp only [hfind]
  rw [if_neg (by omega), get_inode_natCast i hi]

theorem nufs_write_post_aux (s : State) (c0 uid : Nat) (name : List Nat) (i isz : Nat)
    (buf : Nat → Nat) (n offset : Nat)
    (hok : dir_ok s 0)
    (hbit : bitmap_get s.mem 0 ((s.inode_table 0).blocks 0).toNat = true)
    (hn : is_name name) (hne : name ≠ [])
    (hfind : find_inode_by_name s name = some (i : Int)) (hi0 : i ≠ 0) (hi : i < MAX_FILES)
    (hsize : (s.inode_table i).size = (isz : Int)) (hisz : isz < 2 ^ 31)
    (hexact : ∀ k : Fin 4, (s.inode_table i).blocks k ≠ -1 ↔ k.val < blocks_needed isz)
    (hv : slots_valid (s.inode_table i))
    (hnoroot : ∀ k : Fin 4, (s.inode_table i).blocks k ≠ (s.inode_table 0).blocks 0)
    (hsum : offset + n ≤ MAX_FILE_SIZE)
    (hfree : blocks_needed (max isz (offset + n)) - blocks_needed isz ≤ free_blocks s.mem) :
    ∃ s2, nufs_write s (c0 :: name) buf n offset = some ((n : Int), s2) ∧
      (s2.inode_table i).size = ((max isz (offset + n) : Nat) : Int) ∧
      (∀ k : Fin 4, (s2.inode_table i).blocks k ≠ -1 ↔
        k.val < blocks_needed (max isz (offset + n))) ∧
      ∃ st, nufs_getattr s2 uid (c0 :: name) = some (0, st) ∧
        st.st_size = ((max isz (offset + n) : Nat) : Int) := by
  obtain ⟨s2, h1, h2, _, _, h5, h6, h7, _, h9, _⟩ :=
    nufs_write_main s c0 name i isz buf n offset hfind hi hsize hisz hexact hv hsum hfree
  have hON : blocks_needed isz ≤ blocks_needed (max isz (offset + n)) := by
    unfold blocks_needed
    simp only [BLOCK_SIZE]
    omega
  refine ⟨s2, h1, h5, ?_, ?_⟩
  · intro k
    by_cases hk : k.val < blocks_needed isz ∨ blocks_needed (max isz (offset + n)) ≤ k.val
    · rw [h6 k hk, hexact k]
      omega
    · obtain ⟨b, hb, _⟩ := h7 k (by omega) (by omega)
      rw [hb]
      constructor
      · intro _
        omega
      · intro _
        omega
  · have hl := nufs_write_lookup s s2 i isz hok hbit hi0 hnoroot h2 h9 name hn
    unfold find_inode_by_name at hfind
    rw [← hl] at hfind
    rw [nufs_getattr_found s2 uid c0 name i hne hfind hi]
    exact ⟨_, rfl, h5⟩

theorem write_read_aux (s : State) (c0 : Nat) (name : List Nat) (i : Nat)
    (buf : List Nat) (offset : Nat)
    (hok : dir_ok s 0)
    (hbit : bitmap_get s.mem 0 ((s.inode_table 0).blocks 0).toNat = true)
    (hn : is_name name)
    (hfind : find_inode_by_name s name = some (i : Int)) (hi0 : i ≠ 0) (hi : i < MAX_FILES)
    (hsize : (s.inode_table i).size = 0)
    (hblocks : ∀ k : Fin 4, (s.inode_table i).blocks k = -1)
    (hsum : offset + buf.length ≤ MAX_FILE_SIZE)
    (hfree : blocks_needed (offset + buf.length) ≤ free_blocks s.mem) :
    ∃ s2, nufs_write s (c0 :: name) (fun j => buf.getD j 0) buf.length offset =
        some ((buf.length : Int), s2) ∧
      nufs_read s2 (c0 :: name) buf.length offset = some ((buf.length : Int), buf) := by
  have hN0 : blocks_needed 0 = 0 := by
    unfold blocks_needed
    simp only [BLOCK_SIZE]
  have hexact : ∀ k : Fin 4, (s.inode_table i).blocks k ≠ -1 ↔ k.val < blocks_needed 0 := by
    intro k
    rw [hN0, hblocks k]
    simp
  have hv : slots_valid (s.inode_table i) := fun k => Or.inl (hblocks k)
  have hroot1 := hok.1
  have hnoroot : ∀ k : Fin 4, (s.inode_table i).blocks k ≠ (s.inode_table 0).blocks 0 := by
    intro k
    rw [hblocks k]
    omega
  obtain ⟨s2, h1, h2, _, _, h5, h6, h7, h8, h9, h10⟩ :=
    nufs_write_main s c0 name i 0 (fun j => buf.getD j 0) buf.length offset hfind hi
      (by simpa using hsize) (by norm_num) hexact hv hsum (by rw [hN0]; simpa using hfree)
  rw [hN0] at h6 h7 h8
  simp only [Nat.zero_max] at h5 h6 h7 h8
  refine ⟨s2, h1, ?_⟩
  have hl := nufs_write_lookup s s2 i 0 hok hbit hi0 hnoroot h2 h9 name hn
  have hfind2 : find_inode_by_name s2 name = some (i : Int) := by
    unfold find_inode_by_name at hfind ⊢
    rw [hl, hfind]
  have hv2 : slots_valid (s2.inode_table i) := by
    intro k
    by_cases hk : k.val < blocks_needed (offset + buf.length)
    · obtain ⟨b, hb, hb1, hb2, _⟩ := h7 k (Nat.zero_le _) hk
      right
      rw [hb]
      simp only [BLOCK_COUNT] at *
      omega
    · left
      rw [h6 k (Or.inr (by omega))]
      exact hblocks k
  have hlim : offset + buf.length < 2 ^ 31 := by
    simp only [MAX_FILE_SIZE, BLOCK_SIZE] at hsum
    omega
  obtain ⟨out, ho1, _, ho3, ho4, _⟩ := nufs_read_spec s2 c0 name i buf.length offset hfind2 hi hv2
    (by rw [h5]; omega) (by omega)
  have hcl : clamped_length (s2.inode_table i).size buf.length offset = buf.length := by
    rw [h5]
    unfold clamped_length
    omega
  rw [hcl] at ho4
  have hlen : out.length = buf.length := by
    apply ho4
    intro k _ hk2
    have hk4 : k < 4 := by
      simp only [MAX_FILE_SIZE, BLOCK_SIZE] at *
      omega
    have hkN : k < blocks_needed (offset + buf.length) := (blocks_needed_lt_iff _ _).2 hk2
    obtain ⟨b, hb, _⟩ := h7 ⟨k, hk4⟩ (Nat.zero_le _) hkN
    refine ⟨hk4, ?_⟩
    rw [hb]
    omega
  have hcontent := h10 (fun k k2 hk hk2 hne =>
    h8 k k2 (Nat.zero_le _) ((blocks_needed_lt_iff _ _).2 hk) (Nat.zero_le _)
      ((blocks_needed_lt_iff _ _).2 hk2) hne)
  have hout : out = buf := by
    rw [ho3, hlen]
    unfold file_bytes
    conv_rhs => rw [← map_getD_range buf]
    apply List.map_congr_left
    intro j hj
    have hj2 : j < buf.length := List.mem_range.1 hj
    rw [hcontent (offset + j) (by omega) (by omega)]
    simp
  rw [ho1, hlen, hout]

/-! ## Lists of entries -/

theorem eraseP_eq_eraseIdx {α : Type} (p : α → Bool) :
    ∀ (l : List α) (i0 : Nat) (h : i0 < l.length), p (l.get ⟨i0, h⟩) = true →
      (∀ j (hj : j < l.length), j < i0 → p (l.get ⟨j, hj⟩) = false) →
      l.eraseP p = l.eraseIdx i0 := by
  intro l
  induction l with
  | nil =>
    intro i0 h
    simp at h
  | cons x xs ih =>
    intro i0 h hp hmin
    cases i0 with
    | zero =>
      have hx : p x = true := hp
      rw [List.eraseP_cons, hx]
      rfl
    | succ i0 =>
      have hx : p x = false := hmin 0 (by simp) (by omega)
      rw [List.eraseP_cons, hx, List.eraseIdx_cons_succ]
      simp only [cond_false]
      congr 1
      apply ih i0 (by simpa using h) hp
      intro j hj hji
      exact hmin (j + 1) (by simpa using hj) (by omega)

theorem find_range_some {p : Nat → Bool} {n i : Nat} (h : (List.range n).find? p = some i) :
    i < n ∧ p i = true ∧ ∀ j, j < i → p j = false := by
  rw [List.range_eq_range', ← find_from_eq_find] at h
  obtain ⟨_, h2, h3, h4⟩ := (find_from_eq_some_iff p n 0 i).1 h
  exact ⟨by omega, h3, fun j hj => h4 j (Nat.zero_le _) hj⟩

theorem find_range_none {p : Nat → Bool} {n : Nat} (h : (List.range n).find? p = none) :
    ∀ j, j < n → p j = false := by
  rw [List.range_eq_range', ← find_from_eq_find] at h
  intro j hj
  exact (find_from_eq_none_iff p n 0).1 h j (Nat.zero_le _) (by omega)

theorem dir_entries_length (s : State) (di : Nat) : (dir_entries s di).length = dir_len s di := by
  simp [dir_entries]

theorem dir_entries_get (s : State) (di : Nat) (j : Nat) (hj : j < (dir_entries s di).length) :
    (dir_entries s di).get ⟨j, hj⟩ =
      (entry_name s.mem (entry_addr (dir_base s di) j),
        load_int s.mem (entry_addr (dir_base s di) j + DIR_NAME_LENGTH)) := by
  simp [dir_entries]

theorem read_name_shift (m1 m2 : Mem) :
    ∀ (fuel a1 a2 : Nat), (∀ j, j < fuel → m1 (a1 + j) = m2 (a2 + j)) →
      read_name m1 fuel a1 = read_name m2 fuel a2 := by
  intro fuel
  induction fuel with
  | zero =>
    intro a1 a2 _
    rfl
  | succ fuel ih =>
    intro a1 a2 h
    unfold read_name
    have h0 := h 0 (by omega)
    rw [Nat.add_zero, Nat.add_zero] at h0
    rw [h0, ih (a1 + 1) (a2 + 1) fun j hj => by
      have := h (j + 1) (by omega)
      rw [Nat.add_assoc, Nat.add_comm 1 j, Nat.add_assoc a2, Nat.add_comm 1 j]
      exact this]

theorem load_int_shift (m1 m2 : Mem) (a1 a2 : Nat)
    (h : ∀ j, j < 4 → m1 (a1 + j) = m2 (a2 + j)) : load_int m1 a1 = load_int m2 a2 := by
  unfold load_int
  have h0 := h 0 (by omega)
  rw [Nat.add_zero, Nat.add_zero] at h0
  rw [h0, h 1 (by omega), h 2 (by omega), h 3 (by omega)]

/-! ## directory_delete on the list of entries -/

theorem directory_delete_absent (s : State) (di : Nat) (name : List Nat) (hok : dir_ok s di)
    (hn : is_name name)
    (hnone : (List.range (dir_len s di)).find? (fun i =>
      entry_name s.mem (entry_addr (dir_base s di) i) == name) = none) :
    directory_delete s di name = some (-ENOENT, s) ∧
      (dir_entries s di).eraseP (fun e => e.1 == name) = dir_entries s di := by
  constructor
  · unfold directory_delete
    rw [if_neg (dir_ok_block s di hok).1, (dir_ok_block s di hok).2]
    simp only
    rw [find_entry_spec s di hok name hn, hnone]
  · apply List.eraseP_of_forall_not
    intro e he
    unfold dir_entries at he
    obtain ⟨i, hi, rfl⟩ := List.mem_map.1 he
    have := find_range_none hnone i (List.mem_range.1 hi)
    simpa using this

theorem directory_delete_present (s : State) (di : Nat) (name : List Nat) (hok : dir_ok s di)
    (hn : is_name name) (i0 : Nat)
    (hsome : (List.range (dir_len s di)).find? (fun i =>
      entry_name s.mem (entry_addr (dir_base s di) i) == name) = some i0) :
    ∃ s2, directory_delete s di name = some (0, s2) ∧
      dir_entries s2 di = (dir_entries s di).eraseP (fun e => e.1 == name) ∧
      dir_ok s2 di ∧
      (∀ j, j ≠ di → s2.inode_table j = s.inode_table j) ∧
      (s2.inode_table di).blocks = (s.inode_table di).blocks ∧
      (s2.inode_table di).refs = (s.inode_table di).refs ∧
      (s2.inode_table di).mode = (s.inode_table di).mode ∧
      (s2.inode_table di).size = (s.inode_table di).size - DIR_ENTRY_SIZE ∧
      (∀ a, a < dir_base s di ∨ dir_base s di + BLOCK_SIZE ≤ a → s2.mem a = s.mem a) := by
  obtain ⟨hi0, hp0, hmin⟩ := find_range_some hsome
  obtain ⟨hc1, hc2, hc3⟩ := dir_ok_len s di hok
  have hok' := hok
  obtain ⟨hb1, hb2, hz1, hz2, hz3, hnames⟩ := hok'
  -- the state directory_delete produces
  have hdel : directory_delete s di name = some (0,
      State.set_inode ⟨if (i0 : Int) < dir_count (s.inode_table di).size - 1 then
          memmove s.mem (entry_addr (dir_base s di) i0) (entry_addr (dir_base s di) (i0 + 1))
            (((dir_count (s.inode_table di).size).toNat - i0 - 1) * DIR_ENTRY_SIZE)
        else s.mem, s.inode_table⟩ di
        { s.inode_table di with size := (s.inode_table di).size - DIR_ENTRY_SIZE }) := by
    unfold directory_delete
    rw [if_neg (dir_ok_block s di hok).1, (dir_ok_block s di hok).2]
    simp only
    rw [find_entry_spec s di hok name hn, hsome]
  -- the entries afterwards
  have hsize2 : 0 ≤ (s.inode_table di).size - DIR_ENTRY_SIZE ∧
      ((s.inode_table di).size - DIR_ENTRY_SIZE).toNat / DIR_ENTRY_SIZE = dir_len s di - 1 := by
    rw [hc2] at hi0 ⊢
    simp only [DIR_ENTRY_SIZE] at *
    omega
  have hlen2 : ∀ s2 : State, (s2.inode_table di).size = (s.inode_table di).size - DIR_ENTRY_SIZE →
      dir_len s2 di = dir_len s di - 1 := by
    intro s2 h2
    unfold dir_len
    rw [h2, dir_count_eq _ hsize2.1 (by simp only [BLOCK_SIZE, DIR_ENTRY_SIZE] at *; omega)]
    rw [Int.toNat_ofNat, hsize2.2]
    rfl
  have hentries : dir_entries (State.set_inode ⟨if (i0 : Int) < dir_count (s.inode_table di).size - 1 then
          memmove s.mem (entry_addr (dir_base s di) i0) (entry_addr (dir_base s di) (i0 + 1))
            (((dir_count (s.inode_table di).size).toNat - i0 - 1) * DIR_ENTRY_SIZE)
        else s.mem, s.inode_table⟩ di
        { s.inode_table di with size := (s.inode_table di).size - DIR_ENTRY_SIZE }) di =
      (dir_entries s di).eraseP (fun e => e.1 == name) := by
    rw [eraseP_eq_eraseIdx _ (dir_entries s di) i0 (by rw [dir_entries_length]; exact hi0)
      (by rw [dir_entries_get]; exact hp0)
      (fun j hj hji => by rw [dir_entries_get]; exact hmin j hji)]
    apply List.ext_getElem?
    intro j
    rw [List.getElem?_eraseIdx]
    unfold dir_entries
    rw [hlen2 _ (by simp only [State.set_inode, Function.update_same])]
    have hbase : dir_base (State.set_inode ⟨if (i0 : Int) < dir_count (s.inode_table di).size - 1 then
          memmove s.mem (entry_addr (dir_base s di) i0) (entry_addr (dir_base s di) (i0 + 1))
            (((dir_count (s.inode_table di).size).toNat - i0 - 1) * DIR_ENTRY_SIZE)
        else s.mem, s.inode_table⟩ di
        { s.inode_table di with size := (s.inode_table di).size - DIR_ENTRY_SIZE }) di =
        dir_base s di := by
      simp only [dir_base, State.set_inode, Function.update_same]
    rw [hbase]
    simp only [State.set_inode, List.getElem?_map]
    by_cases hj : j < dir_len s di - 1
    · rw [List.getElem?_range hj]
      have hmv : ∀ a, entry_addr (dir_base s di) j ≤ a → a < entry_addr (dir_base s di) j + DIR_ENTRY_SIZE →
          (if (i0 : Int) < dir_count (s.inode_table di).size - 1 then
            memmove s.mem (entry_addr (dir_base s di) i0) (entry_addr (dir_base s di) (i0 + 1))
              (((dir_count (s.inode_table di).size).toNat - i0 - 1) * DIR_ENTRY_SIZE)
          else s.mem) a = if j < i0 then s.mem a else s.mem (a + DIR_ENTRY_SIZE) := by
        intro a ha1 ha2
        rw [hc1]
        unfold entry_addr at ha1 ha2 ⊢
        simp only [Int.toNat_ofNat, DIR_ENTRY_SIZE] at *
        by_cases hji : j < i0
        · rw [if_pos hji]
          split_ifs with hlt
          · unfold memmove
            rw [if_neg (by omega)]
          · rfl
        · rw [if_neg hji, if_pos (by omega)]
          unfold memmove
          have hmul : (dir_len s di - i0 - 1) * 64 + 64 * i0 + 64 = 64 * dir_len s di := by
            have h1 : dir_len s di - i0 - 1 + i0 + 1 = dir_len s di := by omega
            omega
          rw [if_pos (by omega)]
          congr 1
          omega
      by_cases hji : j < i0
      · rw [if_pos hji, List.getElem?_range (by omega)]
        simp only [Option.map_some', Option.some.injEq, Prod.mk.injEq]
        constructor
        · unfold entry_name
          apply read_name_congr
          intro k hk
          rw [hmv _ (by omega) (by simp only [DIR_ENTRY_SIZE, DIR_NAME_LENGTH] at *; omega), if_pos hji]
        · apply load_int_congr
          intro k hk
          rw [hmv _ (by omega) (by simp only [DIR_ENTRY_SIZE, DIR_NAME_LENGTH] at *; omega), if_pos hji]
      · rw [if_neg hji, List.getElem?_range (by omega)]
        simp only [Option.map_some', Option.some.injEq, Prod.mk.injEq]
        have hnext : entry_addr (dir_base s di) (j + 1) = entry_addr (dir_base s di) j + DIR_ENTRY_SIZE := by
          unfold entry_addr
          simp only [DIR_ENTRY_SIZE]
          omega
        constructor
        · unfold entry_name
          apply read_name_shift
          intro k hk
          rw [hmv _ (by omega) (by simp only [DIR_ENTRY_SIZE, DIR_NAME_LENGTH] at *; omega), if_neg hji,
            hnext]
          congr 1
          omega
        · rw [hnext]
          apply load_int_shift
          intro k hk
          rw [hmv _ (by omega) (by simp only [DIR_ENTRY_SIZE, DIR_NAME_LENGTH] at *; omega), if_neg hji]
          congr 1
          omega
    · have h1 : (List.range (dir_len s di - 1))[j]? = none := by
        apply List.getElem?_eq_none
        simp only [List.length_range]
        omega
      rw [h1, Option.map_none']
      split_ifs with hji
      · have h2 : (List.range (dir_len s di))[j]? = none := by
          apply List.getElem?_eq_none
          simp only [List.length_range]
          omega
        rw [h2]
        rfl
      · have h2 : (List.range (dir_len s di))[j + 1]? = none := by
          apply List.getElem?_eq_none
          simp only [List.length_range]
          omega
        rw [h2]
        rfl
  refine ⟨_, hdel, ?_, ?_, ?_, ?_, ?_, ?_, ?_, ?_⟩
  · exact hentries
  · unfold dir_ok
    rw [hentries]
    simp only [State.set_inode, Function.update_same]
    refine ⟨hb1, hb2, hsize2.1, by omega, by simp only [DIR_ENTRY_SIZE] at *; omega, ?_⟩
    intro e he
    exact hnames e ((List.eraseP_sublist _).subset he)

  · intro j hj
    simp only [State.set_inode]
    rw [Function.update_noteq hj]
  · simp only [State.set_inode, Function.update_same]
  · simp only [State.set_inode, Function.update_same]
  · simp only [State.set_inode, Function.update_same]
  · simp only [State.set_inode, Function.update_same]
  · intro a ha
    simp only [State.set_inode]
    split_ifs with hlt
    · unfold memmove
      rw [if_neg]
      rintro ⟨ha1, ha2⟩
      rw [hc1] at ha2
      unfold entry_addr at ha1 ha2
      simp only [Int.toNat_ofNat, BLOCK_SIZE, DIR_ENTRY_SIZE] at *
      have : (dir_len s di - i0 - 1) * 64 + 64 * i0 + 64 = 64 * dir_len s di := by
        have h1 : dir_len s di - i0 - 1 + i0 + 1 = dir_len s di := by omega
        omega
      omega
    · rfl

/-! ## directory_put on the list of entries -/

theorem to_int_range (u : Nat) : -2 ^ 31 ≤ to_int u ∧ to_int u < 2 ^ 31 := by
  unfold to_int
  split_ifs with h <;> omega

theorem load_store_int (mem : Mem) (a : Nat) (v : Int) (h1 : -2 ^ 31 ≤ v) (h2 : v < 2 ^ 31) :
    load_int (store_int mem a v) a = v := by
  unfold load_int store_int memcpy
  have e0 : 256 ^ 0 = 1 := by norm_num
  have e1 : 256 ^ 1 = 256 := by norm_num
  have e2 : 256 ^ 2 = 65536 := by norm_num
  have e3 : 256 ^ 3 = 16777216 := by norm_num
  rw [if_pos (by omega), if_pos (by omega), if_pos (by omega), if_pos (by omega)]
  have d0 : a - a = 0 := by omega
  have d1 : a + 1 - a = 1 := by omega
  have d2 : a + 2 - a = 2 := by omega
  have d3 : a + 3 - a = 3 := by omega
  rw [d0, d1, d2, d3]
  unfold int_byte
  rw [e0, e1, e2, e3]
  unfold to_int
  split_ifs with h <;> omega

theorem read_name_stored (mem : Mem) :
    ∀ (name : List Nat) (fuel a : Nat), is_name name → name.length < fuel →
      (∀ j, j < fuel → mem (a + j) = name.getD j 0) → read_name mem fuel a = name := by
  intro name
  induction name with
  | nil =>
    intro fuel a _ hlen h
    cases fuel with
    | zero => simp at hlen
    | succ fuel =>
      unfold read_name
      have := h 0 (by omega)
      simp only [Nat.add_zero, List.getD_nil] at this
      rw [if_pos this]
  | cons c cs ih =>
    intro fuel a hn hlen h
    have hc : c ≠ 0 := hn c (List.mem_cons_self _ _)
    have hcs : is_name cs := fun x hx => hn x (List.mem_cons_of_mem _ hx)
    cases fuel with
    | zero => simp at hlen
    | succ fuel =>
      unfold read_name
      have h0 := h 0 (by omega)
      simp only [Nat.add_zero, List.getD_cons_zero] at h0
      rw [h0, if_neg hc]
      congr 1
      apply ih fuel (a + 1) hcs (by simpa using hlen)
      intro j hj
      have := h (j + 1) (by omega)
      simp only [List.getD_cons_succ] at this
      rw [Nat.add_assoc, Nat.add_comm 1 j]
      exact this

theorem write_entry_apply (mem : Mem) (a : Nat) (name : List Nat) (inum : Int) (x : Nat)
    (h : x < a ∨ a + DIR_NAME_LENGTH + 4 ≤ x) : write_entry mem a name inum x = mem x := by
  unfold write_entry store_int memcpy
  simp only [DIR_NAME_LENGTH] at *
  rw [if_neg (by omega), if_neg (by omega)]

theorem write_entry_name (mem : Mem) (a : Nat) (name : List Nat) (inum : Int)
    (hn : is_name name) (hlen : name.length < DIR_NAME_LENGTH) :
    entry_name (write_entry mem a name inum) a = name := by
  unfold entry_name
  apply read_name_stored _ name DIR_NAME_LENGTH a hn hlen
  intro j hj
  unfold write_entry store_int memcpy
  simp only [DIR_NAME_LENGTH] at *
  rw [if_neg (by omega), if_pos (by omega), List.take_of_length_le (by omega)]
  congr 1
  omega

theorem write_entry_inum (mem : Mem) (a : Nat) (name : List Nat) (inum : Int)
    (h1 : -2 ^ 31 ≤ inum) (h2 : inum < 2 ^ 31) :
    load_int (write_entry mem a name inum) (a + DIR_NAME_LENGTH) = inum := by
  unfold write_entry
  exact load_store_int _ _ _ h1 h2

theorem put_ensure_block_ok (s : State) (di : Nat) (hok : dir_ok s di) :
    put_ensure_block s di = Sum.inr s := by
  unfold put_ensure_block
  rw [if_neg (dir_ok_block s di hok).1]

theorem directory_put_toolong (s : State) (di : Nat) (name : List Nat) (inum : Int)
    (h : DIR_NAME_LENGTH ≤ name.length) :
    directory_put s di name inum = some (-ENAMETOOLONG, s) := by
  unfold directory_put
  rw [if_pos h]

theorem find_none_of_absent (s : State) (di : Nat) (name : List Nat)
    (h : ∀ e ∈ dir_entries s di, e.1 ≠ name) :
    (List.range (dir_len s di)).find? (fun i =>
      entry_name s.mem (entry_addr (dir_base s di) i) == name) = none := by
  rw [List.find?_eq_none]
  intro i hi
  have := h (entry_name s.mem (entry_addr (dir_base s di) i),
    load_int s.mem (entry_addr (dir_base s di) i + DIR_NAME_LENGTH))
    (by unfold dir_entries; exact List.mem_map.2 ⟨i, hi, rfl⟩)
  simpa using this

theorem find_some_of_present (s : State) (di : Nat) (name : List Nat)
    (h : ∃ e ∈ dir_entries s di, e.1 = name) :
    ∃ i0, (List.range (dir_len s di)).find? (fun i =>
      entry_name s.mem (entry_addr (dir_base s di) i) == name) = some i0 := by
  cases hf : (List.range (dir_len s di)).find? (fun i =>
      entry_name s.mem (entry_addr (dir_base s di) i) == name) with
  | some i0 => exact ⟨i0, rfl⟩
  | none =>
    exfalso
    obtain ⟨e, he, hen⟩ := h
    unfold dir_entries at he
    obtain ⟨i, hi, rfl⟩ := List.mem_map.1 he
    have := find_range_none hf i (List.mem_range.1 hi)
    simp only [beq_eq_false_iff_ne, ne_eq] at this
    exact this hen

theorem directory_put_exists (s : State) (di : Nat) (name : List Nat) (inum : Int)
    (hok : dir_ok s di) (hn : is_name name) (hlen : name.length < DIR_NAME_LENGTH)
    (h : ∃ e ∈ dir_entries s di, e.1 = name) :
    directory_put s di name inum = some (-EEXIST, s) := by
  obtain ⟨i0, hi0⟩ := find_some_of_present s di name h
  unfold directory_put
  rw [if_neg (by omega), put_ensure_block_ok s di hok]
  simp only
  rw [(dir_ok_block s di hok).2]
  simp only
  rw [find_entry_spec s di hok name hn, hi0]

theorem directory_put_full (s : State) (di : Nat) (name : List Nat) (inum : Int)
    (hok : dir_ok s di) (hn : is_name name) (hlen : name.length < DIR_NAME_LENGTH)
    (h : ∀ e ∈ dir_entries s di, e.1 ≠ name)
    (hfull : dir_len s di = BLOCK_SIZE / DIR_ENTRY_SIZE) :
    directory_put s di name inum = some (-ENOSPC, s) := by
  unfold directory_put
  rw [if_neg (by omega), put_ensure_block_ok s di hok]
  simp only
  rw [(dir_ok_block s di hok).2]
  simp only
  rw [find_entry_spec s di hok name hn, find_none_of_absent s di name h]
  simp only
  rw [(dir_ok_len s di hok).1, hfull]
  rfl

theorem directory_put_ok (s : State) (di : Nat) (name : List Nat) (inum : Int)
    (hok : dir_ok s di) (hn : is_name name) (hlen : name.length < DIR_NAME_LENGTH)
    (h : ∀ e ∈ dir_entries s di, e.1 ≠ name)
    (hroom : dir_len s di < BLOCK_SIZE / DIR_ENTRY_SIZE)
    (h1 : -2 ^ 31 ≤ inum) (h2 : inum < 2 ^ 31) :
    ∃ s2, directory_put s di name inum = some (0, s2) ∧
      dir_entries s2 di = dir_entries s di ++ [(name, inum)] ∧
      dir_ok s2 di ∧
      (∀ j, j ≠ di → s2.inode_table j = s.inode_table j) ∧
      (s2.inode_table di).blocks = (s.inode_table di).blocks ∧
      (s2.inode_table di).refs = (s.inode_table di).refs ∧
      (s2.inode_table di).mode = (s.inode_table di).mode ∧
      (s2.inode_table di).size = (s.inode_table di).size + DIR_ENTRY_SIZE ∧
      (∀ a, a < dir_base s di ∨ dir_base s di + BLOCK_SIZE ≤ a → s2.mem a = s.mem a) := by
  obtain ⟨hc1, hc2, hc3⟩ := dir_ok_len s di hok
  have hok' := hok
  obtain ⟨hb1, hb2, hz1, hz2, hz3, hnames⟩ := hok'
  have hput : directory_put s di name inum = some (0,
      State.set_inode ⟨write_entry s.mem (entry_addr (dir_base s di) (dir_len s di)) name inum,
        s.inode_table⟩ di
        { s.inode_table di with size := (s.inode_table di).size + DIR_ENTRY_SIZE }) := by
    unfold directory_put
    rw [if_neg (by omega), put_ensure_block_ok s di hok]
    simp only
    rw [(dir_ok_block s di hok).2]
    simp only
    rw [find_entry_spec s di hok name hn, find_none_of_absent s di name h]
    simp only
    rw [hc1]
    have hcap : ¬(to_u64 ((dir_len s di : Int) + 1) * DIR_ENTRY_SIZE % 2 ^ 64 > BLOCK_SIZE) := by
      unfold to_u64
      simp only [BLOCK_SIZE, DIR_ENTRY_SIZE] at *
      omega
    rw [if_neg hcap, if_neg (by omega)]
    simp only [Int.toNat_ofNat]
  have hsize2 : 0 ≤ (s.inode_table di).size + DIR_ENTRY_SIZE ∧
      (s.inode_table di).size + DIR_ENTRY_SIZE ≤ BLOCK_SIZE ∧
      ((s.inode_table di).size + DIR_ENTRY_SIZE) % DIR_ENTRY_SIZE = 0 ∧
      ((s.inode_table di).size + DIR_ENTRY_SIZE).toNat / DIR_ENTRY_SIZE = dir_len s di + 1 := by
    rw [hc2] at hroom ⊢
    simp only [BLOCK_SIZE, DIR_ENTRY_SIZE] at *
    omega
  have hlen2 : ∀ s2 : State, (s2.inode_table di).size = (s.inode_table di).size + DIR_ENTRY_SIZE →
      dir_len s2 di = dir_len s di + 1 := by
    intro s2 hs2
    unfold dir_len
    rw [hs2, dir_count_eq _ hsize2.1 (by simp only [BLOCK_SIZE, DIR_ENTRY_SIZE] at *; omega)]
    rw [Int.toNat_ofNat, hsize2.2.2.2]
    rfl
  have hentries : dir_entries (State.set_inode
      ⟨write_entry s.mem (entry_addr (dir_base s di) (dir_len s di)) name inum, s.inode_table⟩ di
      { s.inode_table di with size := (s.inode_table di).size + DIR_ENTRY_SIZE }) di =
      dir_entries s di ++ [(name, inum)] := by
    have hbase : dir_base (State.set_inode
        ⟨write_entry s.mem (entry_addr (dir_base s di) (dir_len s di)) name inum, s.inode_table⟩ di
        { s.inode_table di with size := (s.inode_table di).size + DIR_ENTRY_SIZE }) di =
        dir_base s di := by
      simp only [dir_base, State.set_inode, Function.update_same]
    have hl : dir_len (State.set_inode
        ⟨write_entry s.mem (entry_addr (dir_base s di) (dir_len s di)) name inum, s.inode_table⟩ di
        { s.inode_table di with size := (s.inode_table di).size + DIR_ENTRY_SIZE }) di =
        dir_len s di + 1 := hlen2 _ (by simp only [State.set_inode, Function.update_same])
    unfold dir_entries
    rw [hl, hbase, List.range_succ, List.map_append]
    simp only [State.set_inode, List.map_cons, List.map_nil]
    congr 1
    · apply List.map_congr_left
      intro i hi
      have hi2 : i < dir_len s di := List.mem_range.1 hi
      congr 1
      · unfold entry_name
        apply read_name_congr
        intro k hk
        apply write_entry_apply
        left
        unfold entry_addr
        simp only [DIR_ENTRY_SIZE, DIR_NAME_LENGTH] at *
        omega
      · apply load_int_congr
        intro k hk
        apply write_entry_apply
        left
        unfold entry_addr
        simp only [DIR_ENTRY_SIZE, DIR_NAME_LENGTH] at *
        omega
    · rw [write_entry_name _ _ _ _ hn hlen, write_entry_inum _ _ _ _ h1 h2]
  refine ⟨_, hput, hentries, ?_, ?_, ?_, ?_, ?_, ?_, ?_⟩
  · unfold dir_ok
    rw [hentries]
    simp only [State.set_inode, Function.update_same]
    refine ⟨hb1, hb2, hsize2.1, hsize2.2.1, hsize2.2.2.1, ?_⟩
    intro e he
    rcases List.mem_append.1 he with he | he
    · exact hnames e he
    · rw [List.mem_singleton.1 he]
      exact hlen
  · intro j hj
    simp only [State.set_inode]
    rw [Function.update_noteq hj]
  · simp only [State.set_inode, Function.update_same]
  · simp only [State.set_inode, Function.update_same]
  · simp only [State.set_inode, Function.update_same]
  · simp only [State.set_inode, Function.update_same]
  · intro a ha
    simp only [State.set_inode]
    apply write_entry_apply
    unfold entry_addr
    simp only [BLOCK_SIZE, DIR_ENTRY_SIZE, DIR_NAME_LENGTH] at *
    omega

/-! ## free_inode -/

theorem freeing_refl (node : Nat) (s : State) : freeing node s s :=
  ⟨fun _ _ => rfl, rfl, rfl, rfl, fun _ => Or.inl rfl, fun _ _ => rfl,
    fun _ h1 h2 => absurd h2 h1, fun _ _ => rfl⟩

theorem free_slot_step (node : Nat) (k : Fin 4) (s c : State)
    (hv : slots_valid (s.inode_table node)) (hf : freeing node s c) :
    ∃ c2, free_slot node k c = some c2 ∧ freeing node s c2 ∧
      (c2.inode_table node).blocks k = -1 ∧
      ∀ k2, (c.inode_table node).blocks k2 = -1 → (c2.inode_table node).blocks k2 = -1 := by
  obtain ⟨f1, f2, f3, f4, f5, f6, f7, f8⟩ := hf
  unfold free_slot
  by_cases hb : (c.inode_table node).blocks k = -1
  · rw [if_neg (by simpa using hb)]
    exact ⟨c, rfl, ⟨f1, f2, f3, f4, f5, f6, f7, f8⟩, hb, fun _ h => h⟩
  · rw [if_pos hb]
    have hsame : (c.inode_table node).blocks k = (s.inode_table node).blocks k := by
      rcases f5 k with h | h
      · exact h
      · exact absurd h hb
    have hrange : 0 ≤ (c.inode_table node).blocks k ∧ (c.inode_table node).blocks k < BLOCK_COUNT := by
      rw [hsame]
      rcases hv k with h | h
      · rw [hsame] at hb
        exact absurd h hb
      · exact h
    unfold free_block
    rw [if_pos hrange.1]
    simp only
    refine ⟨_, rfl, ⟨?_, ?_, ?_, ?_, ?_, ?_, ?_, ?_⟩, ?_, ?_⟩
    · intro j hj
      simp only [State.set_inode]
      rw [Function.update_noteq hj]
      exact f1 j hj
    · simp only [State.set_inode, Function.update_same, Inode.set_block]
      exact f2
    · simp only [State.set_inode, Function.update_same, Inode.set_block]
      exact f3
    · simp only [State.set_inode, Function.update_same, Inode.set_block]
      exact f4
    · intro k2
      simp only [State.set_inode, Function.update_same, Inode.set_block]
      by_cases hk : k2 = k
      · right
        rw [hk, Function.update_same]
      · rw [Function.update_noteq hk]
        exact f5 k2
    · intro a ha
      simp only [State.set_inode]
      rw [bitmap_put_apply_of_ne _ _ _ _ (by simp only [BLOCK_COUNT] at *; omega)]
      exact f6 a ha
    · intro k2 hk1 hk2
      simp only [State.set_inode, Function.update_same, Inode.set_block] at hk2 ⊢
      rw [bitmap_get_put]
      by_cases hj : ((s.inode_table node).blocks k2).toNat = ((c.inode_table node).blocks k).toNat
      · rw [if_pos hj]
      · rw [if_neg hj]
        apply f7 k2 hk1
        by_cases hk : k2 = k
        · exfalso
          apply hj
          rw [hk, hsame]
        · rw [Function.update_noteq hk] at hk2
          exact hk2
    · intro j hj
      simp only [State.set_inode]
      rw [bitmap_get_put, if_neg, f8 j hj]
      rw [hsame]
      rw [hsame] at hb
      exact fun h => hj k hb h.symm
    · simp only [State.set_inode, Function.update_same, Inode.set_block]
    · intro k2 hk2
      simp only [State.set_inode, Function.update_same, Inode.set_block]
      by_cases hk : k2 = k
      · rw [hk, Function.update_same]
      · rw [Function.update_noteq hk]
        exact hk2

theorem free_inode_spec (s : State) (i : Nat) (hi : i < MAX_FILES)
    (hv : slots_valid (s.inode_table i)) :
    ∃ s2, free_inode s (i : Int) = some s2 ∧
      (∀ j, j ≠ i → s2.inode_table j = s.inode_table j) ∧
      (s2.inode_table i).refs = 0 ∧ (s2.inode_table i).mode = 0 ∧
      (s2.inode_table i).size = 0 ∧ (∀ k, (s2.inode_table i).blocks k = -1) ∧
      (∀ a, BLOCK_COUNT / 8 ≤ a → s2.mem a = s.mem a) ∧
      (∀ k, (s.inode_table i).blocks k ≠ -1 →
        bitmap_get s2.mem 0 ((s.inode_table i).blocks k).toNat = false) ∧
      ∀ j, (∀ k, (s.inode_table i).blocks k ≠ -1 → ((s.inode_table i).blocks k).toNat ≠ j) →
        bitmap_get s2.mem 0 j = bitmap_get s.mem 0 j := by
  obtain ⟨c0, e0, r0, z0, _⟩ := free_slot_step i 0 s s hv (freeing_refl i s)
  obtain ⟨c1, e1, r1, z1, p1⟩ := free_slot_step i 1 s c0 hv r0
  obtain ⟨c2, e2, r2, z2, p2⟩ := free_slot_step i 2 s c1 hv r1
  obtain ⟨c3, e3, r3, z3, p3⟩ := free_slot_step i 3 s c2 hv r2
  have hall : ∀ k : Fin 4, (c3.inode_table i).blocks k = -1 := by
    intro k
    fin_cases k
    · exact p3 _ (p2 _ (p1 _ z0))
    · exact p3 _ (p2 _ z1)
    · exact p3 _ z2
    · exact z3
  obtain ⟨f1, _, _, _, _, f6, f7, f8⟩ := r3
  unfold free_inode
  rw [if_neg (by omega)]
  simp only [Int.toNat_ofNat, e0, e1, e2, e3, Option.some_bind, Option.bind_eq_bind]
  refine ⟨_, rfl, ?_, ?_, ?_, ?_, ?_, ?_, ?_, ?_⟩
  · intro j hj
    simp only [State.set_inode]
    rw [Function.update_noteq hj]
    exact f1 j hj
  · simp only [State.set_inode, Function.update_same]
  · simp only [State.set_inode, Function.update_same]
  · simp only [State.set_inode, Function.update_same]
  · intro k
    simp only [State.set_inode, Function.update_same]
    exact hall k
  · intro a ha
    simp only [State.set_inode]
    exact f6 a ha
  · intro k hk
    simp only [State.set_inode]
    exact f7 k hk (hall k)
  · intro j hj
    simp only [State.set_inode]
    exact f8 j hj

/-! ## Lookup in lists of entries -/

theorem lookup_entries_nil (nm : List Nat) : lookup_entries [] nm = -1 := rfl

theorem lookup_entries_cons (e : List Nat × Int) (l : List (List Nat × Int)) (nm : List Nat) :
    lookup_entries (e :: l) nm = if e.1 = nm then e.2 else lookup_entries l nm := by
  unfold lookup_entries
  rw [List.find?_cons]
  by_cases h : e.1 = nm
  · have hb : (e.1 == nm) = true := by simpa using h
    rw [hb, if_pos h]
  · have hb : (e.1 == nm) = false := by simpa using h
    rw [hb, if_neg h]

theorem lookup_entries_absent (l : List (List Nat × Int)) (nm : List Nat)
    (h : ∀ e ∈ l, e.1 ≠ nm) : lookup_entries l nm = -1 := by
  induction l with
  | nil => rfl
  | cons e l ih =>
    rw [lookup_entries_cons, if_neg (h e (List.mem_cons_self _ _))]
    exact ih fun x hx => h x (List.mem_cons_of_mem _ hx)

theorem lookup_entries_mem (l : List (List Nat × Int)) (nm : List Nat) (v : Int)
    (h : lookup_entries l nm = v) (hv : v ≠ -1) : (nm, v) ∈ l := by
  induction l with
  | nil =>
    rw [lookup_entries_nil] at h
    exact absurd h.symm hv
  | cons e l ih =>
    rw [lookup_entries_cons] at h
    by_cases he : e.1 = nm
    · rw [if_pos he] at h
      have : e = (nm, v) := Prod.ext he h
      rw [this]
      exact List.mem_cons_self _ _
    · rw [if_neg he] at h
      exact List.mem_cons_of_mem _ (ih h)

theorem lookup_entries_of_mem (l : List (List Nat × Int)) (nm : List Nat) (v : Int)
    (hnd : (l.map Prod.fst).Nodup) (h : (nm, v) ∈ l) : lookup_entries l nm = v := by
  induction l with
  | nil => simp at h
  | cons e l ih =>
    rw [lookup_entries_cons]
    rw [List.map_cons, List.nodup_cons] at hnd
    rcases List.mem_cons.1 h with h | h
    · rw [← h, if_pos rfl]
    · have hne : e.1 ≠ nm := by
        intro he
        apply hnd.1
        rw [he]
        exact List.mem_map.2 ⟨(nm, v), h, rfl⟩
      rw [if_neg hne]
      exact ih hnd.2 h

theorem lookup_eraseP_other (l : List (List Nat × Int)) (nm nm2 : List Nat) (h : nm ≠ nm2) :
    lookup_entries (l.eraseP fun e => e.1 == nm) nm2 = lookup_entries l nm2 := by
  induction l with
  | nil => rfl
  | cons e l ih =>
    rw [List.eraseP_cons]
    by_cases he : e.1 = nm
    · have hb : (e.1 == nm) = true := by simpa using he
      rw [hb, cond_true, lookup_entries_cons, if_neg (by rw [he]; exact h)]
    · have hb : (e.1 == nm) = false := by simpa using he
      rw [hb, cond_false, lookup_entries_cons, lookup_entries_cons, ih]

theorem eraseP_name_absent (l : List (List Nat × Int)) (nm : List Nat)
    (hnd : (l.map Prod.fst).Nodup) : ∀ e ∈ l.eraseP (fun e => e.1 == nm), e.1 ≠ nm := by
  induction l with
  | nil =>
    intro e he
    simp at he
  | cons x l ih =>
    rw [List.map_cons, List.nodup_cons] at hnd
    rw [List.eraseP_cons]
    by_cases hx : x.1 = nm
    · have hb : (x.1 == nm) = true := by simpa using hx
      rw [hb, cond_true]
      intro e he hen
      apply hnd.1
      rw [hx, ← hen]
      exact List.mem_map.2 ⟨e, he, rfl⟩
    · have hb : (x.1 == nm) = false := by simpa using hx
      rw [hb, cond_false]
      intro e he
      rcases List.mem_cons.1 he with he | he
      · rw [he]
        exact hx
      · exact ih hnd.2 e he

theorem lookup_append_new (l : List (List Nat × Int)) (nm : List Nat) (v : Int)
    (h : ∀ e ∈ l, e.1 ≠ nm) : lookup_entries (l ++ [(nm, v)]) nm = v := by
  induction l with
  | nil =>
    rw [List.nil_append, lookup_entries_cons, if_pos rfl]
  | cons e l ih =>
    rw [List.cons_append, lookup_entries_cons, if_neg (h e (List.mem_cons_self _ _))]
    exact ih fun x hx => h x (List.mem_cons_of_mem _ hx)

theorem lookup_append_other (l : List (List Nat × Int)) (nm nm2 : List Nat) (v : Int)
    (h : nm ≠ nm2) : lookup_entries (l ++ [(nm, v)]) nm2 = lookup_entries l nm2 := by
  induction l with
  | nil =>
    rw [List.nil_append, lookup_entries_cons, if_neg h]
  | cons e l ih =>
    rw [List.cons_append, lookup_entries_cons, lookup_entries_cons, ih]

theorem nodup_eraseP_names (l : List (List Nat × Int)) (p : List Nat × Int → Bool)
    (hnd : (l.map Prod.fst).Nodup) : ((l.eraseP p).map Prod.fst).Nodup :=
  List.Nodup.sublist ((List.eraseP_sublist l).map Prod.fst) hnd

/-! ## directory_delete, both cases -/

theorem directory_delete_spec (s : State) (di : Nat) (name : List Nat) (hok : dir_ok s di)
    (hn : is_name name) :
    ∃ rv s2, directory_delete s di name = some (rv, s2) ∧
      (rv = 0 ∨ rv = -ENOENT ∧ s2 = s) ∧
      (rv = 0 ↔ ∃ e ∈ dir_entries s di, e.1 = name) ∧
      dir_entries s2 di = (dir_entries s di).eraseP (fun e => e.1 == name) ∧
      dir_ok s2 di ∧
      (∀ j, j ≠ di → s2.inode_table j = s.inode_table j) ∧
      (s2.inode_table di).blocks = (s.inode_table di).blocks ∧
      (s2.inode_table di).refs = (s.inode_table di).refs ∧
      (s2.inode_table di).mode = (s.inode_table di).mode ∧
      (rv = 0 → (s2.inode_table di).size = (s.inode_table di).size - DIR_ENTRY_SIZE) ∧
      (∀ a, a < dir_base s di ∨ dir_base s di + BLOCK_SIZE ≤ a → s2.mem a = s.mem a) := by
  cases hf : (List.range (dir_len s di)).find? (fun i =>
      entry_name s.mem (entry_addr (dir_base s di) i) == name) with
  | none =>
    obtain ⟨h1, h2⟩ := directory_delete_absent s di name hok hn hf
    refine ⟨-ENOENT, s, h1, Or.inr ⟨rfl, rfl⟩, ?_, h2.symm, hok, fun _ _ => rfl, rfl, rfl, rfl,
      ?_, fun _ _ => rfl⟩
    · constructor
      · intro h
        simp only [ENOENT] at h
        omega
      · intro h
        obtain ⟨i0, hi0⟩ := find_some_of_present s di name h
        rw [hf] at hi0
        cases hi0
    · intro h
      simp only [ENOENT] at h
      omega
  | some i0 =>
    obtain ⟨s2, h1, h2, h3, h4, h5, h6, h7, h8, h9⟩ :=
      directory_delete_present s di name hok hn i0 hf
    refine ⟨0, s2, h1, Or.inl rfl, ?_, h2, h3, h4, h5, h6, h7, fun _ => h8, h9⟩
    constructor
    · intro _
      obtain ⟨hi0, hp0, _⟩ := find_range_some hf
      refine ⟨(entry_name s.mem (entry_addr (dir_base s di) i0),
        load_int s.mem (entry_addr (dir_base s di) i0 + DIR_NAME_LENGTH)), ?_, by simpa using hp0⟩
      unfold dir_entries
      exact List.mem_map.2 ⟨i0, List.mem_range.2 hi0, rfl⟩
    · intro _
      rfl

/-! ## nufs_unlink -/

theorem dir_ok_set_inode (s : State) (i : Nat) (n : Inode) (hi0 : i ≠ 0) (hok : dir_ok s 0) :
    dir_ok (s.set_inode i n) 0 ∧ dir_entries (s.set_inode i n) 0 = dir_entries s 0 := by
  apply dir_ok_congr s (s.set_inode i n) 0 hok
  · simp only [State.set_inode]
    rw [Function.update_noteq (Ne.symm hi0)]
  · intro a _ _
    rfl

theorem nufs_getattr_absent (s : State) (uid c0 : Nat) (name : List Nat) (hne : name ≠ [])
    (hfind : directory_lookup s 0 name = some (-1)) :
    nufs_getattr s uid (c0 :: name) = some (-ENOENT, Stat.zero) := by
  have hp : ¬(c0 :: name = [47]) := by
    intro h
    simp only [List.cons.injEq] at h
    exact hne h.2
  unfold nufs_getattr find_inode_by_name
  rw [if_neg hp]
  simp only [hfind]
  rw [if_pos trivial]

theorem nufs_unlink_absent (s : State) (c0 : Nat) (name : List Nat)
    (hfind : directory_lookup s 0 name = some (-1)) :
    nufs_unlink s (c0 :: name) = some (-ENOENT, s) := by
  unfold nufs_unlink
  simp only [hfind]
  rw [if_pos trivial]

theorem nufs_unlink_present (s : State) (c0 uid : Nat) (name : List Nat) (i : Nat)
    (hok : dir_ok s 0) (hn : is_name name) (hne : name ≠ [])
    (hnd : ((dir_entries s 0).map Prod.fst).Nodup)
    (hfind : directory_lookup s 0 name = some (i : Int)) (hi0 : 0 < i) (hi : i < MAX_FILES)
    (hrefs : (s.inode_table i).refs = 1) (hv : slots_valid (s.inode_table i)) :
    ∃ s2, nufs_unlink s (c0 :: name) = some (0, s2) ∧
      directory_lookup s2 0 name = some (-1) ∧
      nufs_getattr s2 uid (c0 :: name) = some (-ENOENT, Stat.zero) ∧
      (∀ other, is_name other → other ≠ name →
        directory_lookup s2 0 other = directory_lookup s 0 other) ∧
      (s2.inode_table i).refs = 0 ∧ (s2.inode_table i).size = 0 ∧
      (∀ k, (s2.inode_table i).blocks k = -1) ∧
      ∀ k, (s.inode_table i).blocks k ≠ -1 →
        bitmap_get s2.mem 0 ((s.inode_table i).blocks k).toNat = false := by
  have hi0' : i ≠ 0 := by omega
  obtain ⟨hok1, he1⟩ := dir_ok_set_inode s i
    { s.inode_table i with refs := (s.inode_table i).refs - 1 } hi0' hok
  obtain ⟨rv, s2, hd, _, _, he2, hok2, hi2, _, _, _, _, _⟩ :=
    directory_delete_spec _ 0 name hok1 hn
  have hnode2 : s2.inode_table i =
      { s.inode_table i with refs := (s.inode_table i).refs - 1 } := by
    rw [hi2 i hi0']
    simp only [State.set_inode, Function.update_same]
  have hv2 : slots_valid (s2.inode_table i) := by
    rw [hnode2]
    exact hv
  obtain ⟨s3, hf, g1, g2, _, g4, g5, g6, g7, _⟩ := free_inode_spec s2 i hi hv2
  obtain ⟨hok3, he3⟩ := dir_ok_congr s2 s3 0 hok2 (g1 0 (Ne.symm hi0')) (by
    intro a ha1 ha2
    obtain ⟨h1, _⟩ := dir_base_div s2 0 hok2 a ha1 ha2
    apply g6
    simp only [BLOCK_SIZE, BLOCK_COUNT] at *
    omega)
  have hent : dir_entries s3 0 = (dir_entries s 0).eraseP (fun e => e.1 == name) := by
    rw [he3, he2, he1]
  have hl3 : directory_lookup s3 0 name = some (-1) := by
    rw [directory_lookup_spec s3 0 name hok3 hn, hent,
      lookup_entries_absent _ _ (eraseP_name_absent _ name hnd)]
  refine ⟨s3, ?_, hl3, nufs_getattr_absent s3 uid c0 name hne hl3, ?_, g2, g4, g5, ?_⟩
  · unfold nufs_unlink
    simp only [hfind]
    rw [if_neg (by omega), get_inode_natCast i hi]
    simp only [hd]
    rw [if_pos (by rw [hnode2]; simp only; omega), hf]
    rfl
  · intro other ho hne2
    rw [directory_lookup_spec s3 0 other hok3 ho, directory_lookup_spec s 0 other hok ho, hent,
      lookup_eraseP_other _ _ _ (Ne.symm hne2)]
  · intro k hk
    have := g7 k (by rw [hnode2]; exact hk)
    rw [hnode2] at this
    exact this

/-! ## nufs_rename -/

theorem dir_entries_inum_range (s : State) (di : Nat) :
    ∀ e ∈ dir_entries s di, -2 ^ 31 ≤ e.2 ∧ e.2 < 2 ^ 31 := by
  intro e he
  unfold dir_entries at he
  obtain ⟨i, _, rfl⟩ := List.mem_map.1 he
  exact to_int_range _

theorem dir_len_le_of_ok (s : State) (di : Nat) (hok : dir_ok s di) :
    (dir_entries s di).length ≤ BLOCK_SIZE / DIR_ENTRY_SIZE := by
  rw [dir_entries_length]
  exact (dir_ok_len s di hok).2.2

theorem nufs_rename_overwrite (s : State) (c1 c2 : Nat) (a b : List Nat) (ia ib : Int)
    (hok : dir_ok s 0) (ha : is_name a) (hb : is_name b) (hab : a ≠ b)
    (hnd : ((dir_entries s 0).map Prod.fst).Nodup)
    (hni : ((dir_entries s 0).map Prod.snd).Nodup)
    (hfa : directory_lookup s 0 a = some ia) (hia : ia ≠ -1)
    (hfb : directory_lookup s 0 b = some ib) (hib : ib ≠ -1) :
    ∃ s2, nufs_rename s (c1 :: a) (c2 :: b) = some (0, s2) ∧
      directory_lookup s2 0 a = some (-1) ∧
      directory_lookup s2 0 b = some ia ∧
      (∀ e ∈ dir_entries s2 0, e.2 ≠ ib) ∧
      (∀ other, is_name other → other ≠ a → other ≠ b →
        directory_lookup s2 0 other = directory_lookup s 0 other) ∧
      dir_entries s2 0 =
        ((dir_entries s 0).eraseP (fun e => e.1 == b)).eraseP (fun e => e.1 == a) ++ [(b, ia)] ∧
      (∀ j, j ≠ 0 → s2.inode_table j = s.inode_table j) ∧
      (∀ x, x < dir_base s 0 ∨ dir_base s 0 + BLOCK_SIZE ≤ x → s2.mem x = s.mem x) := by
  rw [directory_lookup_spec s 0 a hok ha] at hfa
  rw [directory_lookup_spec s 0 b hok hb] at hfb
  have hma : (a, ia) ∈ dir_entries s 0 :=
    lookup_entries_mem _ a ia (Option.some.inj hfa) hia
  have hmb : (b, ib) ∈ dir_entries s 0 :=
    lookup_entries_mem _ b ib (Option.some.inj hfb) hib
  have hblen : b.length < DIR_NAME_LENGTH := hok.2.2.2.2.2 (b, ib) hmb
  have hiar := dir_entries_inum_range s 0 (a, ia) hma
  -- first delete: the target name
  obtain ⟨rv1, s1, hd1, _, _, he1, hok1, hi1, hblk1, _, _, _, hm1⟩ :=
    directory_delete_spec s 0 b hok hb
  have hnd1 : ((dir_entries s1 0).map Prod.fst).Nodup := by
    rw [he1]
    exact nodup_eraseP_names _ _ hnd
  have hbase1 : dir_base s1 0 = dir_base s 0 := by
    unfold dir_base
    rw [hblk1]
  -- second delete: the source name
  obtain ⟨rv2, s2, hd2, _, _, he2, hok2, hi2, hblk2, _, _, _, hm2⟩ :=
    directory_delete_spec s1 0 a hok1 ha
  have hbase2 : dir_base s2 0 = dir_base s 0 := by
    unfold dir_base
    rw [hblk2, hblk1]
  have hb1 : ∀ e ∈ dir_entries s1 0, e.1 ≠ b := by
    rw [he1]
    exact eraseP_name_absent _ b hnd
  have hsub2 : ∀ e ∈ dir_entries s2 0, e ∈ dir_entries s1 0 := by
    intro e he
    rw [he2] at he
    exact (List.eraseP_sublist _).subset he
  have hb2 : ∀ e ∈ dir_entries s2 0, e.1 ≠ b := fun e he => hb1 e (hsub2 e he)
  have ha2 : ∀ e ∈ dir_entries s2 0, e.1 ≠ a := by
    rw [he2]
    exact eraseP_name_absent _ a hnd1
  have hroom : dir_len s2 0 < BLOCK_SIZE / DIR_ENTRY_SIZE := by
    rw [← dir_entries_length, he2, he1]
    have h1 := List.length_eraseP_of_mem hmb (p := fun e => e.1 == b) (by simp)
    have h2 : (((dir_entries s 0).eraseP fun e => e.1 == b).eraseP fun e => e.1 == a).length ≤
        ((dir_entries s 0).eraseP fun e => e.1 == b).length := List.length_eraseP_le _
    have h3 := dir_len_le_of_ok s 0 hok
    have h4 : 0 < (dir_entries s 0).length := List.length_pos_of_mem hmb
    omega
  obtain ⟨s3, hp, he3, hok3, hi3, _, _, _, _, hm3⟩ :=
    directory_put_ok s2 0 b ia hok2 hb hblen hb2 hroom hiar.1 hiar.2
  have hent : dir_entries s3 0 =
      ((dir_entries s 0).eraseP (fun e => e.1 == b)).eraseP (fun e => e.1 == a) ++ [(b, ia)] := by
    rw [he3, he2, he1]
  refine ⟨s3, ?_, ?_, ?_, ?_, ?_, hent, ?_, ?_⟩
  · unfold nufs_rename
    simp only [directory_lookup_spec s 0 a hok ha, directory_lookup_spec s 0 b hok hb]
    rw [← Option.some.inj hfa, ← Option.some.inj hfb] at *
    rw [if_neg hia, if_pos hib, hd1]
    simp only [Option.map_some']
    rw [hd2]
    exact hp
  · rw [directory_lookup_spec s3 0 a hok3 ha, he3, lookup_append_other _ _ _ _ (Ne.symm hab),
      lookup_entries_absent _ _ ha2]
  · rw [directory_lookup_spec s3 0 b hok3 hb, he3, lookup_append_new _ _ _ hb2]
  · intro e he
    rw [he3] at he
    have hinj := List.inj_on_of_nodup_map hni
    rcases List.mem_append.1 he with he | he
    · intro heq
      have hel : e ∈ dir_entries s 0 := by
        have := hsub2 e he
        rw [he1] at this
        exact (List.eraseP_sublist _).subset this
      have := hinj hel hmb heq
      exact hb2 e he (by rw [this])
    · rw [List.mem_singleton.1 he]
      intro heq
      have := hinj hma hmb heq
      exact hab (congrArg Prod.fst this)
  · intro other ho hoa hob
    rw [directory_lookup_spec s3 0 other hok3 ho, directory_lookup_spec s 0 other hok ho, he3,
      lookup_append_other _ _ _ _ (Ne.symm hob), he2, lookup_eraseP_other _ _ _ (Ne.symm hoa), he1,
      lookup_eraseP_other _ _ _ (Ne.symm hob)]
  · intro j hj
    rw [hi3 j hj, hi2 j hj, hi1 j hj]
  · intro x hx
    rw [hm3 x (by rw [hbase2]; exact hx), hm2 x (by rw [hbase1]; exact hx), hm1 x hx]

/-! ## alloc_inode -/

theorem alloc_inode_cases (s : State) :
    ((alloc_inode s).1 = -1 ∧ (alloc_inode s).2 = s ∧
        ∀ j, j < MAX_FILES → (s.inode_table j).refs ≠ 0) ∨
      ∃ i : Nat, (alloc_inode s).1 = (i : Int) ∧ i < MAX_FILES ∧ (s.inode_table i).refs = 0 ∧
        (∀ j, j < i → (s.inode_table j).refs ≠ 0) ∧
        (alloc_inode s).2 =
          s.set_inode i { refs := 1, mode := 0, size := 0, blocks := fun _ => -1 } := by
  unfold alloc_inode
  cases hf : find_from (fun i => (s.inode_table i).refs == 0) 0 MAX_FILES with
  | none =>
    left
    refine ⟨rfl, rfl, fun j hj => ?_⟩
    have := (find_from_eq_none_iff _ _ _).1 hf j (Nat.zero_le _) (by omega)
    simpa using this
  | some i =>
    right
    obtain ⟨_, h2, h3, h4⟩ := (find_from_eq_some_iff _ _ _ _).1 hf
    refine ⟨i, rfl, by omega, by simpa using h3, fun j hj => ?_, rfl⟩
    have := h4 j (Nat.zero_le _) hj
    simpa using this

/-- Allocating a block leaves the bytes of every block in use as they are. -/
theorem alloc_block_frame (mem : Mem) (a : Nat) (h1 : BLOCK_SIZE ≤ a)
    (h3 : bitmap_get mem 0 (a / BLOCK_SIZE) = true) : (alloc_block mem).2 a = mem a := by
  rcases alloc_block_cases mem with ⟨_, h, _⟩ | ⟨b, _, hb2, hb3, hb4, hb5, _⟩
  · rw [h]
  · rw [hb2]
    apply alloc_mem_apply
    · simp only [BLOCK_SIZE, BLOCK_COUNT] at *
      omega
    · by_contra hc
      have : a / BLOCK_SIZE = b := by
        simp only [BLOCK_SIZE] at *
        omega
      rw [this, hb5] at h3
      cases h3

/-! ## directory_list -/

theorem cstr_at_read_name (mem : Mem) :
    ∀ (fuel big a : Nat), (read_name mem fuel a).length < fuel → fuel ≤ big →
      cstr_at mem big a = some (read_name mem fuel a) := by
  intro fuel
  induction fuel with
  | zero =>
    intro big a h _
    simp at h
  | succ fuel ih =>
    intro big a h hle
    cases big with
    | zero => omega
    | succ big =>
      unfold cstr_at
      unfold read_name at h ⊢
      by_cases h0 : mem a = 0
      · rw [if_pos h0, if_pos h0]
      · rw [if_neg h0] at h ⊢
        rw [if_neg h0, ih big (a + 1) (by simpa using h) (by omega)]
        rfl

theorem list_loop_spec (mem : Mem) (base : Nat) :
    ∀ (n i : Nat) (acc : List (List Nat)),
      (∀ j, i ≤ j → j < i + n → (entry_name mem (entry_addr base j)).length < DIR_NAME_LENGTH) →
      list_loop mem base n i acc =
        some (((List.range' i n).map fun j => entry_name mem (entry_addr base j)).reverse ++ acc) := by
  intro n
  induction n with
  | zero =>
    intro i acc _
    simp [list_loop]
  | succ n ih =>
    intro i acc h
    unfold list_loop
    have hc := cstr_at_read_name mem DIR_NAME_LENGTH NUFS_SIZE (entry_addr base i)
      (h i (le_refl _) (by omega)) (by norm_num)
    rw [hc]
    simp only
    rw [ih (i + 1) _ (fun j hj1 hj2 => h j (by omega) (by omega))]
    simp [List.range'_succ, entry_name]

theorem directory_list_spec (s : State) (di : Nat) (hok : dir_ok s di) :
    directory_list s di = some ((dir_entries s di).map Prod.fst).reverse := by
  unfold directory_list
  rw [if_neg (dir_ok_block s di hok).1, (dir_ok_block s di hok).2]
  simp only
  rw [(dir_ok_len s di hok).1, Int.toNat_ofNat,
    list_loop_spec s.mem (dir_base s di) (dir_len s di) 0 []
      (fun j _ hj => dir_ok_name s di hok j (by omega))]
  simp [dir_entries, List.range_eq_range', List.map_map, Function.comp]

/-! ## directory_put, all cases -/

theorem directory_put_spec (s : State) (di : Nat) (name : List Nat) (inum : Int)
    (hok : dir_ok s di) (hn : is_name name) (h1 : -2 ^ 31 ≤ inum) (h2 : inum < 2 ^ 31) :
    ∃ rv s2, directory_put s di name inum = some (rv, s2) ∧
      ((rv = -ENAMETOOLONG ∧ s2 = s ∧ DIR_NAME_LENGTH ≤ name.length) ∨
        (rv = -EEXIST ∧ s2 = s ∧ name.length < DIR_NAME_LENGTH ∧
          ∃ e ∈ dir_entries s di, e.1 = name) ∨
        (rv = -ENOSPC ∧ s2 = s ∧ name.length < DIR_NAME_LENGTH ∧
          (∀ e ∈ dir_entries s di, e.1 ≠ name) ∧ dir_len s di = BLOCK_SIZE / DIR_ENTRY_SIZE) ∨
        (rv = 0 ∧ name.length < DIR_NAME_LENGTH ∧ (∀ e ∈ dir_entries s di, e.1 ≠ name) ∧
          dir_len s di < BLOCK_SIZE / DIR_ENTRY_SIZE ∧
          dir_entries s2 di = dir_entries s di ++ [(name, inum)] ∧ dir_ok s2 di ∧
          (∀ j, j ≠ di → s2.inode_table j = s.inode_table j) ∧
          (s2.inode_table di).blocks = (s.inode_table di).blocks ∧
          (s2.inode_table di).refs = (s.inode_table di).refs ∧
          (s2.inode_table di).mode = (s.inode_table di).mode ∧
          (s2.inode_table di).size = (s.inode_table di).size + DIR_ENTRY_SIZE ∧
          ∀ a, a < dir_base s di ∨ dir_base s di + BLOCK_SIZE ≤ a → s2.mem a = s.mem a)) := by
  by_cases hlen : DIR_NAME_LENGTH ≤ name.length
  · exact ⟨_, _, directory_put_toolong s di name inum hlen, Or.inl ⟨rfl, rfl, hlen⟩⟩
  have hlen' : name.length < DIR_NAME_LENGTH := by omega
  by_cases hex : ∃ e ∈ dir_entries s di, e.1 = name
  · exact ⟨_, _, directory_put_exists s di name inum hok hn hlen' hex,
      Or.inr (Or.inl ⟨rfl, rfl, hlen', hex⟩)⟩
  have habs : ∀ e ∈ dir_entries s di, e.1 ≠ name := fun e he hen => hex ⟨e, he, hen⟩
  by_cases hfull : dir_len s di = BLOCK_SIZE / DIR_ENTRY_SIZE
  · exact ⟨_, _, directory_put_full s di name inum hok hn hlen' habs hfull,
      Or.inr (Or.inr (Or.inl ⟨rfl, rfl, hlen', habs, hfull⟩))⟩
  have hroom : dir_len s di < BLOCK_SIZE / DIR_ENTRY_SIZE := by
    have := (dir_ok_len s di hok).2.2
    omega
  obtain ⟨s2, g1, g2, g3, g4, g5, g6, g7, g8, g9⟩ :=
    directory_put_ok s di name inum hok hn hlen' habs hroom h1 h2
  exact ⟨0, s2, g1, Or.inr (Or.inr (Or.inr
    ⟨rfl, hlen', habs, hroom, g2, g3, g4, g5, g6, g7, g8, g9⟩))⟩

theorem directory_put_neg (s : State) (di : Nat) (name : List Nat) (inum : Int)
    (hok : dir_ok s di) (hn : is_name name) (h1 : -2 ^ 31 ≤ inum) (h2 : inum < 2 ^ 31)
    (rv : Int) (s2 : State) (h : directory_put s di name inum = some (rv, s2)) (hrv : rv ≠ 0) :
    rv < 0 ∧ s2 = s := by
  obtain ⟨rv', s2', hp, hc⟩ := directory_put_spec s di name inum hok hn h1 h2
  rw [hp] at h
  have e1 : rv' = rv := congrArg Prod.fst (Option.some.inj h)
  have e2 : s2' = s2 := congrArg Prod.snd (Option.some.inj h)
  subst e1 e2
  rcases hc with ⟨r, hs, _⟩ | ⟨r, hs, _⟩ | ⟨r, hs, _⟩ | ⟨r, _⟩
  · exact ⟨by rw [r]; norm_num, hs⟩
  · exact ⟨by rw [r]; norm_num, hs⟩
  · exact ⟨by rw [r]; norm_num, hs⟩
  · exact absurd r hrv

/-! ## The state a create handler inserts into -/

theorem create_dir_ok (s sA : State) (hok : dir_ok s 0)
    (hbit : bitmap_get s.mem 0 ((s.inode_table 0).blocks 0).toNat = true)
    (hinode : sA.inode_table 0 = s.inode_table 0)
    (hmem : sA.mem = s.mem ∨ sA.mem = (alloc_block s.mem).2) :
    dir_ok sA 0 ∧ dir_entries sA 0 = dir_entries s 0 := by
  apply dir_ok_congr s sA 0 hok hinode
  intro a ha1 ha2
  rcases hmem with h | h
  · rw [h]
  · rw [h]
    obtain ⟨h1, _, _, h4⟩ := dir_base_div s 0 hok a ha1 ha2
    apply alloc_block_frame _ _ h1
    rw [h4]
    exact hbit

theorem nufs_mkdir_success (s s1 : State) (name : List Nat) (mode : Nat)
    (hok : dir_ok s 0)
    (hbit : bitmap_get s.mem 0 ((s.inode_table 0).blocks 0).toNat = true)
    (hrefs : (s.inode_table 0).refs ≠ 0) (hn : is_name name)
    (h : nufs_mkdir s (47 :: name) mode = some (0, s1)) :
    ∃ i : Nat, 0 < i ∧ i < MAX_FILES ∧ (s.inode_table i).refs = 0 ∧ dir_ok s1 0 ∧
      dir_entries s1 0 = dir_entries s 0 ++ [(name, (i : Int))] ∧
      ∀ e ∈ dir_entries s 0, e.1 ≠ name := by
  unfold nufs_mkdir find_inode_by_name at h
  simp only [List.head?_cons, if_true, List.tail_cons] at h
  cases hl : directory_lookup s 0 name with
  | none =>
    rw [hl] at h
    cases h
  | some found =>
    rw [hl] at h
    simp only at h
    by_cases hf : found ≠ -1
    · rw [if_pos hf] at h
      have := congrArg Prod.fst (Option.some.inj h)
      simp at this
    rw [if_neg hf] at h
    rcases alloc_inode_cases s with ⟨a1, _, _⟩ | ⟨i, a1, a2, a3, a4, a5⟩
    · rw [if_pos a1] at h
      have := congrArg Prod.fst (Option.some.inj h)
      simp at this
    have hi0 : i ≠ 0 := by
      intro hi
      rw [hi] at a3
      exact hrefs a3
    rw [if_neg (by rw [a1]; omega)] at h
    simp only [a1, get_inode_natCast i a2] at h
    have hA := create_dir_ok s
      (State.set_inode ⟨(alloc_block (alloc_inode s).2.mem).2, (alloc_inode s).2.inode_table⟩ i
        { init_inode ((alloc_inode s).2.inode_table i) S_IFDIR mode with
          blocks := fun k => if k = 0 then (alloc_block (alloc_inode s).2.mem).1 else -1 })
      hok hbit
      (by
        simp only [State.set_inode]
        rw [Function.update_noteq (Ne.symm hi0), a5]
        simp only [State.set_inode]
        rw [Function.update_noteq (Ne.symm hi0)])
      (by
        right
        rw [a5]
        rfl)
    obtain ⟨rv, s3, hp, hc⟩ := directory_put_spec _ 0 name (i : Int) hA.1 hn (by omega)
      (by simp only [MAX_FILES] at a2; omega)
    rw [hp] at h
    simp only at h
    by_cases hrv : rv < 0
    · exfalso
      rw [if_pos hrv] at h
      cases hfb : free_block s3.mem ((s3.inode_table i).blocks 0) with
      | none =>
        rw [hfb] at h
        cases h
      | some m =>
        rw [hfb] at h
        simp only at h
        obtain ⟨s4, _, h4⟩ := Option.map_eq_some'.1 h
        have := congrArg Prod.fst h4
        simp only at this
        omega
    · rw [if_neg hrv] at h
      have hs : s3 = s1 := congrArg Prod.snd (Option.some.inj h)
      subst hs
      rcases hc with ⟨r, _⟩ | ⟨r, _⟩ | ⟨r, _⟩ | ⟨_, _, habs, _, he, hok3, _⟩
      · rw [r] at hrv
        norm_num at hrv
      · rw [r] at hrv
        norm_num at hrv
      · rw [r] at hrv
        norm_num at hrv
      · rw [hA.2] at he habs
        exact ⟨i, by omega, a2, a3, hok3, he, habs⟩

/-! ## Creating a name that exists -/

theorem create_exists (s : State) (name : List Nat) (mode : Nat) (r : Int)
    (hfind : find_inode_by_name s name = some r) (hr : r ≠ -1) :
    nufs_mknod s (47 :: name) mode = some (-EEXIST, s) ∧
      nufs_mkdir s (47 :: name) mode = some (-EEXIST, s) := by
  constructor
  · unfold nufs_mknod
    simp only [List.head?_cons, if_true, List.tail_cons, hfind]
    rw [if_pos hr]
  · unfold nufs_mkdir
    simp only [List.head?_cons, if_true, List.tail_cons, hfind]
    rw [if_pos hr]

theorem mkdir_twice (s s1 : State) (name : List Nat) (mode mode2 : Nat)
    (hok : dir_ok s 0)
    (hbit : bitmap_get s.mem 0 ((s.inode_table 0).blocks 0).toNat = true)
    (hrefs : (s.inode_table 0).refs ≠ 0) (hn : is_name name)
    (h : nufs_mkdir s (47 :: name) mode = some (0, s1)) :
    nufs_mkdir s1 (47 :: name) mode2 = some (-EEXIST, s1) ∧
      ∃ l, directory_list s1 0 = some l ∧ l.count name = 1 := by
  obtain ⟨i, hi0, hi, _, hok1, he, habs⟩ := nufs_mkdir_success s s1 name mode hok hbit hrefs hn h
  have hl : find_inode_by_name s1 name = some (i : Int) := by
    unfold find_inode_by_name
    rw [directory_lookup_spec s1 0 name hok1 hn, he, lookup_append_new _ _ _ habs]
  refine ⟨(create_exists s1 name mode2 (i : Int) hl (by omega)).2, _,
    directory_list_spec s1 0 hok1, ?_⟩
  rw [List.count_reverse, he, List.map_append, List.count_append]
  have h0 : List.count name (List.map Prod.fst (dir_entries s 0)) = 0 := by
    apply List.count_eq_zero_of_not_mem
    intro hm
    obtain ⟨e, he1, he2⟩ := List.mem_map.1 hm
    exact habs e he1 he2
  rw [h0]
  simp

theorem directory_put_not_toolong (s : State) (di : Nat) (name : List Nat) (inum : Int)
    (hlen : name.length < DIR_NAME_LENGTH) (r : Int × State)
    (h : directory_put s di name inum = some r) : r.1 ≠ -ENAMETOOLONG := by
  unfold directory_put at h
  rw [if_neg (by omega)] at h
  cases hp : put_ensure_block s di with
  | inl e =>
    rw [hp] at h
    have he : e = -ENOSPC := by
      unfold put_ensure_block at hp
      split_ifs at hp
      · cases hp
        rfl
    cases h
    rw [he]
    show (-ENOSPC : Int) ≠ -ENAMETOOLONG
    decide
  | inr s1 =>
    rw [hp] at h
    dsimp only at h
    cases hb : blocks_get_block ((s1.inode_table di).blocks 0) with
    | none =>
      rw [hb] at h
      cases h
    | some entries =>
      rw [hb] at h
      dsimp only at h
      cases hf : find_entry s1.mem entries (dir_count (s1.inode_table di).size) name with
      | some i0 =>
        rw [hf] at h
        cases h
        show (-EEXIST : Int) ≠ -ENAMETOOLONG
        decide
      | none =>
        rw [hf] at h
        dsimp only at h
        split_ifs at h
        · cases h
          show (-ENOSPC : Int) ≠ -ENAMETOOLONG
          decide
        · cases h
          show (0 : Int) ≠ -ENAMETOOLONG
          decide

theorem read_name_is_name (mem : Mem) : ∀ (fuel a : Nat), is_name (read_name mem fuel a) := by
  intro fuel
  induction fuel with
  | zero =>
    intro a c hc
    simp [read_name] at hc
  | succ fuel ih =>
    intro a c hc
    unfold read_name at hc
    split_ifs at hc with h0
    · simp at hc
    · rcases List.mem_cons.1 hc with h | h
      · rw [h]
        exact h0
      · exact ih (a + 1) c h

theorem dir_entries_is_name (s : State) (di : Nat) : ∀ e ∈ dir_entries s di, is_name e.1 := by
  intro e he
  unfold dir_entries at he
  obtain ⟨i, _, hi⟩ := List.mem_map.1 he
  rw [← hi]
  exact read_name_is_name _ _ _

theorem directory_delete_noent (s : State) (di : Nat) (name : List Nat) (hn : is_name name)
    (h : (s.inode_table di).blocks 0 = -1 ∨
      (dir_ok s di ∧ ∀ e ∈ dir_entries s di, e.1 ≠ name)) :
    directory_delete s di name = some (-ENOENT, s) := by
  rcases h with h | ⟨hok, habs⟩
  · unfold directory_delete
    rw [if_pos h]
  · exact (directory_delete_absent s di name hok hn (find_none_of_absent s di name habs)).1

theorem nodup_names_get (l : List (List Nat × Int)) (hnd : (l.map Prod.fst).Nodup)
    (i j : Nat) (hi : i < l.length) (hj : j < l.length)
    (h : (l.get ⟨i, hi⟩).1 = (l.get ⟨j, hj⟩).1) : i = j := by
  have h1 : (l.map Prod.fst).get ⟨i, by simpa using hi⟩ =
      (l.map Prod.fst).get ⟨j, by simpa using hj⟩ := by
    simpa using h
  have := (List.Nodup.get_inj_iff hnd).1 h1
  simpa using this

theorem directory_delete_at (s : State) (di i : Nat) (hok : dir_ok s di)
    (hnd : ((dir_entries s di).map Prod.fst).Nodup) (hi : i < (dir_entries s di).length) :
    ∃ s2, directory_delete s di ((dir_entries s di).get ⟨i, hi⟩).1 = some (0, s2) ∧
      dir_entries s2 di = (dir_entries s di).eraseIdx i ∧
      (s2.inode_table di).size = (s.inode_table di).size - DIR_ENTRY_SIZE ∧
      directory_lookup s2 di ((dir_entries s di).get ⟨i, hi⟩).1 = some (-1) ∧
      ∀ other, is_name other → other ≠ ((dir_entries s di).get ⟨i, hi⟩).1 →
        directory_lookup s2 di other = directory_lookup s di other := by
  have hmem : (dir_entries s di).get ⟨i, hi⟩ ∈ dir_entries s di := List.get_mem _ _ _
  have hn : is_name ((dir_entries s di).get ⟨i, hi⟩).1 := dir_entries_is_name s di _ hmem
  obtain ⟨rv, s2, h1, _, h3, h4, h5, _, _, _, _, h10, _⟩ :=
    directory_delete_spec s di ((dir_entries s di).get ⟨i, hi⟩).1 hok hn
  have hrv : rv = 0 := h3.2 ⟨_, hmem, rfl⟩
  rw [hrv] at h1
  have herase : (dir_entries s di).eraseP (fun e => e.1 == ((dir_entries s di).get ⟨i, hi⟩).1) =
      (dir_entries s di).eraseIdx i := by
    apply eraseP_eq_eraseIdx _ _ i hi
    · simp
    · intro j hj hji
      apply Bool.eq_false_iff.2
      intro hc
      have heq : ((dir_entries s di).get ⟨j, hj⟩).1 = ((dir_entries s di).get ⟨i, hi⟩).1 := by
        simpa using hc
      have := nodup_names_get _ hnd j i hj hi heq
      omega
  refine ⟨s2, h1, by rw [h4, herase], h10 hrv, ?_, ?_⟩
  · rw [directory_lookup_spec s2 di _ h5 hn, h4]
    rw [lookup_entries_absent _ _ (eraseP_name_absent _ _ hnd)]
  · intro other ho hne
    rw [directory_lookup_spec s2 di _ h5 ho, directory_lookup_spec s di _ hok ho, h4]
    rw [lookup_eraseP_other _ _ _ (Ne.symm hne)]

/-- The bit vector lies before every directory block. -/
theorem bitmap_outside_dir (s s2 : State) (di : Nat) (hok : dir_ok s di)
    (hmem : ∀ x, x < dir_base s di ∨ dir_base s di + BLOCK_SIZE ≤ x → s2.mem x = s.mem x)
    (j : Nat) (hj : j < 8 * BLOCK_SIZE) : bitmap_get s2.mem 0 j = bitmap_get s.mem 0 j := by
  apply bitmap_get_congr
  apply hmem
  left
  obtain ⟨h1, _⟩ := hok
  unfold dir_base
  simp only [BLOCK_SIZE] at *
  omega

theorem nufs_rename_leak (s : State) (c1 c2 : Nat) (a b : List Nat) (ia : Int) (ib : Nat)
    (hok : dir_ok s 0) (ha : is_name a) (hb : is_name b) (hab : a ≠ b)
    (hnd : ((dir_entries s 0).map Prod.fst).Nodup)
    (hni : ((dir_entries s 0).map Prod.snd).Nodup)
    (hfa : directory_lookup s 0 a = some ia) (hia : ia ≠ -1)
    (hfb : directory_lookup s 0 b = some (ib : Int)) (hib : ib ≠ 0)
    (hv : slots_valid (s.inode_table ib)) :
    ∃ s2, nufs_rename s (c1 :: a) (c2 :: b) = some (0, s2) ∧
      s2.inode_table ib = s.inode_table ib ∧
      (∀ j, j < BLOCK_COUNT → bitmap_get s2.mem 0 j = bitmap_get s.mem 0 j) ∧
      (∀ k, (s.inode_table ib).blocks k ≠ -1 →
        bitmap_get s.mem 0 ((s.inode_table ib).blocks k).toNat = true →
        bitmap_get s2.mem 0 ((s2.inode_table ib).blocks k).toNat = true) ∧
      ∀ e ∈ dir_entries s2 0, e.2 ≠ (ib : Int) := by
  obtain ⟨s2, h1, _, _, h4, _, _, h7, h8⟩ :=
    nufs_rename_overwrite s c1 c2 a b ia ib hok ha hb hab hnd hni hfa hia hfb (by omega)
  have hbits : ∀ j, j < 8 * BLOCK_SIZE → bitmap_get s2.mem 0 j = bitmap_get s.mem 0 j :=
    bitmap_outside_dir s s2 0 hok h8
  refine ⟨s2, h1, h7 ib hib, fun j hj => hbits j (by simp only [BLOCK_SIZE, BLOCK_COUNT] at *; omega),
    ?_, h4⟩
  intro k hk hbit
  rw [h7 ib hib]
  have hlt : ((s.inode_table ib).blocks k).toNat < 8 * BLOCK_SIZE := by
    rcases hv k with h | ⟨_, h⟩
    · exact absurd h hk
    · simp only [BLOCK_SIZE, BLOCK_COUNT] at *
      omega
  rw [hbits _ hlt]
  exact hbit

/-! ## Block allocation for an inode, in general -/

theorem grown_refl (node : Nat) (s : State) : grown node s s := by
  refine ⟨fun _ _ => rfl, rfl, rfl, rfl, fun _ => Or.inl rfl, ?_, ?_, fun _ _ _ => rfl⟩
  · intro k k2 _ h1 h2
    exact absurd h1 h2
  · intro j _
    constructor
    · exact fun h => Or.inl h
    · rintro (h | ⟨k, h1, h2⟩)
      · exact h
      · rw [h1] at h2
        omega

theorem grown_step (node : Nat) (s c : State) (k : Fin 4) (b : Nat) (hg : grown node s c)
    (hk : (c.inode_table node).blocks k = -1) (hb1 : 1 ≤ b) (hb2 : b < BLOCK_COUNT)
    (hb3 : bitmap_get c.mem 0 b = false) :
    grown node s
      (State.set_inode ⟨alloc_mem c.mem b, c.inode_table⟩ node
        ((c.inode_table node).set_block k (b : Int))) := by
  obtain ⟨g1, g2, g3, g4, g5, g6, g7, g8⟩ := hg
  have hsk : (s.inode_table node).blocks k = -1 := by
    rcases g5 k with h | ⟨h, _⟩
    · rw [← h]
      exact hk
    · exact h
  have hbit : ∀ j, j < BLOCK_COUNT → bitmap_get (alloc_mem c.mem b) 0 j =
      if j = b then true else bitmap_get c.mem 0 j := fun j hj =>
    alloc_mem_bit c.mem b j hb1 (by simp only [BLOCK_SIZE, BLOCK_COUNT] at *; omega)
  have hsb : bitmap_get s.mem 0 b = false := by
    by_contra hc
    have hc2 : bitmap_get s.mem 0 b = true := by simpa using hc
    have := (g7 b hb2).2 (Or.inl hc2)
    rw [hb3] at this
    cases this
  have hnew : ∀ k2, (s.inode_table node).blocks k2 = -1 →
      (c.inode_table node).blocks k2 ≠ -1 → (c.inode_table node).blocks k2 ≠ (b : Int) := by
    intro k2 h1 h2 heq
    rcases g5 k2 with h | ⟨_, h3, h4, _⟩
    · rw [h] at h2
      exact h2 h1
    · have := (g7 b hb2).2 (Or.inr ⟨k2, h1, heq⟩)
      rw [hb3] at this
      cases this
  simp only [grown, State.set_inode, Function.update_same, Inode.set_block]
  refine ⟨?_, g2, g3, g4, ?_, ?_, ?_, ?_⟩
  · intro j hj
    rw [Function.update_noteq hj]
    exact g1 j hj
  · intro k2
    by_cases hkk : k2 = k
    · rw [hkk, Function.update_same]
      right
      refine ⟨hsk, by omega, by omega, ?_⟩
      simpa using hsb
    · rw [Function.update_noteq hkk]
      exact g5 k2
  · intro k1 k2 hne h1 h2 h3
    by_cases hk1 : k1 = k
    · rw [hk1, Function.update_same]
      have hk2 : k2 ≠ k := fun h => hne (by rw [hk1, h])
      rw [Function.update_noteq hk2]
      by_cases hc2 : (c.inode_table node).blocks k2 = -1
      · rw [hc2]
        omega
      · exact fun h => hnew k2 h3 hc2 h.symm
    · rw [Function.update_noteq hk1] at h2 ⊢
      by_cases hk2 : k2 = k
      · rw [hk2, Function.update_same]
        exact hnew k1 h1 h2
      · rw [Function.update_noteq hk2]
        exact g6 k1 k2 hne h1 h2 h3
  · intro j hj
    rw [hbit j hj]
    by_cases hjb : j = b
    · simp only [hjb, if_true, true_iff]
      right
      exact ⟨k, hsk, by rw [Function.update_same]⟩
    · simp only [hjb, if_false]
      rw [g7 j hj]
      constructor
      · rintro (h | ⟨k2, h1, h2⟩)
        · exact Or.inl h
        · right
          refine ⟨k2, h1, ?_⟩
          by_cases hkk : k2 = k
          · rw [hkk, hk] at h2
            omega
          · rw [Function.update_noteq hkk]
            exact h2
      · rintro (h | ⟨k2, h1, h2⟩)
        · exact Or.inl h
        · right
          refine ⟨k2, h1, ?_⟩
          by_cases hkk : k2 = k
          · rw [hkk, Function.update_same] at h2
            have : j = b := by omega
            exact absurd this hjb
          · rw [Function.update_noteq hkk] at h2
            exact h2
  · intro a ha1 ha2
    rw [← g8 a ha1 ha2]
    apply alloc_mem_apply
    · simp only [BLOCK_SIZE, BLOCK_COUNT] at *
      omega
    · by_contra hc
      have : a / BLOCK_SIZE = b := by
        simp only [BLOCK_SIZE] at *
        omega
      rw [this, hsb] at ha2
      cases ha2

theorem grow_loop_grown (node : Nat) (s : State) :
    ∀ (cnt idx : Nat) (c : State), idx + cnt ≤ 4 → grown node s c →
      ∃ ok c2, grow_loop node cnt idx c = some (ok, c2) ∧ grown node s c2 ∧
        (∀ k, (c.inode_table node).blocks k ≠ -1 → (c2.inode_table node).blocks k ≠ -1) ∧
        (ok = true → ∀ k : Fin 4, idx ≤ k.val → k.val < idx + cnt →
          (c2.inode_table node).blocks k ≠ -1) ∧
        (ok = false → (alloc_block c2.mem).1 = -1) := by
  intro cnt
  induction cnt with
  | zero =>
    intro idx c _ hg
    refine ⟨true, c, rfl, hg, fun _ h => h, ?_, ?_⟩
    · intro _ k h1 h2
      omega
    · intro h
      cases h
  | succ cnt ih =>
    intro idx c h1 hg
    have hidx : idx < 4 := by omega
    unfold grow_loop
    rw [dif_pos hidx]
    by_cases hslot : (c.inode_table node).blocks ⟨idx, hidx⟩ = -1
    · rw [if_pos hslot]
      rcases alloc_block_cases c.mem with ⟨hf, hm, _⟩ | ⟨b, hb1, hb2, hb3, hb4, hb5, _⟩
      · rw [if_pos hf]
        exact ⟨false, c, rfl, hg, fun _ h => h, fun h => Bool.noConfusion h, fun _ => hf⟩
      · have hne : (alloc_block c.mem).1 ≠ -1 := by
          rw [hb1]
          omega
        rw [if_neg hne, hb1, hb2]
        obtain ⟨ok, c2, e1, e2, e3, e4, e5⟩ := ih (idx + 1) _ (by omega)
          (grown_step node s c ⟨idx, hidx⟩ b hg hslot hb3 hb4 hb5)
        simp only [State.set_inode, Function.update_same, Inode.set_block] at e3
        have hkeep : ∀ k, (c.inode_table node).blocks k ≠ -1 →
            (c2.inode_table node).blocks k ≠ -1 := by
          intro k hk
          apply e3
          by_cases hki : k = ⟨idx, hidx⟩
          · rw [hki] at hk
            exact absurd hslot hk
          · rw [Function.update_noteq hki]
            exact hk
        refine ⟨ok, c2, e1, e2, hkeep, ?_, e5⟩
        intro hok k hk1 hk2
        by_cases hki : k.val = idx
        · have hk : k = ⟨idx, hidx⟩ := Fin.ext hki
          rw [hk]
          apply e3
          rw [Function.update_same]
          omega
        · exact e4 hok k (by omega) (by omega)
    · rw [if_neg hslot]
      obtain ⟨ok, c2, e1, e2, e3, e4, e5⟩ := ih (idx + 1) c (by omega) hg
      refine ⟨ok, c2, e1, e2, e3, ?_, e5⟩
      intro hok k hk1 hk2
      by_cases hki : k.val = idx
      · have hk : k = ⟨idx, hidx⟩ := Fin.ext hki
        rw [hk]
        exact e3 _ hslot
      · exact e4 hok k (by omega) (by omega)

/-- Every outcome of `grow_inode` for a size between 0 and the maximum. -/
theorem grow_inode_cases (s : State) (node sz : Nat) (hsz : sz ≤ MAX_FILE_SIZE) :
    ∃ rv s1, grow_inode s node (sz : Int) = some (rv, s1) ∧
      ((rv = -ENOSPC ∧ grown node s s1 ∧ (alloc_block s1.mem).1 = -1) ∨
        (rv = 0 ∧ ∃ c, grown node s c ∧
          s1 = c.set_inode node { c.inode_table node with size := (sz : Int) } ∧
          ∀ k : Fin 4, k.val < blocks_needed sz → (c.inode_table node).blocks k ≠ -1)) := by
  unfold grow_inode
  rw [if_neg (by simp only [MAX_FILE_SIZE, BLOCK_SIZE] at *; omega), grow_needed_eq]
  have hcnt : blocks_needed sz ≤ 4 := by
    unfold blocks_needed
    simp only [MAX_FILE_SIZE, BLOCK_SIZE] at *
    omega
  obtain ⟨ok, c2, e1, e2, _, e4, e5⟩ :=
    grow_loop_grown node s (blocks_needed sz) 0 s (by omega) (grown_refl node s)
  rw [e1]
  cases ok with
  | false => exact ⟨_, _, rfl, Or.inl ⟨rfl, e2, e5 rfl⟩⟩
  | true =>
    refine ⟨_, _, rfl, Or.inr ⟨rfl, c2, e2, rfl, ?_⟩⟩
    intro k hk
    exact e4 rfl k (Nat.zero_le _) (by omega)

/-- Growing an inode without blocks to the maximal size when four blocks are free. -/
theorem grow_inode_full (s : State) (node : Nat)
    (hall : ∀ k, (s.inode_table node).blocks k = -1) (hfree : 4 ≤ free_blocks s.mem) :
    ∃ s1, grow_inode s node ((MAX_FILE_SIZE : Nat) : Int) = some (0, s1) ∧
      (s1.inode_table node).size = 16384 ∧
      (∀ k, ∃ b : Nat, (s1.inode_table node).blocks k = (b : Int) ∧ 1 ≤ b ∧ b < BLOCK_COUNT ∧
        bitmap_get s.mem 0 b = false ∧ bitmap_get s1.mem 0 b = true) ∧
      (∀ k k2, k ≠ k2 → (s1.inode_table node).blocks k ≠ (s1.inode_table node).blocks k2) ∧
      (∀ j, j < BLOCK_COUNT →
        (bitmap_get s1.mem 0 j = true ↔
          bitmap_get s.mem 0 j = true ∨ ∃ k, (s1.inode_table node).blocks k = (j : Int))) ∧
      (∀ j, j ≠ node → s1.inode_table j = s.inode_table j) ∧
      free_blocks s1.mem + 4 = free_blocks s.mem := by
  have hn0 : blocks_needed 0 = 0 := by
    unfold blocks_needed
    simp only [BLOCK_SIZE]
  have hn4 : blocks_needed MAX_FILE_SIZE = 4 := by
    unfold blocks_needed
    simp only [MAX_FILE_SIZE, BLOCK_SIZE]
  obtain ⟨s1, e1, _⟩ := grow_inode_spec s node 0 MAX_FILE_SIZE
    (fun k => by rw [hn0]; simp [hall k]) (by simp only [MAX_FILE_SIZE, BLOCK_SIZE]; omega)
    (le_refl _) (by rw [hn0, hn4]; omega)
  obtain ⟨rv, s1b, f1, f2⟩ := grow_inode_cases s node MAX_FILE_SIZE (le_refl _)
  rw [e1] at f1
  simp only [Option.some.injEq, Prod.mk.injEq] at f1
  obtain ⟨hrv, hs⟩ := f1
  rcases f2 with ⟨h, _⟩ | ⟨_, c, hg, hc, hcov⟩
  · rw [← hrv] at h
    exact absurd h (by decide)
  rw [← hs] at hc
  obtain ⟨g1, _, _, _, g5, g6, g7, _⟩ := hg
  have hblk : (s1.inode_table node).blocks = (c.inode_table node).blocks := by
    rw [hc]
    simp [State.set_inode]
  have hmem : s1.mem = c.mem := by
    rw [hc]
    rfl
  have hnew : ∀ k, 1 ≤ (c.inode_table node).blocks k ∧ (c.inode_table node).blocks k < BLOCK_COUNT ∧
      bitmap_get s.mem 0 ((c.inode_table node).blocks k).toNat = false := by
    intro k
    rcases g5 k with h | ⟨_, h⟩
    · exact absurd (by rw [h]; exact hall k) (hcov k (by rw [hn4]; exact k.isLt))
    · exact h
  have hdist : ∀ k k2, k ≠ k2 → (c.inode_table node).blocks k ≠ (c.inode_table node).blocks k2 :=
    fun k k2 hne => g6 k k2 hne (hall k) (by have := (hnew k).1; omega) (hall k2)
  have hbits : ∀ j, j < BLOCK_COUNT →
      (bitmap_get c.mem 0 j = true ↔
        bitmap_get s.mem 0 j = true ∨ ∃ k, (c.inode_table node).blocks k = (j : Int)) := by
    intro j hj
    rw [g7 j hj]
    constructor
    · rintro (h | ⟨k, _, h⟩)
      · exact Or.inl h
      · exact Or.inr ⟨k, h⟩
    · rintro (h | ⟨k, h⟩)
      · exact Or.inl h
      · exact Or.inr ⟨k, hall k, h⟩
  have hcount : free_blocks c.mem + 4 = free_blocks s.mem := by
    unfold free_blocks
    have hinj : Function.Injective fun k : Fin 4 => ((c.inode_table node).blocks k).toNat := by
      intro k k2 h
      by_contra hne
      apply hdist k k2 hne
      have h1 := (hnew k).1
      have h2 := (hnew k2).1
      simp only at h
      omega
    have hcardB : (Finset.univ.image fun k : Fin 4 =>
        ((c.inode_table node).blocks k).toNat).card = 4 := by
      rw [Finset.card_image_of_injective _ hinj]
      simp
    have hsub : (Finset.univ.image fun k : Fin 4 => ((c.inode_table node).blocks k).toNat) ⊆
        (Finset.Ico 1 BLOCK_COUNT).filter fun j => bitmap_get s.mem 0 j = false := by
      intro j hj
      obtain ⟨k, _, hk⟩ := Finset.mem_image.1 hj
      simp only [Finset.mem_filter, Finset.mem_Ico]
      obtain ⟨h1, h2, h3⟩ := hnew k
      rw [← hk]
      exact ⟨⟨by omega, by omega⟩, h3⟩
    have hset : ((Finset.Ico 1 BLOCK_COUNT).filter fun j => bitmap_get c.mem 0 j = false) =
        ((Finset.Ico 1 BLOCK_COUNT).filter fun j => bitmap_get s.mem 0 j = false) \
          (Finset.univ.image fun k : Fin 4 => ((c.inode_table node).blocks k).toNat) := by
      ext j
      simp only [Finset.mem_filter, Finset.mem_Ico, Finset.mem_sdiff, Finset.mem_image,
        Finset.mem_univ, true_and, not_exists]
      constructor
      · rintro ⟨⟨hj1, hj2⟩, hj3⟩
        have hnb := (not_congr (hbits j hj2)).1 (by rw [hj3]; simp)
        refine ⟨⟨⟨hj1, hj2⟩, by simpa using fun h => hnb (Or.inl h)⟩, ?_⟩
        intro k hk
        apply hnb
        right
        refine ⟨k, ?_⟩
        have := (hnew k).1
        omega
      · rintro ⟨⟨⟨hj1, hj2⟩, hj3⟩, hj4⟩
        refine ⟨⟨hj1, hj2⟩, ?_⟩
        by_contra hc2
        have hc3 : bitmap_get c.mem 0 j = true := by simpa using hc2
        rcases (hbits j hj2).1 hc3 with h | ⟨k, h⟩
        · rw [hj3] at h
          cases h
        · apply hj4 k
          rw [h]
          simp
    rw [hset, Finset.card_sdiff hsub, hcardB]
    have := Finset.card_le_card hsub
    rw [hcardB] at this
    omega
  refine ⟨s1, e1, ?_, ?_, ?_, ?_, ?_, ?_⟩
  · rw [hc]
    simp [State.set_inode]
  · intro k
    obtain ⟨h1, h2, h3⟩ := hnew k
    refine ⟨((c.inode_table node).blocks k).toNat, ?_, by omega, by omega, h3, ?_⟩
    · rw [hblk]
      omega
    · rw [hmem]
      apply (hbits _ (by omega)).2
      right
      exact ⟨k, by omega⟩
  · rw [hblk]
    exact hdist
  · rw [hblk, hmem]
    exact hbits
  · intro j hj
    rw [hc]
    simp only [State.set_inode]
    rw [Function.update_noteq hj]
    exact g1 j hj
  · rw [hmem]
    exact hcount

/-! ## Filling a directory -/

theorem put_all_spec (di : Nat) :
    ∀ (l : List (List Nat × Int)) (s : State), dir_ok s di →
      (∀ e ∈ l, is_name e.1 ∧ e.1.length < DIR_NAME_LENGTH ∧ -2 ^ 31 ≤ e.2 ∧ e.2 < 2 ^ 31) →
      ((dir_entries s di ++ l).map Prod.fst).Nodup →
      (dir_entries s di).length + l.length ≤ BLOCK_SIZE / DIR_ENTRY_SIZE →
      ∃ s2, put_all di l s = some s2 ∧ dir_ok s2 di ∧
        dir_entries s2 di = dir_entries s di ++ l ∧
        (s2.inode_table di).size = (s.inode_table di).size + DIR_ENTRY_SIZE * l.length := by
  intro l
  induction l with
  | nil =>
    intro s hok _ _ _
    exact ⟨s, rfl, hok, by simp, by simp⟩
  | cons e l ih =>
    intro s hok hl hnd hlen
    obtain ⟨hn, hlen2, hr1, hr2⟩ := hl e (List.mem_cons_self _ _)
    have habs : ∀ x ∈ dir_entries s di, x.1 ≠ e.1 := by
      intro x hx heq
      rw [List.map_append, List.map_cons] at hnd
      have := (List.nodup_append.1 hnd).2.2
      exact this (List.mem_map_of_mem _ hx) (by rw [heq]; exact List.mem_cons_self _ _)
    obtain ⟨s1, p1, p2, p3, _, _, _, _, p8, _⟩ := directory_put_ok s di e.1 e.2 hok hn hlen2 habs
      (by
        rw [← dir_entries_length]
        simp only [List.length_cons] at hlen
        omega) hr1 hr2
    obtain ⟨s2, q1, q2, q3, q4⟩ := ih s1 p3 (fun x hx => hl x (List.mem_cons_of_mem _ hx))
      (by
        rw [p2, List.append_assoc]
        exact hnd)
      (by
        rw [p2]
        simp only [List.length_append, List.length_cons, List.length_nil] at hlen ⊢
        omega)
    refine ⟨s2, ?_, q2, ?_, ?_⟩
    · unfold put_all
      rw [p1]
      simp only [if_true]
      exact q1
    · rw [q3, p2, List.append_assoc]
      rfl
    · rw [q4, p8]
      simp only [List.length_cons]
      push_cast
      ring

/-- Filling an empty directory up to its capacity. -/
theorem directory_fill (s : State) (di : Nat) (l : List (List Nat × Int)) (hok : dir_ok s di)
    (hempty : dir_entries s di = [])
    (hl : ∀ e ∈ l, is_name e.1 ∧ e.1.length < DIR_NAME_LENGTH ∧ -2 ^ 31 ≤ e.2 ∧ e.2 < 2 ^ 31)
    (hnd : (l.map Prod.fst).Nodup) (hlen : l.length ≤ BLOCK_SIZE / DIR_ENTRY_SIZE) :
    ∃ s2, put_all di l s = some s2 ∧ dir_entries s2 di = l ∧
      (s2.inode_table di).size = (s.inode_table di).size + DIR_ENTRY_SIZE * l.length ∧
      (∀ e ∈ l, directory_lookup s2 di e.1 = some e.2) ∧
      (l.length = BLOCK_SIZE / DIR_ENTRY_SIZE →
        ∀ (name : List Nat) (inum : Int), is_name name → name.length < DIR_NAME_LENGTH →
          (∀ e ∈ l, e.1 ≠ name) → directory_put s2 di name inum = some (-ENOSPC, s2)) := by
  obtain ⟨s2, q1, q2, q3, q4⟩ := put_all_spec di l s hok hl (by rw [hempty]; simpa using hnd)
    (by rw [hempty]; simpa using hlen)
  rw [hempty, List.nil_append] at q3
  refine ⟨s2, q1, q3, q4, ?_, ?_⟩
  · intro e he
    rw [directory_lookup_spec s2 di e.1 q2 (hl e he).1, q3]
    rw [lookup_entries_of_mem l e.1 e.2 hnd he]
  · intro hfull name inum hn hlen2 habs
    apply directory_put_full s2 di name inum q2 hn hlen2
    · rw [q3]
      exact habs
    · rw [← dir_entries_length, q3]
      exact hfull

/-! ## The invariant: two ways to keep it -/

/-- A change of the root directory alone keeps the invariant. -/
theorem inv_dir_change (s t : State) (hinv : Inv s)
    (hnodes : ∀ j, j ≠ 0 → t.inode_table j = s.inode_table j)
    (hrefs : (t.inode_table 0).refs = (s.inode_table 0).refs)
    (hblocks : (t.inode_table 0).blocks = (s.inode_table 0).blocks)
    (hbits : ∀ j, j < BLOCK_COUNT → bitmap_get t.mem 0 j = bitmap_get s.mem 0 j)
    (hdir : dir_ok t 0)
    (hnames : ((dir_entries t 0).map Prod.fst).Nodup)
    (hinums : ((dir_entries t 0).map Prod.snd).Nodup)
    (hlive : ∀ e ∈ dir_entries t 0,
      1 ≤ e.2 ∧ e.2 < MAX_FILES ∧ (s.inode_table e.2.toNat).refs = 1) : Inv t := by
  have hr : ∀ j, (t.inode_table j).refs = (s.inode_table j).refs := by
    intro j
    by_cases hj : j = 0
    · rw [hj, hrefs]
    · rw [hnodes j hj]
  have hb : ∀ j, (t.inode_table j).blocks = (s.inode_table j).blocks := by
    intro j
    by_cases hj : j = 0
    · rw [hj, hblocks]
    · rw [hnodes j hj]
  refine ⟨?_, ?_, ?_, ?_, ?_, ?_, ?_, hdir, hnames, hinums, ?_⟩
  · rw [hrefs]
    exact hinv.root
  · intro i hi
    rw [hr i]
    exact hinv.refs i hi
  · intro i hi hl k
    rw [hr i] at hl
    rw [hb i]
    exact hinv.slots i hi hl k
  · rw [hblocks]
    exact hinv.rootblk
  · rw [hbits 1 (by decide)]
    exact hinv.rootbit
  · intro i hi hi0 hl k
    rw [hr i] at hl
    rw [hb i]
    exact hinv.priv i hi hi0 hl k
  · intro i hi hl
    rw [hr i] at hl
    by_cases hi0 : i = 0
    · rw [hi0]
      obtain ⟨d1, _, d3, d4, _⟩ := hdir
      refine ⟨d3, by simp only [MAX_FILE_SIZE, BLOCK_SIZE] at *; omega, ?_⟩
      intro k hk
      have hk0 : k = 0 := by
        apply Fin.ext
        simp only [BLOCK_SIZE] at *
        have : (k.val : Int) < 1 := by omega
        simp only [Fin.val_zero]
        omega
      rw [hk0]
      omega
    · rw [hnodes i hi0]
      exact hinv.sizes i hi hl
  · intro e he
    obtain ⟨h1, h2, h3⟩ := hlive e he
    exact ⟨h1, h2, by rw [hr]; exact h3⟩

/-- A change of one inode other than the root, the directory staying as it is, keeps the
invariant: the inode is dead afterwards and no entry refers to it, or it is live with
valid slots, none of them the root directory's block. -/
theorem inv_node_change (s t : State) (i : Nat) (hinv : Inv s) (hi0 : i ≠ 0)
    (hnodes : ∀ j, j ≠ i → t.inode_table j = s.inode_table j)
    (hdir : dir_ok t 0) (hent : dir_entries t 0 = dir_entries s 0)
    (hbit : bitmap_get t.mem 0 1 = true)
    (hnode : ((t.inode_table i).refs = 0 ∧ ∀ e ∈ dir_entries s 0, e.2 ≠ (i : Int)) ∨
      ((t.inode_table i).refs = 1 ∧
        (∀ k : Fin 4, (t.inode_table i).blocks k = -1 ∨
          (1 ≤ (t.inode_table i).blocks k ∧ (t.inode_table i).blocks k < BLOCK_COUNT)) ∧
        (∀ k : Fin 4, (t.inode_table i).blocks k ≠ 1) ∧
        (0 ≤ (t.inode_table i).size ∧ (t.inode_table i).size ≤ MAX_FILE_SIZE ∧
          ∀ k : Fin 4, ((BLOCK_SIZE * k.val : Nat) : Int) < (t.inode_table i).size →
            (t.inode_table i).blocks k ≠ -1))) : Inv t := by
  refine ⟨?_, ?_, ?_, ?_, hbit, ?_, ?_, hdir, by rw [hent]; exact hinv.names,
    by rw [hent]; exact hinv.inums, ?_⟩
  · rw [hnodes 0 (Ne.symm hi0)]
    exact hinv.root
  · intro j hj
    by_cases hji : j = i
    · rw [hji]
      rcases hnode with ⟨h, _⟩ | ⟨h, _⟩
      · exact Or.inl h
      · exact Or.inr h
    · rw [hnodes j hji]
      exact hinv.refs j hj
  · intro j hj hl k
    by_cases hji : j = i
    · rw [hji] at hl ⊢
      rcases hnode with ⟨h, _⟩ | ⟨_, h, _⟩
      · exact absurd h hl
      · exact h k
    · rw [hnodes j hji] at hl ⊢
      exact hinv.slots j hj hl k
  · rw [hnodes 0 (Ne.symm hi0)]
    exact hinv.rootblk
  · intro j hj hj0 hl k
    by_cases hji : j = i
    · rw [hji] at hl ⊢
      rcases hnode with ⟨h, _⟩ | ⟨_, _, h, _⟩
      · exact absurd h hl
      · exact h k
    · rw [hnodes j hji] at hl ⊢
      exact hinv.priv j hj hj0 hl k
  · intro j hj hl
    by_cases hji : j = i
    · rw [hji] at hl ⊢
      rcases hnode with ⟨h, _⟩ | ⟨_, _, _, h⟩
      · exact absurd h hl
      · exact h
    · rw [hnodes j hji] at hl ⊢
      exact hinv.sizes j hj hl
  · intro e he
    rw [hent] at he
    obtain ⟨h1, h2, h3⟩ := hinv.live e he
    refine ⟨h1, h2, ?_⟩
    by_cases hei : e.2.toNat = i
    · rw [hei]
      rcases hnode with ⟨_, h⟩ | ⟨h, _⟩
      · exact absurd (by omega) (h e he)
      · exact h
    · rw [hnodes _ hei]
      exact h3

theorem inv_root_bit (s : State) (hinv : Inv s) :
    bitmap_get s.mem 0 ((s.inode_table 0).blocks 0).toNat = true := by
  rw [hinv.rootblk]
  exact hinv.rootbit

theorem inv_root_block_ne (s : State) (hinv : Inv s) (i : Nat) (hi0 : i ≠ 0) (hi : i < MAX_FILES)
    (hl : (s.inode_table i).refs ≠ 0) (k : Fin 4) :
    (s.inode_table i).blocks k ≠ (s.inode_table 0).blocks 0 := by
  rw [hinv.rootblk]
  exact hinv.priv i hi hi0 hl k

/-- What a lookup in the root directory returns under the invariant. -/
theorem inv_lookup (s : State) (hinv : Inv s) (name : List Nat) (hn : is_name name) :
    ∃ inum, directory_lookup s 0 name = some inum ∧
      ((inum = -1 ∧ ∀ e ∈ dir_entries s 0, e.1 ≠ name) ∨
        (∃ i : Nat, inum = (i : Int) ∧ 0 < i ∧ i < MAX_FILES ∧ (s.inode_table i).refs = 1 ∧
          (name, inum) ∈ dir_entries s 0)) := by
  refine ⟨_, directory_lookup_spec s 0 name hinv.dir hn, ?_⟩
  by_cases h : lookup_entries (dir_entries s 0) name = -1
  · left
    refine ⟨h, ?_⟩
    intro e he heq
    have h2 := lookup_entries_of_mem (dir_entries s 0) name e.2 hinv.names (by rw [← heq]; exact he)
    rw [h] at h2
    have := (hinv.live e he).1
    omega
  · right
    have hmem := lookup_entries_mem (dir_entries s 0) name _ rfl h
    obtain ⟨h1, h2, h3⟩ := hinv.live _ hmem
    simp only at h1 h2 h3
    refine ⟨(lookup_entries (dir_entries s 0) name).toNat, by omega, by omega, by omega, h3, hmem⟩

set_option maxRecDepth 100000

/-! ## The invariant holds initially -/

theorem init_state_dead (i : Nat) (hi : i ≠ 0) : (init_state.inode_table i).refs = 0 := by
  unfold init_state directory_init State.set_inode
  simp only
  rw [Function.update_noteq hi]

theorem inv_init : Inv init_state := by
  have hent : dir_entries init_state 0 = [] := by decide
  have hlive : ∀ i, (init_state.inode_table i).refs ≠ 0 → i = 0 := by
    intro i h
    by_contra hi
    exact h (init_state_dead i hi)
  refine ⟨by decide, ?_, ?_, by decide, by decide, ?_, ?_, by decide,
    by rw [hent]; exact List.nodup_nil, by rw [hent]; exact List.nodup_nil, by rw [hent]; simp⟩
  · intro i _
    by_cases hi : i = 0
    · rw [hi]
      right
      decide
    · exact Or.inl (init_state_dead i hi)
  · intro i _ hl
    rw [hlive i hl]
    decide
  · intro i _ hi0 hl
    exact absurd (hlive i hl) hi0
  · intro i _ hl
    rw [hlive i hl]
    decide

/-! ## Steps on one inode that keep the invariant -/

theorem inv_live_refs (s : State) (hinv : Inv s) (i : Nat) (hi : i < MAX_FILES)
    (hl : (s.inode_table i).refs ≠ 0) : (s.inode_table i).refs = 1 := by
  rcases hinv.refs i hi with h | h
  · exact absurd h hl
  · exact h

/-- Memory that agrees on the root directory's block gives the same directory. -/
theorem inv_dir_frame (s t : State) (hinv : Inv s) (hroot : t.inode_table 0 = s.inode_table 0)
    (hmem : ∀ a, a / BLOCK_SIZE = ((s.inode_table 0).blocks 0).toNat → t.mem a = s.mem a) :
    dir_ok t 0 ∧ dir_entries t 0 = dir_entries s 0 := by
  apply dir_ok_congr s t 0 hinv.dir hroot
  intro a h1 h2
  exact hmem a (dir_base_div s 0 hinv.dir a h1 h2).2.2.2

theorem inv_grown (s c : State) (node : Nat) (hinv : Inv s) (hg : grown node s c)
    (hn0 : node ≠ 0) (hn : node < MAX_FILES) (hl : (s.inode_table node).refs ≠ 0) : Inv c := by
  obtain ⟨g1, g2, _, g4, g5, _, g7, g8⟩ := hg
  obtain ⟨hdir, hent⟩ := inv_dir_frame s c hinv (g1 0 (Ne.symm hn0)) (by
    intro a ha
    apply g8 a
    · rw [hinv.rootblk] at ha
      simp only [BLOCK_SIZE] at *
      omega
    · rw [ha]
      exact inv_root_bit s hinv)
  apply inv_node_change s c node hinv hn0 g1 hdir hent
  · exact (g7 1 (by decide)).2 (Or.inl hinv.rootbit)
  · right
    refine ⟨by rw [g2]; exact inv_live_refs s hinv node hn hl, ?_, ?_, ?_⟩
    · intro k
      rcases g5 k with h | ⟨_, h1, h2, _⟩
      · rw [h]
        exact hinv.slots node hn hl k
      · exact Or.inr ⟨h1, h2⟩
    · intro k
      rcases g5 k with h | ⟨_, _, _, h3⟩
      · rw [h]
        exact hinv.priv node hn hn0 hl k
      · intro heq
        rw [heq] at h3
        have := hinv.rootbit
        simp only [Int.toNat_one] at h3
        rw [this] at h3
        cases h3
    · rw [g4]
      obtain ⟨h1, h2, h3⟩ := hinv.sizes node hn hl
      refine ⟨h1, h2, ?_⟩
      intro k hk
      rcases g5 k with h | ⟨_, h, _⟩
      · rw [h]
        exact h3 k hk
      · omega

theorem inv_set_size (s : State) (node : Nat) (z : Int) (hinv : Inv s)
    (hn0 : node ≠ 0) (hn : node < MAX_FILES) (hl : (s.inode_table node).refs ≠ 0)
    (hz0 : 0 ≤ z) (hz : z ≤ MAX_FILE_SIZE)
    (hcov : ∀ k : Fin 4, ((BLOCK_SIZE * k.val : Nat) : Int) < z →
      (s.inode_table node).blocks k ≠ -1) :
    Inv (s.set_inode node { s.inode_table node with size := z }) := by
  obtain ⟨hdir, hent⟩ := dir_ok_set_inode s node { s.inode_table node with size := z } hn0 hinv.dir
  apply inv_node_change s _ node hinv hn0 _ hdir hent hinv.rootbit
  · right
    simp only [State.set_inode, Function.update_same]
    exact ⟨inv_live_refs s hinv node hn hl, hinv.slots node hn hl,
      hinv.priv node hn hn0 hl, hz0, hz, hcov⟩
  · intro j hj
    simp only [State.set_inode]
    rw [Function.update_noteq hj]

theorem inv_mem_write (s : State) (node : Nat) (m : Mem) (hinv : Inv s)
    (hn0 : node ≠ 0) (hn : node < MAX_FILES) (hl : (s.inode_table node).refs ≠ 0)
    (hm : ∀ a, m a ≠ s.mem a →
      ∃ k, (s.inode_table node).blocks k ≠ -1 ∧
        a / BLOCK_SIZE = ((s.inode_table node).blocks k).toNat) :
    Inv ⟨m, s.inode_table⟩ := by
  have hsame : ∀ a, (∀ k, (s.inode_table node).blocks k ≠ -1 →
      a / BLOCK_SIZE ≠ ((s.inode_table node).blocks k).toNat) → m a = s.mem a := by
    intro a h
    by_contra hc
    obtain ⟨k, h1, h2⟩ := hm a hc
    exact h k h1 h2
  have hblk : ∀ k, (s.inode_table node).blocks k ≠ -1 →
      1 ≤ (s.inode_table node).blocks k ∧ (s.inode_table node).blocks k < BLOCK_COUNT := by
    intro k hk
    rcases hinv.slots node hn hl k with h | h
    · exact absurd h hk
    · exact h
  have hbits : ∀ j, j < BLOCK_COUNT → bitmap_get m 0 j = bitmap_get s.mem 0 j := by
    intro j hj
    apply bitmap_get_congr
    apply hsame
    intro k hk
    have := (hblk k hk).1
    simp only [BLOCK_SIZE, BLOCK_COUNT] at *
    omega
  obtain ⟨hdir, hent⟩ := inv_dir_frame s ⟨m, s.inode_table⟩ hinv rfl (by
    intro a ha
    apply hsame
    intro k hk heq
    apply inv_root_block_ne s hinv node hn0 hn hl k
    have h1 := (hblk k hk).1
    have h2 := hinv.dir.1
    omega)
  apply inv_node_change s ⟨m, s.inode_table⟩ node hinv hn0 (fun _ _ => rfl) hdir hent
  · show bitmap_get m 0 1 = true
    rw [hbits 1 (by decide)]
    exact hinv.rootbit
  · right
    dsimp only
    exact ⟨inv_live_refs s hinv node hn hl, hinv.slots node hn hl, hinv.priv node hn hn0 hl,
      hinv.sizes node hn hl⟩

/-! ## nufs_write keeps the invariant -/

theorem inv_slots_valid (s : State) (hinv : Inv s) (i : Nat) (hi : i < MAX_FILES)
    (hl : (s.inode_table i).refs ≠ 0) : slots_valid (s.inode_table i) := by
  intro k
  rcases hinv.slots i hi hl k with h | ⟨h1, h2⟩
  · exact Or.inl h
  · exact Or.inr ⟨by omega, h2⟩

theorem to_u64_of_nonneg (x : Int) (h0 : 0 ≤ x) (h1 : x < 2 ^ 64) : to_u64 x = x.toNat := by
  unfold to_u64
  rw [Int.emod_eq_of_lt h0 h1]

theorem write_grow_stage (s : State) (i sz : Nat) (hinv : Inv s) (hi0 : i ≠ 0)
    (hi : i < MAX_FILES) (hl : (s.inode_table i).refs ≠ 0) (hsz : sz ≤ MAX_FILE_SIZE) :
    ∃ rv s1, (if sz > to_u64 (s.inode_table i).size then grow_inode s i (to_int sz)
        else some (0, s)) = some (rv, s1) ∧ Inv s1 ∧
      (∀ j, j ≠ i → s1.inode_table j = s.inode_table j) ∧
      (s1.inode_table i).refs = (s.inode_table i).refs ∧
      (s1.inode_table i).mode = (s.inode_table i).mode ∧
      (rv = -ENOSPC ∨ (rv = 0 ∧ (sz : Int) ≤ (s1.inode_table i).size)) := by
  obtain ⟨hs0, hs1, _⟩ := hinv.sizes i hi hl
  have hu : to_u64 (s.inode_table i).size = (s.inode_table i).size.toNat :=
    to_u64_of_nonneg _ hs0 (by simp only [MAX_FILE_SIZE, BLOCK_SIZE] at *; omega)
  rw [hu]
  by_cases hgrow : sz > (s.inode_table i).size.toNat
  · rw [if_pos hgrow, to_int_of_lt sz (by simp only [MAX_FILE_SIZE, BLOCK_SIZE] at *; omega)]
    obtain ⟨rv, s1, e1, e2⟩ := grow_inode_cases s i sz hsz
    refine ⟨rv, s1, e1, ?_⟩
    rcases e2 with ⟨hrv, hg, _⟩ | ⟨hrv, c, hg, hc, hcov⟩
    · exact ⟨inv_grown s s1 i hinv hg hi0 hi hl, hg.1, hg.2.1, hg.2.2.1, Or.inl hrv⟩
    · have hic := inv_grown s c i hinv hg hi0 hi hl
      have hlc : (c.inode_table i).refs ≠ 0 := by
        rw [hg.2.1]
        exact hl
      rw [hc]
      refine ⟨?_, ?_, ?_, ?_, Or.inr ⟨hrv, ?_⟩⟩
      · apply inv_set_size c i _ hic hi0 hi hlc (by omega)
          (by simp only [MAX_FILE_SIZE, BLOCK_SIZE] at *; omega)
        intro k hk
        apply hcov k
        rw [blocks_needed_lt_iff]
        omega
      · intro j hj
        simp only [State.set_inode]
        rw [Function.update_noteq hj]
        exact hg.1 j hj
      · simp only [State.set_inode, Function.update_same]
        exact hg.2.1
      · simp only [State.set_inode, Function.update_same]
        exact hg.2.2.1
      · simp only [State.set_inode, Function.update_same]
        exact le_refl _
  · rw [if_neg hgrow]
    exact ⟨0, s, rfl, hinv, fun _ _ => rfl, rfl, rfl, Or.inr ⟨rfl, by omega⟩⟩

/-- A call of `nufs_write` on a C-string path returns and keeps the invariant; it changes
no inode but the one the path resolves to, and of that one neither `refs` nor `mode`. -/
theorem nufs_write_inv (s : State) (c0 : Nat) (name : List Nat) (buf : Nat → Nat)
    (size offset : Nat) (hinv : Inv s) (hn : is_name name) (hsum : offset + size < 2 ^ 64) :
    ∃ rv s2, nufs_write s (c0 :: name) buf size offset = some (rv, s2) ∧ Inv s2 ∧
      ∀ j, s2.inode_table j = s.inode_table j ∨
        (directory_lookup s 0 name = some (j : Int) ∧
          (s2.inode_table j).refs = (s.inode_table j).refs ∧
          (s2.inode_table j).mode = (s.inode_table j).mode) := by
  have h64 : (offset + size) % 2 ^ 64 = offset + size := Nat.mod_eq_of_lt hsum
  obtain ⟨inum, hfind, hcase⟩ := inv_lookup s hinv name hn
  unfold nufs_write find_inode_by_name
  simp only [hfind]
  rcases hcase with ⟨hm1, _⟩ | ⟨i, hii, hi0, hi, hrefs, _⟩
  · rw [if_pos hm1]
    exact ⟨_, _, rfl, hinv, fun _ => Or.inl rfl⟩
  subst hii
  rw [if_neg (by omega), h64]
  by_cases hbig : offset + size > MAX_FILE_SIZE
  · rw [if_pos hbig]
    exact ⟨_, _, rfl, hinv, fun _ => Or.inl rfl⟩
  rw [if_neg hbig, get_inode_natCast i hi]
  simp only
  have hl : (s.inode_table i).refs ≠ 0 := by
    rw [hrefs]
    decide
  obtain ⟨rv, s1, e1, e2, e3, e4, e5, e6⟩ :=
    write_grow_stage s i (offset + size) hinv (by omega) hi hl (by omega)
  rw [e1]
  simp only
  have hfr1 : ∀ j, s1.inode_table j = s.inode_table j ∨
      (some (i : Int) = some (j : Int) ∧ (s1.inode_table j).refs = (s.inode_table j).refs ∧
        (s1.inode_table j).mode = (s.inode_table j).mode) := by
    intro j
    by_cases hj : j = i
    · rw [hj]
      exact Or.inr ⟨rfl, e4, e5⟩
    · exact Or.inl (e3 j hj)
  rcases e6 with hrv | ⟨hrv, hcov⟩
  · rw [hrv, if_pos (by decide)]
    exact ⟨_, _, rfl, e2, hfr1⟩
  rw [hrv, if_neg (by decide)]
  have hl1 : (s1.inode_table i).refs ≠ 0 := by
    rw [e4]
    exact hl
  obtain ⟨hz0, hz1, hz2⟩ := e2.sizes i hi hl1
  have hal1 : ∀ k, BLOCK_SIZE * k < offset + size → slot_allocated (s1.inode_table i) k := by
    intro k hk
    have hk4 : k < 4 := by
      simp only [MAX_FILE_SIZE, BLOCK_SIZE] at *
      omega
    exact ⟨hk4, hz2 ⟨k, hk4⟩ (by simp only; omega)⟩
  obtain ⟨m, hw1, hw2, _⟩ := write_loop_spec buf size offset i (by omega) size 0 s1
    (Nat.zero_le _) (by omega) (inv_slots_valid s1 e2 i hi hl1) hal1
  simp only [Nat.add_zero] at hw2
  rw [hw1]
  simp only
  have hinvm : Inv ⟨m, s1.inode_table⟩ := by
    apply inv_mem_write s1 i m e2 (by omega) hi hl1
    intro a ha
    by_contra hc
    apply ha
    apply hw2 a
    intro p hp1 hp2 hpa
    have hp4 : p / BLOCK_SIZE < 4 := by
      simp only [MAX_FILE_SIZE, BLOCK_SIZE] at *
      omega
    rw [file_addr_eq _ p _ hp4 rfl] at hpa
    have hpl : BLOCK_SIZE * (p / BLOCK_SIZE) < offset + size := by
      have := Nat.mul_div_le p BLOCK_SIZE
      omega
    have hpm : p % BLOCK_SIZE < BLOCK_SIZE := Nat.mod_lt _ (by norm_num)
    apply hc
    refine ⟨⟨p / BLOCK_SIZE, hp4⟩, hz2 _ (by simp only; omega), ?_⟩
    rw [← hpa]
    simp only [BLOCK_SIZE] at *
    omega
  have hu : to_u64 (s1.inode_table i).size = (s1.inode_table i).size.toNat :=
    to_u64_of_nonneg _ hz0 (by simp only [MAX_FILE_SIZE, BLOCK_SIZE] at *; omega)
  rw [h64]
  simp only [hu]
  rw [if_neg (by omega)]
  refine ⟨_, _, rfl, ?_, ?_⟩
  · exact inv_set_size ⟨m, s1.inode_table⟩ i _ hinvm (by omega) hi hl1 hz0 hz1 hz2
  · intro j
    by_cases hj : j = i
    · rw [hj]
      right
      simp only [State.set_inode, Function.update_same]
      exact ⟨trivial, e4, e5⟩
    · left
      simp only [State.set_inode]
      rw [Function.update_noteq hj]
      exact e3 j hj

/-! ## Directory changes keep the invariant -/

theorem nodup_eraseP_inums (l : List (List Nat × Int)) (p : List Nat × Int → Bool)
    (hnd : (l.map Prod.snd).Nodup) : ((l.eraseP p).map Prod.snd).Nodup :=
  List.Nodup.sublist (List.Sublist.map _ (List.eraseP_sublist l)) hnd

theorem directory_delete_inv (s : State) (name : List Nat) (hinv : Inv s) (hn : is_name name) :
    ∃ rv s2, directory_delete s 0 name = some (rv, s2) ∧ Inv s2 ∧
      (∀ j, j ≠ 0 → s2.inode_table j = s.inode_table j) ∧
      dir_entries s2 0 = (dir_entries s 0).eraseP (fun e => e.1 == name) ∧
      (∀ j, j < BLOCK_COUNT → bitmap_get s2.mem 0 j = bitmap_get s.mem 0 j) ∧
      (∀ a, a < dir_base s 0 ∨ dir_base s 0 + BLOCK_SIZE ≤ a → s2.mem a = s.mem a) ∧
      (s2.inode_table 0).blocks = (s.inode_table 0).blocks := by
  obtain ⟨rv, s2, h1, _, _, h4, h5, h6, h7, h8, _, _, h11⟩ :=
    directory_delete_spec s 0 name hinv.dir hn
  have hbits : ∀ j, j < BLOCK_COUNT → bitmap_get s2.mem 0 j = bitmap_get s.mem 0 j :=
    fun j hj => bitmap_outside_dir s s2 0 hinv.dir h11 j
      (by simp only [BLOCK_SIZE, BLOCK_COUNT] at *; omega)
  refine ⟨rv, s2, h1, ?_, h6, h4, hbits, h11, h7⟩
  apply inv_dir_change s s2 hinv h6 h8 h7 hbits h5
  · rw [h4]
    exact nodup_eraseP_names _ _ hinv.names
  · rw [h4]
    exact nodup_eraseP_inums _ _ hinv.inums
  · intro e he
    rw [h4] at he
    exact hinv.live e (List.mem_of_mem_eraseP he)

theorem directory_put_inv (s : State) (name : List Nat) (i : Nat) (hinv : Inv s)
    (hn : is_name name) (hi0 : 0 < i) (hi : i < MAX_FILES) (hrefs : (s.inode_table i).refs = 1)
    (hnew : ∀ e ∈ dir_entries s 0, e.2 ≠ (i : Int)) :
    ∃ rv s2, directory_put s 0 name (i : Int) = some (rv, s2) ∧
      ((rv < 0 ∧ s2 = s) ∨
        (rv = 0 ∧ Inv s2 ∧ (∀ j, j ≠ 0 → s2.inode_table j = s.inode_table j) ∧
          dir_entries s2 0 = dir_entries s 0 ++ [(name, (i : Int))] ∧
          (∀ j, j < BLOCK_COUNT → bitmap_get s2.mem 0 j = bitmap_get s.mem 0 j))) := by
  obtain ⟨rv, s2, h1, h2⟩ := directory_put_spec s 0 name i hinv.dir hn
    (by simp only [MAX_FILES] at *; omega) (by simp only [MAX_FILES] at *; omega)
  refine ⟨rv, s2, h1, ?_⟩
  rcases h2 with ⟨hrv, hs, _⟩ | ⟨hrv, hs, _⟩ | ⟨hrv, hs, _⟩ |
    ⟨hrv, _, habs, _, hent, hok, hnodes, hblk, hr, _, _, hmem⟩
  · exact Or.inl ⟨by rw [hrv]; decide, hs⟩
  · exact Or.inl ⟨by rw [hrv]; decide, hs⟩
  · exact Or.inl ⟨by rw [hrv]; decide, hs⟩
  · right
    have hbits : ∀ j, j < BLOCK_COUNT → bitmap_get s2.mem 0 j = bitmap_get s.mem 0 j :=
      fun j hj => bitmap_outside_dir s s2 0 hinv.dir hmem j
        (by simp only [BLOCK_SIZE, BLOCK_COUNT] at *; omega)
    refine ⟨hrv, ?_, hnodes, hent, hbits⟩
    apply inv_dir_change s s2 hinv hnodes hr hblk hbits hok
    · rw [hent, List.map_append, List.nodup_append]
      refine ⟨hinv.names, by simp, ?_⟩
      intro x hx hx2
      simp only [List.map_cons, List.map_nil, List.mem_singleton] at hx2
      obtain ⟨e, he, hex⟩ := List.mem_map.1 hx
      exact habs e he (by rw [hex, hx2])
    · rw [hent, List.map_append, List.nodup_append]
      refine ⟨hinv.inums, by simp, ?_⟩
      intro x hx hx2
      simp only [List.map_cons, List.map_nil, List.mem_singleton] at hx2
      obtain ⟨e, he, hex⟩ := List.mem_map.1 hx
      exact hnew e he (by rw [hex, hx2])
    · intro e he
      rw [hent] at he
      rcases List.mem_append.1 he with h | h
      · exact hinv.live e h
      · simp only [List.mem_singleton] at h
        rw [h]
        simp only [Int.toNat_ofNat]
        exact ⟨by omega, by omega, hrefs⟩

/-! ## nufs_rename and nufs_unlink keep the invariant -/

theorem entry_of_inum (l : List (List Nat × Int)) (hnd : (l.map Prod.snd).Nodup)
    (e1 e2 : List Nat × Int) (h1 : e1 ∈ l) (h2 : e2 ∈ l) (h : e1.2 = e2.2) : e1 = e2 :=
  List.inj_on_of_nodup_map hnd h1 h2 h

theorem is_name_tail (c0 : Nat) (name : List Nat) (h : is_name (c0 :: name)) : is_name name :=
  fun c hc => h c (List.mem_cons_of_mem _ hc)

theorem nufs_rename_inv (s : State) (c1 c2 : Nat) (a b : List Nat) (hinv : Inv s)
    (ha : is_name a) (hb : is_name b) :
    ∃ rv s3, nufs_rename s (c1 :: a) (c2 :: b) = some (rv, s3) ∧ Inv s3 ∧
      ∀ j, j ≠ 0 → s3.inode_table j = s.inode_table j := by
  obtain ⟨inum, hfa, hca⟩ := inv_lookup s hinv a ha
  obtain ⟨found, hfb, _⟩ := inv_lookup s hinv b hb
  unfold nufs_rename
  simp only [hfa, hfb]
  rcases hca with ⟨hm1, _⟩ | ⟨i, hii, hi0, hi, hrefs, hmem⟩
  · rw [if_pos hm1]
    exact ⟨_, _, rfl, hinv, fun _ _ => rfl⟩
  rw [if_neg (by omega)]
  -- the state after the entry of the target name is gone
  have hs1 : ∃ s1, (if found ≠ -1 then (directory_delete s 0 b).map Prod.snd else some s) =
      some s1 ∧ Inv s1 ∧ (∀ j, j ≠ 0 → s1.inode_table j = s.inode_table j) ∧
      ∀ e ∈ dir_entries s1 0, e ∈ dir_entries s 0 := by
    by_cases hf : found ≠ -1
    · rw [if_pos hf]
      obtain ⟨rv, s1, d1, d2, d3, d4, _⟩ := directory_delete_inv s b hinv hb
      refine ⟨s1, by rw [d1]; rfl, d2, d3, ?_⟩
      intro e he
      rw [d4] at he
      exact List.mem_of_mem_eraseP he
    · rw [if_neg hf]
      exact ⟨s, rfl, hinv, fun _ _ => rfl, fun _ h => h⟩
  obtain ⟨s1, e1, hinv1, hn1, hsub1⟩ := hs1
  rw [e1]
  simp only
  obtain ⟨rv2, s2, d1, hinv2, hn2, hent2, _⟩ := directory_delete_inv s1 a hinv1 ha
  rw [d1]
  simp only
  have hrefs2 : (s2.inode_table i).refs = 1 := by
    rw [hn2 i (by omega), hn1 i (by omega)]
    exact hrefs
  have hnew : ∀ e ∈ dir_entries s2 0, e.2 ≠ (i : Int) := by
    intro e he heq
    have hne : e.1 ≠ a := by
      rw [hent2] at he
      exact eraseP_name_absent _ _ hinv1.names e he
    have hes : e ∈ dir_entries s 0 := by
      rw [hent2] at he
      exact hsub1 e (List.mem_of_mem_eraseP he)
    have := entry_of_inum _ hinv.inums e (a, inum) hes hmem (by rw [heq, hii])
    rw [this] at hne
    exact hne rfl
  obtain ⟨rv3, s3, p1, p2⟩ := directory_put_inv s2 b i hinv2 hb hi0 hi hrefs2 hnew
  rw [hii, p1]
  refine ⟨rv3, s3, rfl, ?_⟩
  rcases p2 with ⟨_, hs⟩ | ⟨_, hinv3, hn3, _⟩
  · rw [hs]
    exact ⟨hinv2, fun j hj => by rw [hn2 j hj, hn1 j hj]⟩
  · exact ⟨hinv3, fun j hj => by rw [hn3 j hj, hn2 j hj, hn1 j hj]⟩

theorem nufs_unlink_inv (s : State) (c0 : Nat) (name : List Nat) (hinv : Inv s)
    (hn : is_name name) :
    ∃ rv s3, nufs_unlink s (c0 :: name) = some (rv, s3) ∧ Inv s3 ∧
      ∀ j, j ≠ 0 → (s3.inode_table j).refs ≠ 0 → s3.inode_table j = s.inode_table j := by
  obtain ⟨inum, hfind, hcase⟩ := inv_lookup s hinv name hn
  unfold nufs_unlink
  simp only [hfind]
  rcases hcase with ⟨hm1, _⟩ | ⟨i, hii, hi0, hi, hrefs, hmem⟩
  · rw [if_pos hm1]
    exact ⟨_, _, rfl, hinv, fun _ _ _ => rfl⟩
  subst hii
  rw [if_neg (by omega), get_inode_natCast i hi]
  simp only
  have hi0' : i ≠ 0 := by omega
  have hl : (s.inode_table i).refs ≠ 0 := by
    rw [hrefs]
    decide
  -- the state with the reference count decremented
  obtain ⟨hokA, hentA⟩ := dir_ok_set_inode s i
    { s.inode_table i with refs := (s.inode_table i).refs - 1 } hi0' hinv.dir
  obtain ⟨rv, s2, d1, _, _, d4, d5, d6, d7, d8, _, _, d11⟩ := directory_delete_spec
    (s.set_inode i { s.inode_table i with refs := (s.inode_table i).refs - 1 }) 0 name hokA hn
  rw [d1]
  simp only
  have hA0 : (s.set_inode i { s.inode_table i with refs := (s.inode_table i).refs - 1 }).inode_table 0
      = s.inode_table 0 := by
    simp only [State.set_inode]
    rw [Function.update_noteq (Ne.symm hi0')]
  have hAj : ∀ j, j ≠ i →
      (s.set_inode i { s.inode_table i with refs := (s.inode_table i).refs - 1 }).inode_table j
      = s.inode_table j := by
    intro j hj
    simp only [State.set_inode]
    rw [Function.update_noteq hj]
  have h2i : s2.inode_table i =
      { s.inode_table i with refs := (s.inode_table i).refs - 1 } := by
    rw [d6 i hi0']
    simp only [State.set_inode, Function.update_same]
  have hbase : dir_base
      (s.set_inode i { s.inode_table i with refs := (s.inode_table i).refs - 1 }) 0 =
      dir_base s 0 := by
    unfold dir_base
    rw [hA0]
  rw [hbase] at d11
  have hmem2 : ∀ a, a < dir_base s 0 ∨ dir_base s 0 + BLOCK_SIZE ≤ a → s2.mem a = s.mem a :=
    fun a h => d11 a h
  rw [h2i]
  simp only
  rw [if_pos (by rw [hrefs]; decide)]
  have hv2 : slots_valid (s2.inode_table i) := by
    rw [h2i]
    exact inv_slots_valid s hinv i hi hl
  obtain ⟨s3, f1, f2, f3, _, _, f6, f7, _, f9⟩ := free_inode_spec s2 i hi hv2
  rw [f1]
  refine ⟨0, s3, rfl, ?_, ?_⟩
  · -- the directory step alone, seen from the state before
    have hinvt : Inv (s2.set_inode i (s.inode_table i)) := by
      obtain ⟨hokt, hentt⟩ := dir_ok_set_inode s2 i (s.inode_table i) hi0' d5
      apply inv_dir_change s _ hinv
      · intro j hj
        simp only [State.set_inode]
        by_cases hji : j = i
        · rw [hji, Function.update_same]
        · rw [Function.update_noteq hji, d6 j hj, hAj j hji]
      · simp only [State.set_inode]
        rw [Function.update_noteq (Ne.symm hi0'), d8, hA0]
      · simp only [State.set_inode]
        rw [Function.update_noteq (Ne.symm hi0'), d7, hA0]
      · intro j hj
        exact bitmap_outside_dir s s2 0 hinv.dir hmem2 j
          (by simp only [BLOCK_SIZE, BLOCK_COUNT] at *; omega)
      · exact hokt
      · rw [hentt, d4, hentA]
        exact nodup_eraseP_names _ _ hinv.names
      · rw [hentt, d4, hentA]
        exact nodup_eraseP_inums _ _ hinv.inums
      · intro e he
        rw [hentt, d4, hentA] at he
        exact hinv.live e (List.mem_of_mem_eraseP he)
    have htent : dir_entries (s2.set_inode i (s.inode_table i)) 0 =
        (dir_entries s 0).eraseP (fun e => e.1 == name) := by
      rw [(dir_ok_set_inode s2 i (s.inode_table i) hi0' d5).2, d4, hentA]
    have hti : (s2.set_inode i (s.inode_table i)).inode_table i = s.inode_table i := by
      simp only [State.set_inode, Function.update_same]
    have htj : ∀ j, j ≠ i → (s2.set_inode i (s.inode_table i)).inode_table j = s2.inode_table j := by
      intro j hj
      simp only [State.set_inode]
      rw [Function.update_noteq hj]
    have h30 : s3.inode_table 0 = (s2.set_inode i (s.inode_table i)).inode_table 0 := by
      rw [f2 0 (Ne.symm hi0'), htj 0 (Ne.symm hi0')]
    obtain ⟨hok3, hent3⟩ := inv_dir_frame (s2.set_inode i (s.inode_table i)) s3 hinvt h30 (by
      intro a ha
      show s3.mem a = s2.mem a
      apply f7 a
      have := hinvt.dir.1
      simp only [BLOCK_SIZE, BLOCK_COUNT] at *
      omega)
    apply inv_node_change (s2.set_inode i (s.inode_table i)) s3 i hinvt hi0'
      (fun j hj => by rw [f2 j hj, htj j hj]) hok3 hent3
    · rw [f9 1 ?_]
      · exact hinvt.rootbit
      · intro k2 hk2 heq
        rw [h2i] at hk2 heq
        simp only at hk2 heq
        apply hinv.priv i hi hi0' hl k2
        rcases inv_slots_valid s hinv i hi hl k2 with h | ⟨h, _⟩
        · exact absurd h hk2
        · omega
    · left
      refine ⟨f3, ?_⟩
      intro e he heq
      rw [htent] at he
      have hne : e.1 ≠ name := eraseP_name_absent _ _ hinv.names e he
      have := entry_of_inum _ hinv.inums e (name, (i : Int)) (List.mem_of_mem_eraseP he) hmem heq
      rw [this] at hne
      exact hne rfl
  · intro j hj0 hlj
    have hji : j ≠ i := by
      intro h
      rw [h] at hlj
      exact hlj f3
    rw [f2 j hji, d6 j hj0, hAj j hji]

/-! ## Creating and destroying an inode -/

/-- A dead inode becomes live with size 0 and either no block or one freshly allocated
block in slot 0. -/
theorem inv_create_rel (s t : State) (i : Nat) (hinv : Inv s)
    (hdead : (s.inode_table i).refs = 0)
    (hnodes : ∀ j, j ≠ i → t.inode_table j = s.inode_table j)
    (hrefs : (t.inode_table i).refs = 1) (hsize : (t.inode_table i).size = 0)
    (hrest : ∀ k : Fin 4, k ≠ 0 → (t.inode_table i).blocks k = -1)
    (hblk : ((t.inode_table i).blocks 0 = -1 ∧ t.mem = s.mem) ∨
      ∃ b : Nat, (t.inode_table i).blocks 0 = (b : Int) ∧ 1 ≤ b ∧ b < BLOCK_COUNT ∧
        bitmap_get s.mem 0 b = false ∧ t.mem = alloc_mem s.mem b) : Inv t := by
  have hi0 : i ≠ 0 := by
    intro h
    rw [h, hinv.root] at hdead
    cases hdead
  have hbit : ∀ j, j < BLOCK_COUNT → bitmap_get s.mem 0 j = true → bitmap_get t.mem 0 j = true := by
    intro j hj h
    rcases hblk with ⟨_, hm⟩ | ⟨b, _, hb1, _, hb3, hm⟩
    · rw [hm]
      exact h
    · rw [hm, alloc_mem_bit s.mem b j hb1 (by simp only [BLOCK_SIZE, BLOCK_COUNT] at *; omega)]
      split_ifs
      · rfl
      · exact h
  obtain ⟨hdir, hent⟩ := inv_dir_frame s t hinv (hnodes 0 (Ne.symm hi0)) (by
    intro a ha
    rcases hblk with ⟨_, hm⟩ | ⟨b, _, hb1, hb2, hb3, hm⟩
    · rw [hm]
    · rw [hm]
      apply alloc_mem_apply
      · have := hinv.dir.1
        simp only [BLOCK_SIZE, BLOCK_COUNT] at *
        omega
      · by_contra hc
        have : a / BLOCK_SIZE = b := by
          simp only [BLOCK_SIZE] at *
          omega
        rw [this] at ha
        have hr := inv_root_bit s hinv
        rw [← ha, hb3] at hr
        cases hr)
  apply inv_node_change s t i hinv hi0 hnodes hdir hent (hbit 1 (by decide) hinv.rootbit)
  right
  refine ⟨hrefs, ?_, ?_, ?_⟩
  · intro k
    by_cases hk : k = 0
    · rw [hk]
      rcases hblk with ⟨h, _⟩ | ⟨b, hb0, hb1, hb2, _, _⟩
      · exact Or.inl h
      · right
        rw [hb0]
        exact ⟨by omega, by omega⟩
    · exact Or.inl (hrest k hk)
  · intro k
    by_cases hk : k = 0
    · rw [hk]
      rcases hblk with ⟨h, _⟩ | ⟨b, hb0, _, _, hb3, _⟩
      · rw [h]
        decide
      · rw [hb0]
        intro heq
        have hb1 : b = 1 := by omega
        rw [hb1, hinv.rootbit] at hb3
        cases hb3
    · rw [hrest k hk]
      decide
  · rw [hsize]
    refine ⟨le_refl _, by decide, ?_⟩
    intro k hk
    omega

/-- Freeing a live inode that no directory entry refers to, from a memory whose bit
vector may have lost bits other than that of the root directory's block. -/
theorem inv_free (t : State) (i : Nat) (m : Mem) (hinv : Inv t) (hi0 : i ≠ 0)
    (hi : i < MAX_FILES) (hl : (t.inode_table i).refs ≠ 0)
    (hun : ∀ e ∈ dir_entries t 0, e.2 ≠ (i : Int))
    (hm : ∀ a, BLOCK_COUNT / 8 ≤ a → m a = t.mem a)
    (hm1 : bitmap_get m 0 1 = true) :
    ∃ s4, free_inode ⟨m, t.inode_table⟩ (i : Int) = some s4 ∧ Inv s4 ∧
      (∀ j, j ≠ i → s4.inode_table j = t.inode_table j) ∧ (s4.inode_table i).refs = 0 := by
  obtain ⟨s4, f1, f2, f3, _, _, _, f7, _, f9⟩ := free_inode_spec ⟨m, t.inode_table⟩ i hi
    (inv_slots_valid t hinv i hi hl)
  refine ⟨s4, f1, ?_, f2, f3⟩
  obtain ⟨hdir, hent⟩ := inv_dir_frame t s4 hinv (f2 0 (Ne.symm hi0)) (by
    intro a ha
    have h32 : BLOCK_COUNT / 8 ≤ a := by
      have := hinv.dir.1
      simp only [BLOCK_SIZE, BLOCK_COUNT] at *
      omega
    rw [f7 a h32]
    exact hm a h32)
  apply inv_node_change t s4 i hinv hi0 f2 hdir hent
  · rw [f9 1 ?_]
    · exact hm1
    · intro k2 hk2 heq
      apply hinv.priv i hi hi0 hl k2
      rcases inv_slots_valid t hinv i hi hl k2 with h | ⟨h, _⟩
      · exact absurd h hk2
      · have h2 : ((t.inode_table i).blocks k2).toNat = 1 := heq
        omega
  · left
    exact ⟨f3, hun⟩

/-! ## nufs_mknod and nufs_mkdir keep the invariant -/

theorem create_name_is_name (path : List Nat) (h : is_name path) :
    is_name (if path.head? = some 47 then path.tail else path) := by
  split_ifs
  · intro c hc
    exact h c (List.mem_of_mem_tail hc)
  · exact h

theorem inv_dead_unreferenced (s : State) (hinv : Inv s) (i : Nat)
    (hdead : (s.inode_table i).refs = 0) : ∀ e ∈ dir_entries s 0, e.2 ≠ (i : Int) := by
  intro e he heq
  have := (hinv.live e he).2.2
  rw [heq] at this
  simp only [Int.toNat_ofNat] at this
  rw [hdead] at this
  cases this

theorem nufs_mknod_inv (s : State) (path : List Nat) (mode : Nat) (hinv : Inv s)
    (hp : is_name path) :
    ∃ rv s2, nufs_mknod s path mode = some (rv, s2) ∧ Inv s2 ∧
      ∀ j, j ≠ 0 → (s2.inode_table j).refs ≠ 0 →
        s2.inode_table j = s.inode_table j ∨ (s2.inode_table j).size = 0 := by
  have hfn := create_name_is_name path hp
  unfold nufs_mknod find_inode_by_name
  simp only
  generalize (if path.head? = some 47 then path.tail else path) = filename at hfn ⊢
  obtain ⟨found, hfind, _⟩ := inv_lookup s hinv filename hfn
  rw [hfind]
  simp only
  by_cases hf : found ≠ -1
  · rw [if_pos hf]
    exact ⟨_, _, rfl, hinv, fun _ _ _ => Or.inl rfl⟩
  rw [if_neg hf]
  rcases alloc_inode_cases s with ⟨h1, h2, _⟩ | ⟨i, h1, hi, hdead, _, h5⟩
  · rw [if_pos h1, h2]
    exact ⟨_, _, rfl, hinv, fun _ _ _ => Or.inl rfl⟩
  have hi0 : i ≠ 0 := by
    intro h
    rw [h, hinv.root] at hdead
    cases hdead
  rw [if_neg (by rw [h1]; omega), h1, get_inode_natCast i hi]
  simp only
  generalize hA : ((alloc_inode s).2.set_inode i _) = A
  have hAmem : A.mem = s.mem := by
    rw [← hA, h5]
    rfl
  have hAj : ∀ j, j ≠ i → A.inode_table j = s.inode_table j := by
    intro j hj
    rw [← hA, h5]
    simp only [State.set_inode]
    rw [Function.update_noteq hj, Function.update_noteq hj]
  have hAi : (A.inode_table i).refs = 1 ∧ (A.inode_table i).size = 0 ∧
      ∀ k, (A.inode_table i).blocks k = -1 := by
    rw [← hA]
    simp only [State.set_inode, Function.update_same, init_inode]
    exact ⟨trivial, trivial, fun _ => trivial⟩
  have hinvA : Inv A := inv_create_rel s A i hinv hdead hAj hAi.1 hAi.2.1
    (fun k _ => hAi.2.2 k) (Or.inl ⟨hAi.2.2 0, hAmem⟩)
  have hentA : dir_entries A 0 = dir_entries s 0 :=
    (inv_dir_frame s A hinv (hAj 0 (Ne.symm hi0)) (fun a _ => by rw [hAmem])).2
  have hun : ∀ e ∈ dir_entries A 0, e.2 ≠ (i : Int) := by
    rw [hentA]
    exact inv_dead_unreferenced s hinv i hdead
  obtain ⟨rv, s3, p1, p2⟩ := directory_put_inv A filename i hinvA hfn (by omega) hi hAi.1 hun
  rw [p1]
  simp only
  rcases p2 with ⟨hneg, hs3⟩ | ⟨hrv, hinv3, hn3, _⟩
  · rw [if_pos hneg, hs3]
    obtain ⟨s4, f1, f2, f3, f4⟩ := inv_free A i A.mem hinvA hi0 hi (by rw [hAi.1]; decide) hun
      (fun _ _ => rfl) hinvA.rootbit
    have hfree : free_inode A (i : Int) = some s4 := f1
    rw [hfree]
    refine ⟨_, _, rfl, f2, ?_⟩
    intro j _ hlj
    have hji : j ≠ i := by
      intro h
      rw [h] at hlj
      exact hlj f4
    left
    rw [f3 j hji, hAj j hji]
  · rw [hrv, if_neg (by decide)]
    refine ⟨_, _, rfl, hinv3, ?_⟩
    intro j hj0 _
    rw [hn3 j hj0]
    by_cases hji : j = i
    · right
      rw [hji]
      exact hAi.2.1
    · left
      exact hAj j hji

/-- A call of `nufs_mkdir` on a state of the invariant either returns, keeping the
invariant, or is the call that reaches `free_block(-1)`, which `nufs_mkdir_oob` covers and
which keeps the invariant too. -/
theorem nufs_mkdir_cases (s : State) (path : List Nat) (mode : Nat) (hit : Bool)
    (hinv : Inv s) (hp : is_name path) :
    (∃ rv s2, nufs_mkdir s path mode = some (rv, s2) ∧ nufs_mkdir_oob s path mode hit = none ∧
      Inv s2 ∧ ∀ j, j ≠ 0 → (s2.inode_table j).refs ≠ 0 →
        s2.inode_table j = s.inode_table j ∨ (s2.inode_table j).size = 0) ∨
    (nufs_mkdir s path mode = none ∧
      ∃ rv s2, nufs_mkdir_oob s path mode hit = some (rv, s2) ∧ rv < 0 ∧
      Inv s2 ∧ ∀ j, j ≠ 0 → (s2.inode_table j).refs ≠ 0 →
        s2.inode_table j = s.inode_table j ∨ (s2.inode_table j).size = 0) := by
  have hfn := create_name_is_name path hp
  unfold nufs_mkdir nufs_mkdir_oob find_inode_by_name
  simp only
  generalize (if path.head? = some 47 then path.tail else path) = dirname at hfn ⊢
  obtain ⟨found, hfind, _⟩ := inv_lookup s hinv dirname hfn
  rw [hfind]
  simp only
  by_cases hf : found ≠ -1
  · rw [if_pos hf, if_pos hf]
    exact Or.inl ⟨_, _, rfl, rfl, hinv, fun _ _ _ => Or.inl rfl⟩
  rw [if_neg hf, if_neg hf]
  rcases alloc_inode_cases s with ⟨h1, h2, _⟩ | ⟨i, h1, hi, hdead, _, h5⟩
  · rw [if_pos h1, if_pos h1, h2]
    exact Or.inl ⟨_, _, rfl, rfl, hinv, fun _ _ _ => Or.inl rfl⟩
  have hi0 : i ≠ 0 := by
    intro h
    rw [h, hinv.root] at hdead
    cases hdead
  rw [if_neg (by rw [h1]; omega), if_neg (by rw [h1]; omega), h1, get_inode_natCast i hi]
  simp only
  have hmem0 : (alloc_inode s).2.mem = s.mem := by
    rw [h5]
    rfl
  rw [hmem0]
  generalize hA : (State.set_inode ⟨(alloc_block s.mem).2, (alloc_inode s).2.inode_table⟩ i _) = A
  have hAmem : A.mem = (alloc_block s.mem).2 := by
    rw [← hA]
    rfl
  have hAj : ∀ j, j ≠ i → A.inode_table j = s.inode_table j := by
    intro j hj
    rw [← hA, h5]
    simp only [State.set_inode]
    rw [Function.update_noteq hj, Function.update_noteq hj]
  have hAi : (A.inode_table i).refs = 1 ∧ (A.inode_table i).size = 0 ∧
      (A.inode_table i).blocks 0 = (alloc_block s.mem).1 ∧
      ∀ k : Fin 4, k ≠ 0 → (A.inode_table i).blocks k = -1 := by
    rw [← hA]
    simp only [State.set_inode, Function.update_same, init_inode]
    refine ⟨trivial, trivial, by simp, ?_⟩
    intro k hk
    simp [hk]
  have hblk : ((A.inode_table i).blocks 0 = -1 ∧ A.mem = s.mem) ∨
      ∃ b : Nat, (A.inode_table i).blocks 0 = (b : Int) ∧ 1 ≤ b ∧ b < BLOCK_COUNT ∧
        bitmap_get s.mem 0 b = false ∧ A.mem = alloc_mem s.mem b := by
    rw [hAi.2.2.1, hAmem]
    rcases alloc_block_cases s.mem with ⟨a1, a2, _⟩ | ⟨b, b1, b2, b3, b4, b5, _⟩
    · exact Or.inl ⟨a1, a2⟩
    · exact Or.inr ⟨b, b1, b3, b4, b5, b2⟩
  have hinvA : Inv A := inv_create_rel s A i hinv hdead hAj hAi.1 hAi.2.1 hAi.2.2.2 hblk
  have hun : ∀ e ∈ dir_entries A 0, e.2 ≠ (i : Int) := by
    intro e he heq
    have hmemA : e ∈ dir_entries A 0 := he
    -- an entry of the directory is older than the new inode
    have hent : dir_entries A 0 = dir_entries s 0 := by
      apply (dir_ok_congr s A 0 hinv.dir (hAj 0 (Ne.symm hi0)) _).2
      intro a ha1 ha2
      obtain ⟨hd1, _, _, hd4⟩ := dir_base_div s 0 hinv.dir a ha1 ha2
      rw [hAmem]
      exact alloc_block_frame s.mem a hd1 (by rw [hd4]; exact inv_root_bit s hinv)
    rw [hent] at hmemA
    exact inv_dead_unreferenced s hinv i hdead e hmemA heq
  obtain ⟨rv, s3, p1, p2⟩ := directory_put_inv A dirname i hinvA hfn (by omega) hi hAi.1 hun
  rw [p1]
  simp only
  rcases p2 with ⟨hneg, hs3⟩ | ⟨hrv, hinv3, hn3, _⟩
  · rw [if_pos hneg, hs3]
    rcases hblk with ⟨hb, _⟩ | ⟨b, hb0, hb1, hb2, _, _⟩
    · right
      rw [hb, if_pos ⟨hneg, by decide⟩]
      refine ⟨rfl, ?_⟩
      obtain ⟨s4, f1, f2, f3, f4⟩ := inv_free A i (oob_release A.mem hit) hinvA hi0 hi
        (by rw [hAi.1]; decide) hun
        (fun a ha => by
          unfold oob_release
          split_ifs
          · exact bitmap_put_apply_of_ne A.mem 7 a false
              (by simp only [BLOCK_COUNT] at *; omega)
          · rfl)
        (by
          unfold oob_release
          split_ifs
          · rw [bitmap_get_put, if_neg (by decide)]
            exact hinvA.rootbit
          · exact hinvA.rootbit)
      rw [f1]
      refine ⟨_, _, rfl, hneg, f2, ?_⟩
      intro j _ hlj
      have hji : j ≠ i := by
        intro h
        rw [h] at hlj
        exact hlj f4
      left
      rw [f3 j hji, hAj j hji]
    · left
      rw [hb0, if_neg (by omega)]
      have hfb : free_block A.mem (b : Int) = some (bitmap_put A.mem 0 b false) := by
        unfold free_block
        rw [if_pos (by omega)]
        simp
      rw [hfb]
      simp only
      have hb1' : b ≠ 1 := by
        intro h
        apply hinvA.priv i hi hi0 (by rw [hAi.1]; decide) 0
        rw [hb0, h]
        rfl
      obtain ⟨s4, f1, f2, f3, f4⟩ := inv_free A i (bitmap_put A.mem 0 b false) hinvA hi0 hi
        (by rw [hAi.1]; decide) hun
        (fun a ha => bitmap_put_apply_of_ne A.mem b a false
          (by simp only [BLOCK_COUNT] at *; omega))
        (by
          rw [bitmap_get_put, if_neg (Ne.symm hb1')]
          exact hinvA.rootbit)
      rw [f1]
      refine ⟨_, _, rfl, trivial, f2, ?_⟩
      intro j _ hlj
      have hji : j ≠ i := by
        intro h
        rw [h] at hlj
        exact hlj f4
      left
      rw [f3 j hji, hAj j hji]
  · left
    rw [hrv, if_neg (by decide), if_neg (fun h => absurd h.1 (by decide))]
    refine ⟨_, _, rfl, rfl, hinv3, ?_⟩
    intro j hj0 _
    rw [hn3 j hj0]
    by_cases hji : j = i
    · right
      rw [hji]
      exact hAi.2.1
    · left
      exact hAj j hji

theorem nufs_mkdir_inv (s : State) (path : List Nat) (mode : Nat) (hinv : Inv s)
    (hp : is_name path) :
    nufs_mkdir s path mode = none ∨
    ∃ rv s2, nufs_mkdir s path mode = some (rv, s2) ∧ Inv s2 ∧
      ∀ j, j ≠ 0 → (s2.inode_table j).refs ≠ 0 →
        s2.inode_table j = s.inode_table j ∨ (s2.inode_table j).size = 0 := by
  rcases nufs_mkdir_cases s path mode false hinv hp with ⟨rv, s2, h1, _, h3, h4⟩ | ⟨h1, _⟩
  · exact Or.inr ⟨rv, s2, h1, h3, h4⟩
  · exact Or.inl h1

/-- Every call of `nufs_mkdir` that does not return in the model is covered by the step
`nufs_mkdir_oob`. -/
theorem nufs_mkdir_covered (s : State) (path : List Nat) (mode : Nat) (hit : Bool)
    (hinv : Inv s) (hp : is_name path) (h : nufs_mkdir s path mode = none) :
    ∃ rv s2, nufs_mkdir_oob s path mode hit = some (rv, s2) ∧ rv < 0 := by
  rcases nufs_mkdir_cases s path mode hit hinv hp with ⟨rv, s2, h1, _⟩ | ⟨_, rv, s2, h2, h3, _⟩
  · rw [h] at h1
    cases h1
  · exact ⟨rv, s2, h2, h3⟩

theorem nufs_mkdir_oob_inv (s s2 : State) (path : List Nat) (mode : Nat) (hit : Bool)
    (rv : Int) (hinv : Inv s) (hp : is_name path)
    (h : nufs_mkdir_oob s path mode hit = some (rv, s2)) :
    Inv s2 ∧ ∀ j, j ≠ 0 → (s2.inode_table j).refs ≠ 0 →
        s2.inode_table j = s.inode_table j ∨ (s2.inode_table j).size = 0 := by
  rcases nufs_mkdir_cases s path mode hit hinv hp with ⟨_, _, _, h2, _⟩ | ⟨_, rv2, t, h2, _, h4, h5⟩
  · rw [h] at h2
    cases h2
  · rw [h] at h2
    injection h2 with h2
    injection h2 with _ h2
    rw [h2]
    exact ⟨h4, h5⟩

/-! ## Every reachable state satisfies the invariant -/

theorem reachable_inv (s : State) (h : Reachable s) : Inv s := by
  induction h with
  | init => exact inv_init
  | mknod s s2 path mode rv _ hp hcall ih =>
    obtain ⟨rv2, s3, e, hinv, _⟩ := nufs_mknod_inv s path mode ih hp
    rw [e] at hcall
    cases hcall
    exact hinv
  | mkdir s s2 path mode rv _ hp hcall ih =>
    rcases nufs_mkdir_inv s path mode ih hp with e | ⟨rv2, s3, e, hinv, _⟩
    · rw [e] at hcall
      cases hcall
    · rw [e] at hcall
      cases hcall
      exact hinv
  | mkdir_oob s s2 path mode hit rv _ hp hcall ih =>
    exact (nufs_mkdir_oob_inv s s2 path mode hit rv ih hp hcall).1
  | write s s2 path buf size offset rv _ hp hsum hcall ih =>
    cases path with
    | nil => cases hcall
    | cons c0 name =>
      obtain ⟨rv2, s3, e, hinv, _⟩ :=
        nufs_write_inv s c0 name buf size offset ih (is_name_tail c0 name hp) hsum
      rw [e] at hcall
      cases hcall
      exact hinv
  | unlink s s2 path rv _ hp hcall ih =>
    cases path with
    | nil => cases hcall
    | cons c0 name =>
      obtain ⟨rv2, s3, e, hinv, _⟩ := nufs_unlink_inv s c0 name ih (is_name_tail c0 name hp)
      rw [e] at hcall
      cases hcall
      exact hinv
  | rename s s2 src dst rv _ hs hd hcall ih =>
    cases src with
    | nil => cases hcall
    | cons c1 a =>
      cases dst with
      | nil => cases hcall
      | cons c2 b =>
        obtain ⟨rv2, s3, e, hinv, _⟩ :=
          nufs_rename_inv s c1 c2 a b ih (is_name_tail c1 a hs) (is_name_tail c2 b hd)
        rw [e] at hcall
        cases hcall
        exact hinv
  | read s path size offset r _ _ ih => exact ih
  | getattr s uid path r _ _ ih => exact ih
  | readdir s r _ _ ih => exact ih

/-! ## Directory-typed inodes, and reads within the size -/

theorem reachable_of_files (s : State) (h : ReachableFiles s) : Reachable s := by
  induction h with
  | init => exact Reachable.init
  | mknod s s2 path mode rv _ hp hcall ih => exact Reachable.mknod s s2 path mode rv ih hp hcall
  | mkdir s s2 path mode rv _ hp hcall ih => exact Reachable.mkdir s s2 path mode rv ih hp hcall
  | mkdir_oob s s2 path mode hit rv _ hp hcall ih =>
    exact Reachable.mkdir_oob s s2 path mode hit rv ih hp hcall
  | write s s2 path buf size offset rv _ hp hsum _ hcall ih =>
    exact Reachable.write s s2 path buf size offset rv ih hp hsum hcall
  | unlink s s2 path rv _ hp hcall ih => exact Reachable.unlink s s2 path rv ih hp hcall
  | rename s s2 src dst rv _ hs hd hcall ih => exact Reachable.rename s s2 src dst rv ih hs hd hcall
  | read s path size offset r _ hcall ih => exact Reachable.read s path size offset r ih hcall
  | getattr s uid path r _ hcall ih => exact Reachable.getattr s uid path r ih hcall
  | readdir s r _ hcall ih => exact Reachable.readdir s r ih hcall

/-- When no write goes to a directory, every live directory-typed inode other than the
root has size 0. -/
theorem files_dir_size (s : State) (h : ReachableFiles s) :
    ∀ j, j ≠ 0 → (s.inode_table j).refs ≠ 0 → is_dir (s.inode_table j).mode →
      (s.inode_table j).size = 0 := by
  induction h with
  | init =>
    intro j hj hl
    exact absurd (init_state_dead j hj) hl
  | mknod s s2 path mode rv hr hp hcall ih =>
    obtain ⟨rv2, s3, e, _, hfr⟩ :=
      nufs_mknod_inv s path mode (reachable_inv s (reachable_of_files s hr)) hp
    rw [e] at hcall
    cases hcall
    intro j hj hl hd
    rcases hfr j hj hl with h | h
    · rw [h] at hl hd ⊢
      exact ih j hj hl hd
    · exact h
  | mkdir s s2 path mode rv hr hp hcall ih =>
    rcases nufs_mkdir_inv s path mode (reachable_inv s (reachable_of_files s hr)) hp with
      e | ⟨rv2, s3, e, _, hfr⟩
    · rw [e] at hcall
      cases hcall
    · rw [e] at hcall
      cases hcall
      intro j hj hl hd
      rcases hfr j hj hl with h | h
      · rw [h] at hl hd ⊢
        exact ih j hj hl hd
      · exact h
  | mkdir_oob s s2 path mode hit rv hr hp hcall ih =>
    have hfr := (nufs_mkdir_oob_inv s s2 path mode hit rv
      (reachable_inv s (reachable_of_files s hr)) hp hcall).2
    intro j hj hl hd
    rcases hfr j hj hl with h | h
    · rw [h] at hl hd ⊢
      exact ih j hj hl hd
    · exact h
  | write s s2 path buf size offset rv hr hp hsum hnd hcall ih =>
    cases path with
    | nil => cases hcall
    | cons c0 name =>
      obtain ⟨rv2, s3, e, _, hfr⟩ := nufs_write_inv s c0 name buf size offset
        (reachable_inv s (reachable_of_files s hr)) (is_name_tail c0 name hp) hsum
      rw [e] at hcall
      cases hcall
      intro j hj hl hd
      rcases hfr j with h | ⟨h1, _, h3⟩
      · rw [h] at hl hd ⊢
        exact ih j hj hl hd
      · rw [h3] at hd
        exact absurd hd (hnd j h1)
  | unlink s s2 path rv hr hp hcall ih =>
    cases path with
    | nil => cases hcall
    | cons c0 name =>
      obtain ⟨rv2, s3, e, _, hfr⟩ := nufs_unlink_inv s c0 name
        (reachable_inv s (reachable_of_files s hr)) (is_name_tail c0 name hp)
      rw [e] at hcall
      cases hcall
      intro j hj hl hd
      have h := hfr j hj hl
      rw [h] at hl hd ⊢
      exact ih j hj hl hd
  | rename s s2 src dst rv hr hs hd hcall ih =>
    cases src with
    | nil => cases hcall
    | cons c1 a =>
      cases dst with
      | nil => cases hcall
      | cons c2 b =>
        obtain ⟨rv2, s3, e, _, hfr⟩ := nufs_rename_inv s c1 c2 a b
          (reachable_inv s (reachable_of_files s hr)) (is_name_tail c1 a hs)
          (is_name_tail c2 b hd)
        rw [e] at hcall
        cases hcall
        intro j hj hl hdir
        have h := hfr j hj
        rw [h] at hl hdir ⊢
        exact ih j hj hl hdir
  | read s path size offset r _ _ ih => exact ih
  | getattr s uid path r _ _ ih => exact ih
  | readdir s r _ _ ih => exact ih

theorem files_dir_size_multiple (s : State) (h : ReachableFiles s) (i : Nat)
    (hl : (s.inode_table i).refs ≠ 0) (hd : is_dir (s.inode_table i).mode) :
    (s.inode_table i).size % DIR_ENTRY_SIZE = 0 := by
  by_cases hi : i = 0
  · rw [hi]
    exact (reachable_inv s (reachable_of_files s h)).dir.2.2.2.2.1
  · rw [files_dir_size s h i hi hl hd]
    rfl

/-- Under the invariant a read returns exactly the clamped length. -/
theorem inv_read_full (s : State) (hinv : Inv s) (c0 : Nat) (name : List Nat) (i : Nat)
    (size offset : Nat) (hsum : offset + size < 2 ^ 64)
    (hfind : find_inode_by_name s name = some (i : Int)) (hi : i < MAX_FILES)
    (hl : (s.inode_table i).refs ≠ 0) :
    ∃ out, nufs_read s (c0 :: name) size offset = some ((out.length : Int), out) ∧
      out.length = clamped_length (s.inode_table i).size size offset ∧
      out = file_bytes s.mem (s.inode_table i) offset out.length := by
  obtain ⟨hz0, hz1, hz2⟩ := hinv.sizes i hi hl
  obtain ⟨out, r1, r2, r3, r4, _⟩ := nufs_read_spec s c0 name i size offset hfind hi
    (inv_slots_valid s hinv i hi hl) (by simp only [MAX_FILE_SIZE, BLOCK_SIZE] at *; omega) hsum
  refine ⟨out, r1, ?_, r3⟩
  by_cases hoff : ((offset : Nat) : Int) < (s.inode_table i).size
  · apply r4
    intro k _ hk2
    have hcl : ((offset + clamped_length (s.inode_table i).size size offset : Nat) : Int) ≤
        (s.inode_table i).size := by
      unfold clamped_length
      push_cast
      omega
    have hk4 : k < 4 := by
      simp only [MAX_FILE_SIZE, BLOCK_SIZE] at *
      omega
    exact ⟨hk4, hz2 ⟨k, hk4⟩ (by simp only; omega)⟩
  · have hc0 : clamped_length (s.inode_table i).size size offset = 0 := by
      unfold clamped_length
      omega
    rw [hc0] at r2 ⊢
    omega

/-! ## Every call of a state-changing handler has a successor -/

/-- In a reachable state every call of a state-changing handler on non-empty C-string
paths has a successor state among the steps of `Reachable`: `nufs_mknod`, `nufs_write`,
`nufs_unlink` and `nufs_rename` return, and `nufs_mkdir` returns or is the call that
`nufs_mkdir_oob` covers. -/
theorem handlers_have_successor (s : State) (h : Reachable s) (c0 c1 : Nat)
    (name other : List Nat) (mode : Nat) (buf : Nat → Nat) (size offset : Nat)
    (hp : is_name (c0 :: name)) (hq : is_name (c1 :: other))
    (hsum : offset + size < 2 ^ 64) :
    (∃ rv s2, nufs_mknod s (c0 :: name) mode = some (rv, s2) ∧ Reachable s2) ∧
    ((∃ rv s2, nufs_mkdir s (c0 :: name) mode = some (rv, s2) ∧ Reachable s2) ∨
      ∀ hit, ∃ rv s2, nufs_mkdir_oob s (c0 :: name) mode hit = some (rv, s2) ∧
        Reachable s2) ∧
    (∃ rv s2, nufs_write s (c0 :: name) buf size offset = some (rv, s2) ∧ Reachable s2) ∧
    (∃ rv s2, nufs_unlink s (c0 :: name) = some (rv, s2) ∧ Reachable s2) ∧
    (∃ rv s2, nufs_rename s (c0 :: name) (c1 :: other) = some (rv, s2) ∧ Reachable s2) := by
  have hinv := reachable_inv s h
  have hn := is_name_tail c0 name hp
  have ho := is_name_tail c1 other hq
  refine ⟨?_, ?_, ?_, ?_, ?_⟩
  · obtain ⟨rv, s2, e, _⟩ := nufs_mknod_inv s (c0 :: name) mode hinv hp
    exact ⟨rv, s2, e, Reachable.mknod s s2 _ mode rv h hp e⟩
  · by_cases hnone : nufs_mkdir s (c0 :: name) mode = none
    · right
      intro hit
      obtain ⟨rv, s2, e, _⟩ := nufs_mkdir_covered s (c0 :: name) mode hit hinv hp hnone
      exact ⟨rv, s2, e, Reachable.mkdir_oob s s2 _ mode hit rv h hp e⟩
    · left
      rcases nufs_mkdir_inv s (c0 :: name) mode hinv hp with e | ⟨rv, s2, e, _⟩
      · exact absurd e hnone
      · exact ⟨rv, s2, e, Reachable.mkdir s s2 _ mode rv h hp e⟩
  · obtain ⟨rv, s2, e, _⟩ := nufs_write_inv s c0 name buf size offset hinv hn hsum
    exact ⟨rv, s2, e, Reachable.write s s2 _ buf size offset rv h hp hsum e⟩
  · obtain ⟨rv, s2, e, _⟩ := nufs_unlink_inv s c0 name hinv hn
    exact ⟨rv, s2, e, Reachable.unlink s s2 _ rv h hp e⟩
  · obtain ⟨rv, s2, e, _⟩ := nufs_rename_inv s c0 c1 name other hinv hn ho
    exact ⟨rv, s2, e, Reachable.rename s s2 _ _ rv h hp hq e⟩

/-! ## nufs_rename: the failure that is not undone, and success otherwise -/

/-- A name of 48 bytes or more is the name of no entry of a well-formed directory. -/
theorem long_name_absent (s : State) (di : Nat) (hok : dir_ok s di) (b : List Nat)
    (hlong : DIR_NAME_LENGTH ≤ b.length) : ∀ e ∈ dir_entries s di, e.1 ≠ b := by
  intro e he heq
  have := hok.2.2.2.2.2 e he
  rw [heq] at this
  omega

theorem nufs_rename_toolong (s : State) (c1 c2 : Nat) (a b : List Nat) (ia : Nat)
    (hok : dir_ok s 0) (ha : is_name a) (hb : is_name b)
    (hnd : ((dir_entries s 0).map Prod.fst).Nodup)
    (hfa : directory_lookup s 0 a = some (ia : Int)) (hia : ia ≠ 0)
    (hlong : DIR_NAME_LENGTH ≤ b.length) :
    ∃ s2, nufs_rename s (c1 :: a) (c2 :: b) = some (-ENAMETOOLONG, s2) ∧
      directory_lookup s2 0 a = some (-1) ∧ directory_lookup s2 0 b = some (-1) ∧
      dir_entries s2 0 = (dir_entries s 0).eraseP (fun e => e.1 == a) ∧
      s2.inode_table ia = s.inode_table ia ∧
      (∀ j, j ≠ 0 → s2.inode_table j = s.inode_table j) ∧
      (∀ j, j < BLOCK_COUNT → bitmap_get s2.mem 0 j = bitmap_get s.mem 0 j) := by
  have hfb : directory_lookup s 0 b = some (-1) := by
    rw [directory_lookup_spec s 0 b hok hb,
      lookup_entries_absent _ _ (long_name_absent s 0 hok b hlong)]
  obtain ⟨rv, s2, d1, _, _, d4, d5, d6, _, _, _, _, d11⟩ := directory_delete_spec s 0 a hok ha
  refine ⟨s2, ?_, ?_, ?_, d4, d6 ia hia, d6, ?_⟩
  · unfold nufs_rename
    simp only [hfa, hfb]
    rw [if_neg (by omega)]
    simp only [ne_eq, not_true_eq_false, if_false, d1]
    exact directory_put_toolong s2 0 b _ hlong
  · rw [directory_lookup_spec s2 0 a d5 ha, d4,
      lookup_entries_absent _ _ (eraseP_name_absent _ _ hnd)]
  · rw [directory_lookup_spec s2 0 b d5 hb,
      lookup_entries_absent _ _ (long_name_absent s2 0 d5 b hlong)]
  · intro j hj
    exact bitmap_outside_dir s s2 0 hok d11 j (by simp only [BLOCK_SIZE, BLOCK_COUNT] at *; omega)

theorem nufs_rename_succeeds (s : State) (c1 c2 : Nat) (a b : List Nat) (ia : Int)
    (hok : dir_ok s 0) (ha : is_name a) (hb : is_name b)
    (hnd : ((dir_entries s 0).map Prod.fst).Nodup)
    (hneg : ∀ e ∈ dir_entries s 0, e.2 ≠ -1)
    (hfa : directory_lookup s 0 a = some ia) (hia : ia ≠ -1)
    (hshort : b.length < DIR_NAME_LENGTH) :
    ∃ s2, nufs_rename s (c1 :: a) (c2 :: b) = some (0, s2) ∧
      directory_lookup s2 0 b = some ia := by
  have hfa2 := hfa
  rw [directory_lookup_spec s 0 a hok ha] at hfa2
  have hma : (a, ia) ∈ dir_entries s 0 :=
    lookup_entries_mem _ a ia (Option.some.inj hfa2) hia
  have hiar := dir_entries_inum_range s 0 (a, ia) hma
  have hfb := directory_lookup_spec s 0 b hok hb
  -- the state after the entry of the target name, if any, is gone
  have hs1 : ∃ s1, (if lookup_entries (dir_entries s 0) b ≠ -1 then
        (directory_delete s 0 b).map Prod.snd else some s) = some s1 ∧ dir_ok s1 0 ∧
      (∀ e ∈ dir_entries s1 0, e.1 ≠ b) ∧
      (∃ l2 : List (List Nat × Int), dir_entries s1 0 = l2 ∧ l2.Sublist (dir_entries s 0)) ∧
      ((∀ e ∈ dir_entries s1 0, e.1 ≠ a) →
        (dir_entries s1 0).length + 1 ≤ (dir_entries s 0).length) := by
    by_cases hf : lookup_entries (dir_entries s 0) b ≠ -1
    · rw [if_pos hf]
      have hmb := lookup_entries_mem _ b _ rfl hf
      obtain ⟨rv, s1, d1, _, _, d4, d5, _⟩ := directory_delete_spec s 0 b hok hb
      refine ⟨s1, by rw [d1]; rfl, d5, ?_, ⟨_, d4, List.eraseP_sublist _⟩, ?_⟩
      · rw [d4]
        exact eraseP_name_absent _ _ hnd
      · intro _
        rw [d4, List.length_eraseP_of_mem hmb (by simp)]
        have := List.length_pos_of_mem hmb
        omega
    · rw [if_neg hf]
      refine ⟨s, rfl, hok, ?_, ⟨_, rfl, List.Sublist.refl _⟩, ?_⟩
      · intro e he heq
        have h1 := lookup_entries_of_mem (dir_entries s 0) b e.2 hnd (by rw [← heq]; exact he)
        have h2 : lookup_entries (dir_entries s 0) b = -1 := by
          by_contra hc
          exact hf hc
        rw [h2] at h1
        exact hneg e he h1.symm
      · intro habs
        exact absurd rfl (habs (a, ia) hma)
  obtain ⟨s1, e1, hok1, hb1, ⟨l1, hl1, hsub1⟩, hlen1⟩ := hs1
  obtain ⟨rv2, s2, d1, _, d3, d4, d5, _⟩ := directory_delete_spec s1 0 a hok1 ha
  have hb2 : ∀ e ∈ dir_entries s2 0, e.1 ≠ b := by
    intro e he
    rw [d4] at he
    exact hb1 e (List.mem_of_mem_eraseP he)
  have hroom : dir_len s2 0 < BLOCK_SIZE / DIR_ENTRY_SIZE := by
    rw [← dir_entries_length, d4]
    have hle := dir_len_le_of_ok s 0 hok
    have hsl : (dir_entries s1 0).length ≤ (dir_entries s 0).length := by
      rw [hl1]
      exact List.Sublist.length_le hsub1
    by_cases hpa : ∃ e ∈ dir_entries s1 0, e.1 = a
    · obtain ⟨e, he, hea⟩ := hpa
      rw [List.length_eraseP_of_mem he (by simp [hea])]
      have := List.length_pos_of_mem he
      omega
    · have habs : ∀ e ∈ dir_entries s1 0, e.1 ≠ a := by
        intro e he hea
        exact hpa ⟨e, he, hea⟩
      have h1 := hlen1 habs
      have h2 : ((dir_entries s1 0).eraseP fun e => e.1 == a).length ≤
          (dir_entries s1 0).length := List.length_eraseP_le _
      omega
  obtain ⟨s3, p1, p2, p3, _⟩ := directory_put_ok s2 0 b ia d5 hb hshort hb2 hroom hiar.1 hiar.2
  refine ⟨s3, ?_, ?_⟩
  · unfold nufs_rename
    simp only [hfa, hfb]
    rw [if_neg hia, e1]
    simp only [d1]
    exact p1
  · rw [directory_lookup_spec s3 0 b p3 hb, p2, lookup_append_new _ _ _ hb2]

set_option maxRecDepth 100000

/-! ## The claims -/

theorem state_of_eq (r : Option (Int × State)) (rv : Int) (h : r.map Prod.fst = some rv) :
    r = some (rv, state_of r) := by
  cases r with
  | none => cases h
  | some p =>
    obtain ⟨a, b⟩ := p
    simp only [Option.map_some', Option.some.injEq] at h
    rw [h]
    rfl

/-- C1: on a well-formed root directory, for a freshly created file (size 0, no block
mapped), every offset and every byte sequence `buf` with `offset + buf.length ≤ 4 * 4096`,
when enough blocks are free, `nufs_write` returns the length and a following `nufs_read`
of the same range returns the length and exactly `buf`. -/
theorem nufs_write_read_round_trip (s : State) (c0 : Nat) (name : List Nat) (i : Nat)
    (buf : List Nat) (offset : Nat)
    (hok : dir_ok s 0)
    (hbit : bitmap_get s.mem 0 ((s.inode_table 0).blocks 0).toNat = true)
    (hn : is_name name)
    (hfind : find_inode_by_name s name = some (i : Int)) (hi0 : i ≠ 0) (hi : i < MAX_FILES)
    (hsize : (s.inode_table i).size = 0)
    (hblocks : ∀ k : Fin 4, (s.inode_table i).blocks k = -1)
    (hsum : offset + buf.length ≤ MAX_FILE_SIZE)
    (hfree : blocks_needed (offset + buf.length) ≤ free_blocks s.mem) :
    ∃ s2, nufs_write s (c0 :: name) (fun j => buf.getD j 0) buf.length offset =
        some ((buf.length : Int), s2) ∧
      nufs_read s2 (c0 :: name) buf.length offset = some ((buf.length : Int), buf) :=
  write_read_aux s c0 name i buf offset hok hbit hn hfind hi0 hi hsize hblocks hsum hfree

/-- Witness for C1: six bytes written across the first block boundary of the file made by
`mknod("/a")` are read back. -/
theorem nufs_write_read_round_trip_witness :
    ∃ s2, nufs_write demo_created [47, 97] (fun j => [104, 101, 108, 108, 111, 33].getD j 0)
        [104, 101, 108, 108, 111, 33].length 4093 =
        some ((([104, 101, 108, 108, 111, 33] : List Nat).length : Int), s2) ∧
      nufs_read s2 [47, 97] [104, 101, 108, 108, 111, 33].length 4093 =
        some ((([104, 101, 108, 108, 111, 33] : List Nat).length : Int),
          [104, 101, 108, 108, 111, 33]) :=
  nufs_write_read_round_trip demo_created 47 [97] 1 [104, 101, 108, 108, 111, 33] 4093
    (by decide) (by decide) (by decide) (by decide) (by decide) (by decide) (by decide)
    (by decide) (by decide) (by decide)

/-- C2: for an existing file whose mapped slots are exactly the first `ceil(size / 4096)`,
every offset and length with `offset + n ≤ 16384`, and enough free blocks, `nufs_write`
returns `n`; afterwards the size is `max(old size, offset + n)`, exactly the first
`ceil(new size / 4096)` slots are mapped, and `nufs_getattr` reports that size. -/
theorem nufs_write_postcondition (s : State) (c0 uid : Nat) (name : List Nat) (i isz : Nat)
    (buf : Nat → Nat) (n offset : Nat)
    (hok : dir_ok s 0)
    (hbit : bitmap_get s.mem 0 ((s.inode_table 0).blocks 0).toNat = true)
    (hn : is_name name) (hne : name ≠ [])
    (hfind : find_inode_by_name s name = some (i : Int)) (hi0 : i ≠ 0) (hi : i < MAX_FILES)
    (hsize : (s.inode_table i).size = (isz : Int)) (hisz : isz < 2 ^ 31)
    (hexact : ∀ k : Fin 4, (s.inode_table i).blocks k ≠ -1 ↔ k.val < blocks_needed isz)
    (hv : slots_valid (s.inode_table i))
    (hnoroot : ∀ k : Fin 4, (s.inode_table i).blocks k ≠ (s.inode_table 0).blocks 0)
    (hsum : offset + n ≤ MAX_FILE_SIZE)
    (hfree : blocks_needed (max isz (offset + n)) - blocks_needed isz ≤ free_blocks s.mem) :
    ∃ s2, nufs_write s (c0 :: name) buf n offset = some ((n : Int), s2) ∧
      (s2.inode_table i).size = ((max isz (offset + n) : Nat) : Int) ∧
      (∀ k : Fin 4, (s2.inode_table i).blocks k ≠ -1 ↔
        k.val < blocks_needed (max isz (offset + n))) ∧
      ∃ st, nufs_getattr s2 uid (c0 :: name) = some (0, st) ∧
        st.st_size = ((max isz (offset + n) : Nat) : Int) :=
  nufs_write_post_aux s c0 uid name i isz buf n offset hok hbit hn hne hfind hi0 hi hsize hisz
    hexact hv hnoroot hsum hfree

/-- Witness for C2: 5000 bytes at offset 0 on the new file `/a`. -/
theorem nufs_write_postcondition_witness :
    ∃ s2, nufs_write demo_created [47, 97] demo_buf 5000 0 = some (((5000 : Nat) : Int), s2) ∧
      (s2.inode_table 1).size = ((max 0 (0 + 5000) : Nat) : Int) ∧
      (∀ k : Fin 4, (s2.inode_table 1).blocks k ≠ -1 ↔
        k.val < blocks_needed (max 0 (0 + 5000))) ∧
      ∃ st, nufs_getattr s2 1000 [47, 97] = some (0, st) ∧
        st.st_size = ((max 0 (0 + 5000) : Nat) : Int) :=
  nufs_write_postcondition demo_created 47 1000 [97] 1 0 demo_buf 5000 0
    (by decide) (by decide) (by decide) (by decide) (by decide) (by decide) (by decide)
    (by decide) (by decide) (by decide) (by unfold slots_valid; decide) (by decide) (by decide)
    (by decide)

/-- C3: for an existing file, when `offset + length > 4 * 4096` (the sum not exceeding the
range of `size_t`), `nufs_write` returns `-EFBIG` and leaves the whole state unchanged; when
`offset + length ≤ 4 * 4096` it never returns `-EFBIG`. -/
theorem nufs_write_size_limit (s : State) (c0 : Nat) (name : List Nat) (inum : Int)
    (buf : Nat → Nat) (size offset : Nat)
    (hfind : find_inode_by_name s name = some inum) (hex : inum ≠ -1)
    (hsum : offset + size < 2 ^ 64) :
    (offset + size > MAX_FILE_SIZE →
      nufs_write s (c0 :: name) buf size offset = some (-EFBIG, s)) ∧
    (offset + size ≤ MAX_FILE_SIZE →
      ∀ r, nufs_write s (c0 :: name) buf size offset = some r → r.1 ≠ -EFBIG) :=
  nufs_write_efbig s c0 name inum buf size offset hfind hex hsum

/-- Witness for C3: one byte more than the limit on the file `/a`. -/
theorem nufs_write_size_limit_witness :
    (16384 + 1 > MAX_FILE_SIZE →
      nufs_write demo_written [47, 97] demo_buf 1 16384 = some (-EFBIG, demo_written)) ∧
    (16384 + 1 ≤ MAX_FILE_SIZE →
      ∀ r, nufs_write demo_written [47, 97] demo_buf 1 16384 = some r → r.1 ≠ -EFBIG) :=
  nufs_write_size_limit demo_written 47 [97] 1 demo_buf 1 16384 (by decide) (by decide)
    (by decide)

/-- C4: `nufs_read` on an existing file returns at most `max(0, min(length, size - offset))`
bytes, always the stored file bytes from `offset` on; exactly the clamped length when every
logical block covering the clamped range is allocated; and otherwise the bytes before the
first unallocated block, as a non-negative count. -/
theorem nufs_read_clamp (s : State) (c0 : Nat) (name : List Nat) (i size offset : Nat)
    (hfind : find_inode_by_name s name = some (i : Int)) (hi : i < MAX_FILES)
    (hv : slots_valid (s.inode_table i)) (hsz : (s.inode_table i).size < 2 ^ 31)
    (hsum : offset + size < 2 ^ 64) :
    ∃ out, nufs_read s (c0 :: name) size offset = some ((out.length : Int), out) ∧
      out.length ≤ clamped_length (s.inode_table i).size size offset ∧
      out = file_bytes s.mem (s.inode_table i) offset out.length ∧
      ((∀ k, offset / BLOCK_SIZE ≤ k →
          BLOCK_SIZE * k < offset + clamped_length (s.inode_table i).size size offset →
          slot_allocated (s.inode_table i) k) →
        out.length = clamped_length (s.inode_table i).size size offset) ∧
      (∀ k, offset / BLOCK_SIZE ≤ k →
        BLOCK_SIZE * k < offset + clamped_length (s.inode_table i).size size offset →
        ¬slot_allocated (s.inode_table i) k →
        (∀ j, offset / BLOCK_SIZE ≤ j → j < k → slot_allocated (s.inode_table i) j) →
        out.length = BLOCK_SIZE * k - offset) :=
  nufs_read_spec s c0 name i size offset hfind hi hv hsz hsum

/-- Witness for C4: reading 6000 bytes at offset 100 of the 5000-byte file `/a`. -/
theorem nufs_read_clamp_witness :
    ∃ out, nufs_read demo_written [47, 97] 6000 100 = some ((out.length : Int), out) ∧
      out.length ≤ clamped_length (demo_written.inode_table 1).size 6000 100 ∧
      out = file_bytes demo_written.mem (demo_written.inode_table 1) 100 out.length ∧
      ((∀ k, 100 / BLOCK_SIZE ≤ k →
          BLOCK_SIZE * k < 100 + clamped_length (demo_written.inode_table 1).size 6000 100 →
          slot_allocated (demo_written.inode_table 1) k) →
        out.length = clamped_length (demo_written.inode_table 1).size 6000 100) ∧
      (∀ k, 100 / BLOCK_SIZE ≤ k →
        BLOCK_SIZE * k < 100 + clamped_length (demo_written.inode_table 1).size 6000 100 →
        ¬slot_allocated (demo_written.inode_table 1) k →
        (∀ j, 100 / BLOCK_SIZE ≤ j → j < k → slot_allocated (demo_written.inode_table 1) j) →
        out.length = BLOCK_SIZE * k - 100) :=
  nufs_read_clamp demo_written 47 [97] 1 6000 100 (by decide) (by decide)
    (by unfold slots_valid; decide) (by decide) (by decide)

set_option maxRecDepth 100000

theorem nufs_mknod_codes (s : State) (path : List Nat) (mode : Nat) (r : Int × State)
    (h : nufs_mknod s path mode = some r) : r.1 = 0 ∨ r.1 = -EEXIST ∨ r.1 = -ENOSPC := by
  unfold nufs_mknod at h
  simp only at h
  generalize (if path.head? = some 47 then path.tail else path) = filename at h
  cases hf : find_inode_by_name s filename with
  | none =>
    rw [hf] at h
    cases h
  | some found =>
    rw [hf] at h
    dsimp only at h
    by_cases h1 : found ≠ -1
    · rw [if_pos h1] at h
      cases h
      exact Or.inr (Or.inl rfl)
    · rw [if_neg h1] at h
      by_cases h2 : (alloc_inode s).1 = -1
      · rw [if_pos h2] at h
        cases h
        exact Or.inr (Or.inr rfl)
      · rw [if_neg h2] at h
        cases hg : get_inode (alloc_inode s).1 with
        | none =>
          rw [hg] at h
          cases h
        | some i =>
          rw [hg] at h
          dsimp only at h
          generalize directory_put _ 0 filename (alloc_inode s).1 = dp at h
          match dp, h with
          | some (rv, s3), h =>
            dsimp only at h
            by_cases h3 : rv < 0
            · rw [if_pos h3] at h
              obtain ⟨s4, _, h4⟩ := Option.map_eq_some'.1 h
              rw [← h4]
              exact Or.inr (Or.inr rfl)
            · rw [if_neg h3] at h
              cases h
              exact Or.inl rfl

/-- In no state does `nufs_mknod` return `-ENAMETOOLONG`. -/
theorem nufs_mknod_never_name_too_long (s : State) (path : List Nat) (mode : Nat) :
    (nufs_mknod s path mode).map Prod.fst ≠ some (-ENAMETOOLONG) := by
  intro h
  obtain ⟨r, hr, h1⟩ := Option.map_eq_some'.1 h
  rcases nufs_mknod_codes s path mode r hr with h2 | h2 | h2 <;> rw [h2] at h1 <;>
    exact absurd h1 (by decide)

/-- C5: when the name already resolves in the root directory, `nufs_mknod` and
`nufs_mkdir` return `-EEXIST` and leave the whole state unchanged; hence, on a well-formed
root directory, after a successful `mkdir` of a name a second `mkdir` of it returns
`-EEXIST` and `directory_list` of the root holds the name exactly once. -/
theorem create_duplicate (s : State) (name : List Nat) (mode mode2 : Nat) :
    (∀ r, find_inode_by_name s name = some r → r ≠ -1 →
      nufs_mknod s (47 :: name) mode = some (-EEXIST, s) ∧
        nufs_mkdir s (47 :: name) mode = some (-EEXIST, s)) ∧
    (dir_ok s 0 → bitmap_get s.mem 0 ((s.inode_table 0).blocks 0).toNat = true →
      (s.inode_table 0).refs ≠ 0 → is_name name →
      ∀ s1, nufs_mkdir s (47 :: name) mode = some (0, s1) →
        nufs_mkdir s1 (47 :: name) mode2 = some (-EEXIST, s1) ∧
          ∃ l, directory_list s1 0 = some l ∧ l.count name = 1) :=
  ⟨fun r hfind hr => create_exists s name mode r hfind hr,
    fun hok hbit hrefs hn s1 h => mkdir_twice s s1 name mode mode2 hok hbit hrefs hn h⟩

/-- Witness for C5: `mkdir("/sub")` twice on the initial state. -/
theorem create_duplicate_witness :
    nufs_mkdir (state_of (nufs_mkdir init_state [47, 115, 117, 98] 0o755)) [47, 115, 117, 98]
        0o755 =
        some (-EEXIST, state_of (nufs_mkdir init_state [47, 115, 117, 98] 0o755)) ∧
      ∃ l, directory_list (state_of (nufs_mkdir init_state [47, 115, 117, 98] 0o755)) 0 = some l ∧
        l.count [115, 117, 98] = 1 :=
  (create_duplicate init_state [115, 117, 98] 0o755 0o755).2 (by decide) (by decide) (by decide)
    (by decide) _ (state_of_eq _ 0 (by decide))

/-- C6: the handlers evaluated where the claim fails.  With no free block, `nufs_mkdir`
stores the `-1` of the failed `alloc_block` in slot 0, the insert of the over-long name
fails, and the rollback calls `free_block(-1)`, which is outside the bit vector: the call
has no defined result.  With a free block the same call returns the error. -/
theorem nufs_mkdir_rollback_without_block :
    (alloc_block demo_full.mem).1 = -1 ∧
      (directory_put demo_full 0 demo_long_path.tail 1).map Prod.fst = some (-ENAMETOOLONG) ∧
      (free_block demo_full.mem (-1)).isSome = false ∧
      (nufs_mkdir demo_full demo_long_path 0o755).isSome = false ∧
      (nufs_mkdir init_state demo_long_path 0o755).map Prod.fst = some (-ENAMETOOLONG) := by
  decide

/-- C7: the handlers evaluated where the claim fails.  The insert of a 48-byte name fails
with `-ENAMETOOLONG`; `nufs_mkdir` returns that error, while `nufs_mknod` returns `-ENOSPC`
in its place. -/
theorem nufs_mknod_masks_name_too_long :
    (directory_put init_state 0 demo_long_path.tail 1).map Prod.fst = some (-ENAMETOOLONG) ∧
      (nufs_mkdir init_state demo_long_path 0o755).map Prod.fst = some (-ENAMETOOLONG) ∧
      (nufs_mknod init_state demo_long_path 0o644).map Prod.fst = some (-ENOSPC) := by
  decide

/-- C8: `nufs_unlink` of a name that does not resolve returns `-ENOENT` and changes nothing;
of a name that resolves to an inode with `refs = 1`, on a well-formed root directory with
pairwise distinct names, it returns 0, after which lookup and `nufs_getattr` of the name
give `-ENOENT`, every other name resolves as before, the inode slot is free (`refs = 0`,
`size = 0`, all four slots `-1`) and the bit of every block it held is clear. -/
theorem nufs_unlink_contract (s : State) (c0 uid : Nat) (name : List Nat) :
    (directory_lookup s 0 name = some (-1) → nufs_unlink s (c0 :: name) = some (-ENOENT, s)) ∧
    (∀ i : Nat, dir_ok s 0 → is_name name → name ≠ [] →
      ((dir_entries s 0).map Prod.fst).Nodup →
      directory_lookup s 0 name = some (i : Int) → 0 < i → i < MAX_FILES →
      (s.inode_table i).refs = 1 → slots_valid (s.inode_table i) →
      ∃ s2, nufs_unlink s (c0 :: name) = some (0, s2) ∧
        directory_lookup s2 0 name = some (-1) ∧
        nufs_getattr s2 uid (c0 :: name) = some (-ENOENT, Stat.zero) ∧
        (∀ other, is_name other → other ≠ name →
          directory_lookup s2 0 other = directory_lookup s 0 other) ∧
        (s2.inode_table i).refs = 0 ∧ (s2.inode_table i).size = 0 ∧
        (∀ k, (s2.inode_table i).blocks k = -1) ∧
        ∀ k, (s.inode_table i).blocks k ≠ -1 →
          bitmap_get s2.mem 0 ((s.inode_table i).blocks k).toNat = false) :=
  ⟨fun h => nufs_unlink_absent s c0 name h,
    fun i hok hn hne hnd hfind hi0 hi hrefs hv =>
      nufs_unlink_present s c0 uid name i hok hn hne hnd hfind hi0 hi hrefs hv⟩

/-- Witness for C8: unlinking the written file `/a` while `/b` exists, and unlinking the
absent name `/c`. -/
theorem nufs_unlink_contract_witness :
    nufs_unlink demo_two [47, 99] = some (-ENOENT, demo_two) ∧
      ∃ s2, nufs_unlink demo_two [47, 97] = some (0, s2) ∧
        directory_lookup s2 0 [97] = some (-1) ∧
        nufs_getattr s2 1000 [47, 97] = some (-ENOENT, Stat.zero) ∧
        (∀ other, is_name other → other ≠ [97] →
          directory_lookup s2 0 other = directory_lookup demo_two 0 other) ∧
        (s2.inode_table 1).refs = 0 ∧ (s2.inode_table 1).size = 0 ∧
        (∀ k, (s2.inode_table 1).blocks k = -1) ∧
        ∀ k, (demo_two.inode_table 1).blocks k ≠ -1 →
          bitmap_get s2.mem 0 ((demo_two.inode_table 1).blocks k).toNat = false :=
  ⟨(nufs_unlink_contract demo_two 47 1000 [99]).1 (by decide),
    (nufs_unlink_contract demo_two 47 1000 [97]).2 1 (by decide) (by decide) (by decide)
      (by decide) (by decide) (by decide) (by decide) (by decide)
      (by unfold slots_valid; decide)⟩

/-- C9: on a well-formed root directory with pairwise distinct names and inode numbers,
for two distinct names `a` and `b` that resolve to `ia` and `ib`, `nufs_rename(a, b)`
returns 0; afterwards lookup of `a` gives `-1`, lookup of `b` gives `ia`, no directory
entry refers to `ib`, and every other name resolves as before. -/
theorem nufs_rename_overwrite_contract (s : State) (c1 c2 : Nat) (a b : List Nat) (ia ib : Int)
    (hok : dir_ok s 0) (ha : is_name a) (hb : is_name b) (hab : a ≠ b)
    (hnd : ((dir_entries s 0).map Prod.fst).Nodup)
    (hni : ((dir_entries s 0).map Prod.snd).Nodup)
    (hfa : directory_lookup s 0 a = some ia) (hia : ia ≠ -1)
    (hfb : directory_lookup s 0 b = some ib) (hib : ib ≠ -1) :
    ∃ s2, nufs_rename s (c1 :: a) (c2 :: b) = some (0, s2) ∧
      directory_lookup s2 0 a = some (-1) ∧
      directory_lookup s2 0 b = some ia ∧
      (∀ e ∈ dir_entries s2 0, e.2 ≠ ib) ∧
      ∀ other, is_name other → other ≠ a → other ≠ b →
        directory_lookup s2 0 other = directory_lookup s 0 other := by
  obtain ⟨s2, h1, h2, h3, h4, h5, _⟩ :=
    nufs_rename_overwrite s c1 c2 a b ia ib hok ha hb hab hnd hni hfa hia hfb hib
  exact ⟨s2, h1, h2, h3, h4, h5⟩

/-- Witness for C9: renaming `/a` (inode 1) onto the existing `/b` (inode 2). -/
theorem nufs_rename_overwrite_contract_witness :
    ∃ s2, nufs_rename demo_two [47, 97] [47, 98] = some (0, s2) ∧
      directory_lookup s2 0 [97] = some (-1) ∧
      directory_lookup s2 0 [98] = some 1 ∧
      (∀ e ∈ dir_entries s2 0, e.2 ≠ 2) ∧
      ∀ other, is_name other → other ≠ [97] → other ≠ [98] →
        directory_lookup s2 0 other = directory_lookup demo_two 0 other :=
  nufs_rename_overwrite_contract demo_two 47 47 [97] [98] 1 2 (by decide) (by decide)
    (by decide) (by decide) (by decide) (by decide) (by decide) (by decide) (by decide)
    (by decide)

/-- C10: a successful `alloc_block` returns the smallest index in 1..255 whose bit is
clear (never 0); that bit is 0 before and 1 after, every other bit of the bit vector is
unchanged, the block is all zero, and `free_block` of the index leaves the bit 0.
`alloc_block` fails with `-1` exactly when all bits 1..255 are set, and then changes
nothing. -/
theorem alloc_block_contract (mem : Mem) :
    ((alloc_block mem).1 = -1 ↔ ∀ j, 1 ≤ j → j < BLOCK_COUNT → bitmap_get mem 0 j = true) ∧
    ((alloc_block mem).1 = -1 → (alloc_block mem).2 = mem) ∧
    ((alloc_block mem).1 ≠ -1 →
      ∃ i : Nat, (alloc_block mem).1 = (i : Int) ∧ 1 ≤ i ∧ i < BLOCK_COUNT ∧
        bitmap_get mem 0 i = false ∧
        (∀ j, 1 ≤ j → j < i → bitmap_get mem 0 j = true) ∧
        bitmap_get (alloc_block mem).2 0 i = true ∧
        (∀ j, j < BLOCK_COUNT → j ≠ i →
          bitmap_get (alloc_block mem).2 0 j = bitmap_get mem 0 j) ∧
        (∀ o, o < BLOCK_SIZE → (alloc_block mem).2 (BLOCK_SIZE * i + o) = 0) ∧
        ∃ m, free_block (alloc_block mem).2 (i : Int) = some m ∧ bitmap_get m 0 i = false) := by
  rcases alloc_block_cases mem with ⟨h1, h2, h3⟩ | ⟨i, h1, h2, h3, h4, h5, h6⟩
  · exact ⟨⟨fun _ => h3, fun _ => h1⟩, fun _ => h2, fun h => absurd h1 h⟩
  · have hne : (alloc_block mem).1 ≠ -1 := by
      rw [h1]
      omega
    refine ⟨⟨fun h => absurd h hne, fun h => ?_⟩, fun h => absurd h hne, fun _ => ?_⟩
    · have := h i h3 h4
      rw [h5] at this
      cases this
    · refine ⟨i, h1, h3, h4, h5, h6, ?_, ?_, ?_, ?_⟩
      · rw [h2, alloc_mem_bit mem i i h3 (by simp only [BLOCK_SIZE, BLOCK_COUNT] at *; omega)]
        simp
      · intro j hj hji
        rw [h2, alloc_mem_bit mem i j h3 (by simp only [BLOCK_SIZE, BLOCK_COUNT] at *; omega)]
        simp [hji]
      · intro o ho
        rw [h2]
        exact alloc_mem_block mem i o ho
      · refine ⟨bitmap_put (alloc_block mem).2 0 i false, ?_, ?_⟩
        · unfold free_block
          simp
        · rw [bitmap_get_put]
          simp

set_option maxRecDepth 100000

/-- Witness for C10: with every bit set `alloc_block` fails and changes nothing; on the
initial image, where only blocks 0 and 1 are in use, it hands out a block. -/
theorem alloc_block_contract_witness :
    (alloc_block demo_full.mem).2 = demo_full.mem ∧
      ∃ i : Nat, (alloc_block init_state.mem).1 = (i : Int) ∧ 1 ≤ i ∧ i < BLOCK_COUNT ∧
        bitmap_get init_state.mem 0 i = false ∧
        (∀ j, 1 ≤ j → j < i → bitmap_get init_state.mem 0 j = true) ∧
        bitmap_get (alloc_block init_state.mem).2 0 i = true ∧
        (∀ j, j < BLOCK_COUNT → j ≠ i →
          bitmap_get (alloc_block init_state.mem).2 0 j = bitmap_get init_state.mem 0 j) ∧
        (∀ o, o < BLOCK_SIZE → (alloc_block init_state.mem).2 (BLOCK_SIZE * i + o) = 0) ∧
        ∃ m, free_block (alloc_block init_state.mem).2 (i : Int) = some m ∧
          bitmap_get m 0 i = false :=
  ⟨(alloc_block_contract demo_full.mem).2.1 (by decide),
    (alloc_block_contract init_state.mem).2.2 (by decide)⟩

set_option maxRecDepth 100000

/-! ## The claims on growth, the directory index and the invariants -/

theorem reachable_demo_created : Reachable demo_created :=
  Reachable.mknod init_state demo_created [47, 97] 0o644 0 Reachable.init (by decide)
    (state_of_eq _ 0 (by decide))

theorem reachable_demo_written : Reachable demo_written :=
  Reachable.write demo_created demo_written [47, 97] demo_buf 5000 0 5000
    reachable_demo_created (by decide) (by decide) (state_of_eq _ 5000 (by decide))

theorem reachable_demo_two : Reachable demo_two :=
  Reachable.mknod demo_written demo_two [47, 98] 0o644 0 reachable_demo_written (by decide)
    (state_of_eq _ 0 (by decide))

theorem reachable_demo_dir_written : Reachable demo_dir_written :=
  Reachable.write demo_dir demo_dir_written [47, 100] demo_buf 5 0 5
    (Reachable.mkdir init_state demo_dir [47, 100] 0o755 0 Reachable.init (by decide)
      (state_of_eq _ 0 (by decide)))
    (by decide) (by decide) (state_of_eq _ 5 (by decide))

theorem files_demo_dir : ReachableFiles demo_dir :=
  ReachableFiles.mkdir init_state demo_dir [47, 100] 0o755 0 ReachableFiles.init (by decide)
    (state_of_eq _ 0 (by decide))

/-- C11: for every inode, `grow_inode` to `4 * 4096 + 1` bytes returns `-EFBIG` and leaves
the state as it is; for an inode whose four slots are empty, with at least four free
blocks, `grow_inode` to `4 * 4096` bytes returns 0, sets the size to 16384 and fills the
slots with four pairwise distinct blocks that were free before and are marked used after;
no other bit changes, so exactly four blocks are allocated. -/
theorem grow_inode_boundary (s : State) (node : Nat) :
    grow_inode s node ((MAX_FILE_SIZE + 1 : Nat) : Int) = some (-EFBIG, s) ∧
    ((∀ k, (s.inode_table node).blocks k = -1) → 4 ≤ free_blocks s.mem →
      ∃ s1, grow_inode s node ((MAX_FILE_SIZE : Nat) : Int) = some (0, s1) ∧
        (s1.inode_table node).size = 16384 ∧
        (∀ k, ∃ b : Nat, (s1.inode_table node).blocks k = (b : Int) ∧ 1 ≤ b ∧ b < BLOCK_COUNT ∧
          bitmap_get s.mem 0 b = false ∧ bitmap_get s1.mem 0 b = true) ∧
        (∀ k k2, k ≠ k2 → (s1.inode_table node).blocks k ≠ (s1.inode_table node).blocks k2) ∧
        (∀ j, j < BLOCK_COUNT →
          (bitmap_get s1.mem 0 j = true ↔
            bitmap_get s.mem 0 j = true ∨ ∃ k, (s1.inode_table node).blocks k = (j : Int))) ∧
        (∀ j, j ≠ node → s1.inode_table j = s.inode_table j) ∧
        free_blocks s1.mem + 4 = free_blocks s.mem) := by
  constructor
  · unfold grow_inode
    rw [if_pos (by decide)]
  · exact fun hall hfree => grow_inode_full s node hall hfree

/-- Witness for C11: growing the new file `/a` (inode 1) to 16384 bytes. -/
theorem grow_inode_boundary_witness :
    ∃ s1, grow_inode demo_created 1 ((MAX_FILE_SIZE : Nat) : Int) = some (0, s1) ∧
      (s1.inode_table 1).size = 16384 ∧
      (∀ k, ∃ b : Nat, (s1.inode_table 1).blocks k = (b : Int) ∧ 1 ≤ b ∧ b < BLOCK_COUNT ∧
        bitmap_get demo_created.mem 0 b = false ∧ bitmap_get s1.mem 0 b = true) ∧
      (∀ k k2, k ≠ k2 → (s1.inode_table 1).blocks k ≠ (s1.inode_table 1).blocks k2) ∧
      (∀ j, j < BLOCK_COUNT →
        (bitmap_get s1.mem 0 j = true ↔
          bitmap_get demo_created.mem 0 j = true ∨
            ∃ k, (s1.inode_table 1).blocks k = (j : Int))) ∧
      (∀ j, j ≠ 1 → s1.inode_table j = demo_created.inode_table j) ∧
      free_blocks s1.mem + 4 = free_blocks demo_created.mem :=
  (grow_inode_boundary demo_created 1).2 (by decide) (by decide)

/-- C12, as the claim states it, fails: a name of exactly 47 bytes is inserted, with
return value 0. -/
theorem directory_put_accepts_47 :
    (List.replicate 47 97).length ≥ 47 ∧
      (directory_put init_state 0 (List.replicate 47 97) 1).map Prod.fst = some 0 := by
  decide

/-- C12, amended: `directory_put` of a name of 48 bytes or more returns `-ENAMETOOLONG`
and leaves the state as it is; a name of fewer than 48 bytes is never rejected for its
length. -/
theorem directory_put_name_limit (s : State) (di : Nat) (name : List Nat) (inum : Int) :
    (DIR_NAME_LENGTH ≤ name.length →
      directory_put s di name inum = some (-ENAMETOOLONG, s)) ∧
    (name.length < DIR_NAME_LENGTH →
      ∀ r, directory_put s di name inum = some r → r.1 ≠ -ENAMETOOLONG) :=
  ⟨fun h => directory_put_toolong s di name inum h,
    fun h r hr => directory_put_not_toolong s di name inum h r hr⟩

/-- Witness for C12: a name of 48 bytes is rejected, one of 47 bytes is not. -/
theorem directory_put_name_limit_witness :
    directory_put init_state 0 (List.replicate 48 97) 1 = some (-ENAMETOOLONG, init_state) ∧
      ∀ r, directory_put init_state 0 (List.replicate 47 97) 1 = some r →
        r.1 ≠ -ENAMETOOLONG :=
  ⟨(directory_put_name_limit init_state 0 (List.replicate 48 97) 1).1 (by decide),
    (directory_put_name_limit init_state 0 (List.replicate 47 97) 1).2 (by decide)⟩

set_option maxRecDepth 100000

/-! ## Filling the disk, and the out-of-range release -/

set_option maxRecDepth 100000

/-- C13: starting from an empty well-formed directory, inserting pairwise distinct valid
names succeeds as long as the entry count does not exceed `4096 / 64`, the capacity of the
single block; afterwards the entries are the inserted ones and lookup of every inserted
name returns its inode number; when the count equals the capacity, the insert of any new
valid name returns `-ENOSPC` and leaves the state, hence size and entries, as it is. -/
theorem directory_capacity (s : State) (di : Nat) (l : List (List Nat × Int))
    (hok : dir_ok s di) (hempty : dir_entries s di = [])
    (hl : ∀ e ∈ l, is_name e.1 ∧ e.1.length < DIR_NAME_LENGTH ∧ -2 ^ 31 ≤ e.2 ∧ e.2 < 2 ^ 31)
    (hnd : (l.map Prod.fst).Nodup) (hlen : l.length ≤ BLOCK_SIZE / DIR_ENTRY_SIZE) :
    ∃ s2, put_all di l s = some s2 ∧ dir_entries s2 di = l ∧
      (s2.inode_table di).size = (s.inode_table di).size + DIR_ENTRY_SIZE * l.length ∧
      (∀ e ∈ l, directory_lookup s2 di e.1 = some e.2) ∧
      (l.length = BLOCK_SIZE / DIR_ENTRY_SIZE →
        ∀ (name : List Nat) (inum : Int), is_name name → name.length < DIR_NAME_LENGTH →
          (∀ e ∈ l, e.1 ≠ name) → directory_put s2 di name inum = some (-ENOSPC, s2)) :=
  directory_fill s di l hok hempty hl hnd hlen

/-- Witness for C13: sixty-four names of 47 bytes inserted into the empty root directory. -/
theorem directory_capacity_witness :
    ∃ s2, put_all 0 demo_names init_state = some s2 ∧ dir_entries s2 0 = demo_names ∧
      (s2.inode_table 0).size =
        (init_state.inode_table 0).size + DIR_ENTRY_SIZE * demo_names.length ∧
      (∀ e ∈ demo_names, directory_lookup s2 0 e.1 = some e.2) ∧
      (demo_names.length = BLOCK_SIZE / DIR_ENTRY_SIZE →
        ∀ (name : List Nat) (inum : Int), is_name name → name.length < DIR_NAME_LENGTH →
          (∀ e ∈ demo_names, e.1 ≠ name) →
          directory_put s2 0 name inum = some (-ENOSPC, s2)) :=
  directory_capacity init_state 0 demo_names (by decide) (by decide) (by decide) (by decide)
    (by decide)

/-- C14: for a directory without a block, or a well-formed directory none of whose
entries has the name, `directory_delete` returns `-ENOENT` and leaves the state, hence
the directory's size and entries, as it is; repeating the delete gives the same result
and state. -/
theorem directory_delete_absent_unchanged (s : State) (di : Nat) (name : List Nat)
    (hn : is_name name)
    (h : (s.inode_table di).blocks 0 = -1 ∨
      (dir_ok s di ∧ ∀ e ∈ dir_entries s di, e.1 ≠ name)) :
    directory_delete s di name = some (-ENOENT, s) ∧
      ((directory_delete s di name).bind fun r => directory_delete r.2 di name) =
        some (-ENOENT, s) := by
  have h1 := directory_delete_noent s di name hn h
  refine ⟨h1, ?_⟩
  rw [h1]
  exact h1

/-- Witness for C14: deleting the absent name `c` from the root directory holding `a`
and `b`. -/
theorem directory_delete_absent_unchanged_witness :
    directory_delete demo_two 0 [99] = some (-ENOENT, demo_two) ∧
      ((directory_delete demo_two 0 [99]).bind fun r => directory_delete r.2 0 [99]) =
        some (-ENOENT, demo_two) :=
  directory_delete_absent_unchanged demo_two 0 [99] (by decide)
    (Or.inr ⟨by decide, by decide⟩)

/-- C18: in a well-formed directory whose entries have pairwise distinct names, deleting
the name of the entry at index `i` returns 0, leaves the other entries in their order
(the list with index `i` removed), and reduces the size by one entry size; afterwards
lookup of the deleted name gives `-1` and lookup of every other name gives what it gave
before. -/
theorem directory_delete_compacts (s : State) (di i : Nat) (e : List Nat × Int)
    (hok : dir_ok s di) (hnd : ((dir_entries s di).map Prod.fst).Nodup)
    (he : (dir_entries s di)[i]? = some e) :
    ∃ s2, directory_delete s di e.1 = some (0, s2) ∧
      dir_entries s2 di = (dir_entries s di).eraseIdx i ∧
      (s2.inode_table di).size = (s.inode_table di).size - DIR_ENTRY_SIZE ∧
      directory_lookup s2 di e.1 = some (-1) ∧
      ∀ other, is_name other → other ≠ e.1 →
        directory_lookup s2 di other = directory_lookup s di other := by
  obtain ⟨hi, hget⟩ := List.getElem?_eq_some.mp he
  have h := directory_delete_at s di i hok hnd hi
  have hg : (dir_entries s di).get ⟨i, hi⟩ = e := hget
  rw [hg] at h
  exact h

/-- Witness for C18: deleting `a`, the first of the two entries `a`, `b`. -/
theorem directory_delete_compacts_witness :
    ∃ s2, directory_delete demo_two 0 [97] = some (0, s2) ∧
      dir_entries s2 0 = (dir_entries demo_two 0).eraseIdx 0 ∧
      (s2.inode_table 0).size = (demo_two.inode_table 0).size - DIR_ENTRY_SIZE ∧
      directory_lookup s2 0 [97] = some (-1) ∧
      ∀ other, is_name other → other ≠ [97] →
        directory_lookup s2 0 other = directory_lookup demo_two 0 other :=
  directory_delete_compacts demo_two 0 0 ([97], 1) (by decide) (by decide) (by decide)

/-- C19: on a well-formed root directory with pairwise distinct names and inode numbers,
for two distinct names `a` and `b` that resolve, `b` to an inode `ib` other than the root
with valid slots, `nufs_rename(a, b)` returns 0 and does not free `ib`: the inode (refs,
mode, size, slots) is unchanged, no bit of the bit vector changes, so every block it
holds keeps its bit set, and no directory entry refers to `ib` any more. -/
theorem nufs_rename_leaks_target (s : State) (c1 c2 : Nat) (a b : List Nat) (ia : Int)
    (ib : Nat)
    (hok : dir_ok s 0) (ha : is_name a) (hb : is_name b) (hab : a ≠ b)
    (hnd : ((dir_entries s 0).map Prod.fst).Nodup)
    (hni : ((dir_entries s 0).map Prod.snd).Nodup)
    (hfa : directory_lookup s 0 a = some ia) (hia : ia ≠ -1)
    (hfb : directory_lookup s 0 b = some (ib : Int)) (hib : ib ≠ 0)
    (hv : slots_valid (s.inode_table ib)) :
    ∃ s2, nufs_rename s (c1 :: a) (c2 :: b) = some (0, s2) ∧
      s2.inode_table ib = s.inode_table ib ∧
      (∀ j, j < BLOCK_COUNT → bitmap_get s2.mem 0 j = bitmap_get s.mem 0 j) ∧
      (∀ k, (s.inode_table ib).blocks k ≠ -1 →
        bitmap_get s.mem 0 ((s.inode_table ib).blocks k).toNat = true →
        bitmap_get s2.mem 0 ((s2.inode_table ib).blocks k).toNat = true) ∧
      ∀ e ∈ dir_entries s2 0, e.2 ≠ (ib : Int) :=
  nufs_rename_leak s c1 c2 a b ia ib hok ha hb hab hnd hni hfa hia hfb hib hv

/-- Witness for C19: renaming `/b` onto `/a`, whose inode 1 holds two blocks. -/
theorem nufs_rename_leaks_target_witness :
    ∃ s2, nufs_rename demo_two [47, 98] [47, 97] = some (0, s2) ∧
      s2.inode_table 1 = demo_two.inode_table 1 ∧
      (∀ j, j < BLOCK_COUNT → bitmap_get s2.mem 0 j = bitmap_get demo_two.mem 0 j) ∧
      (∀ k, (demo_two.inode_table 1).blocks k ≠ -1 →
        bitmap_get demo_two.mem 0 ((demo_two.inode_table 1).blocks k).toNat = true →
        bitmap_get s2.mem 0 ((s2.inode_table 1).blocks k).toNat = true) ∧
      ∀ e ∈ dir_entries s2 0, e.2 ≠ ((1 : Nat) : Int) :=
  nufs_rename_leaks_target demo_two 47 47 [98] [97] 2 1 (by decide) (by decide) (by decide)
    (by decide) (by decide) (by decide) (by decide) (by decide) (by decide) (by decide)
    (by unfold slots_valid; decide)

set_option maxRecDepth 100000

/-- C16, as the claim states it, fails: after `mkdir("/d")` and a write of 5 bytes to the
path `/d`, the live directory-typed inode 1 has size 5. -/
theorem dir_size_not_multiple :
    Reachable demo_dir_written ∧ 0 < (demo_dir_written.inode_table 1).refs ∧
      is_dir (demo_dir_written.inode_table 1).mode ∧
      (demo_dir_written.inode_table 1).size % DIR_ENTRY_SIZE ≠ 0 :=
  ⟨reachable_demo_dir_written, by decide, by decide, by decide⟩

/-- C16, amended: in every reachable state the size of the root directory is a multiple
of the entry size; and in every state reachable when `nufs_write` is applied only to
paths that do not resolve to a directory-typed inode, the size of every live
directory-typed inode is a multiple of the entry size. -/
theorem dir_size_multiple (s : State) :
    (Reachable s → (s.inode_table 0).size % DIR_ENTRY_SIZE = 0) ∧
    (ReachableFiles s → ∀ i, 0 < (s.inode_table i).refs → is_dir (s.inode_table i).mode →
      (s.inode_table i).size % DIR_ENTRY_SIZE = 0) :=
  ⟨fun h => (reachable_inv s h).dir.2.2.2.2.1,
    fun h i hl hd => files_dir_size_multiple s h i (by omega) hd⟩

/-- Witness for C16: the directory `/d` made by `mkdir`, inode 1. -/
theorem dir_size_multiple_witness :
    (demo_dir_written.inode_table 0).size % DIR_ENTRY_SIZE = 0 ∧
      (demo_dir.inode_table 1).size % DIR_ENTRY_SIZE = 0 :=
  ⟨(dir_size_multiple demo_dir_written).1 reachable_demo_dir_written,
    (dir_size_multiple demo_dir).2 files_demo_dir 1 (by decide) (by decide)⟩

/-- C17: in every reachable state every live inode has `0 ≤ size ≤ 4 * 4096` and each
slot `k` with `4096 * k < size` is allocated; so `nufs_read` of any resolving name
returns exactly the clamped length `max(0, min(length, size - offset))`, the stored
bytes from `offset` on. -/
theorem size_mapping_invariant (s : State) (h : Reachable s) :
    (∀ i, i < MAX_FILES → 0 < (s.inode_table i).refs →
      0 ≤ (s.inode_table i).size ∧ (s.inode_table i).size ≤ MAX_FILE_SIZE ∧
        ∀ k : Fin 4, ((BLOCK_SIZE * k.val : Nat) : Int) < (s.inode_table i).size →
          (s.inode_table i).blocks k ≠ -1) ∧
    (∀ (c0 : Nat) (name : List Nat) (size offset : Nat) (inum : Int), is_name name →
      offset + size < 2 ^ 64 → find_inode_by_name s name = some inum → inum ≠ -1 →
      ∃ out, nufs_read s (c0 :: name) size offset = some ((out.length : Int), out) ∧
        out.length = clamped_length (s.inode_table inum.toNat).size size offset ∧
        out = file_bytes s.mem (s.inode_table inum.toNat) offset out.length) := by
  have hinv := reachable_inv s h
  refine ⟨fun i hi hl => hinv.sizes i hi (by omega), ?_⟩
  intro c0 name size offset inum hn hsum hfind hne
  obtain ⟨inum2, hf2, hcase⟩ := inv_lookup s hinv name hn
  have heq : inum2 = inum := by
    unfold find_inode_by_name at hfind
    rw [hf2] at hfind
    exact Option.some.inj hfind
  rw [heq] at hcase
  rcases hcase with ⟨hm1, _⟩ | ⟨i, hii, _, hi, hrefs, _⟩
  · exact absurd hm1 hne
  · rw [hii] at hfind ⊢
    simp only [Int.toNat_ofNat]
    exact inv_read_full s hinv c0 name i size offset hsum hfind hi (by rw [hrefs]; decide)

/-- Witness for C17: the state with the 5000-byte file `/a`. -/
theorem size_mapping_invariant_witness :
    (∀ i, i < MAX_FILES → 0 < (demo_two.inode_table i).refs →
      0 ≤ (demo_two.inode_table i).size ∧ (demo_two.inode_table i).size ≤ MAX_FILE_SIZE ∧
        ∀ k : Fin 4, ((BLOCK_SIZE * k.val : Nat) : Int) < (demo_two.inode_table i).size →
          (demo_two.inode_table i).blocks k ≠ -1) ∧
    (∀ (c0 : Nat) (name : List Nat) (size offset : Nat) (inum : Int), is_name name →
      offset + size < 2 ^ 64 → find_inode_by_name demo_two name = some inum → inum ≠ -1 →
      ∃ out, nufs_read demo_two (c0 :: name) size offset = some ((out.length : Int), out) ∧
        out.length = clamped_length (demo_two.inode_table inum.toNat).size size offset ∧
        out = file_bytes demo_two.mem (demo_two.inode_table inum.toNat) offset out.length) :=
  size_mapping_invariant demo_two reachable_demo_two

/-- C20: in every reachable state the entries of the root directory have pairwise
distinct names and pairwise distinct inode numbers, each inode number is in 1..255 and
denotes a live inode; hence no name resolves to inode 0, and after `nufs_unlink` every
remaining entry still denotes a live inode. -/
theorem root_directory_well_formed (s : State) (h : Reachable s) :
    ((dir_entries s 0).map Prod.fst).Nodup ∧ ((dir_entries s 0).map Prod.snd).Nodup ∧
    (∀ e ∈ dir_entries s 0,
      1 ≤ e.2 ∧ e.2 < MAX_FILES ∧ 1 ≤ (s.inode_table e.2.toNat).refs) ∧
    (∀ name, is_name name → directory_lookup s 0 name ≠ some 0) ∧
    (∀ (path : List Nat) (rv : Int) (s2 : State), is_name path →
      nufs_unlink s path = some (rv, s2) →
      ∀ e ∈ dir_entries s2 0, 1 ≤ (s2.inode_table e.2.toNat).refs) := by
  have hinv := reachable_inv s h
  refine ⟨hinv.names, hinv.inums, ?_, ?_, ?_⟩
  · intro e he
    obtain ⟨h1, h2, h3⟩ := hinv.live e he
    exact ⟨h1, h2, by omega⟩
  · intro name hn hc
    obtain ⟨inum, hf, hcase⟩ := inv_lookup s hinv name hn
    rw [hf] at hc
    have h0 : inum = 0 := Option.some.inj hc
    rcases hcase with ⟨hm1, _⟩ | ⟨i, hii, hi0, _⟩
    · omega
    · omega
  · intro path rv s2 hp hcall e he
    have hinv2 := reachable_inv s2 (Reachable.unlink s s2 path rv h hp hcall)
    have := (hinv2.live e he).2.2
    omega

/-- Witness for C20: the state with the entries `a` and `b`. -/
theorem root_directory_well_formed_witness :
    ((dir_entries demo_two 0).map Prod.fst).Nodup ∧
    ((dir_entries demo_two 0).map Prod.snd).Nodup ∧
    (∀ e ∈ dir_entries demo_two 0,
      1 ≤ e.2 ∧ e.2 < MAX_FILES ∧ 1 ≤ (demo_two.inode_table e.2.toNat).refs) ∧
    (∀ name, is_name name → directory_lookup demo_two 0 name ≠ some 0) ∧
    (∀ (path : List Nat) (rv : Int) (s2 : State), is_name path →
      nufs_unlink demo_two path = some (rv, s2) →
      ∀ e ∈ dir_entries s2 0, 1 ≤ (s2.inode_table e.2.toNat).refs) :=
  root_directory_well_formed demo_two reachable_demo_two

set_option maxRecDepth 100000

/-- C21: on a well-formed root directory with pairwise distinct names, none of whose
entries holds the inode number `-1`, for a name `a` that resolves to an inode `ia` other
than the root: when the target `b` has 48 bytes or more, `nufs_rename(a, b)` returns
`-ENAMETOOLONG` after the entry of `a` is removed, so neither `a` nor `b` resolves
afterwards, while the inode `ia` and the whole block bit vector are as before; when `b`
has fewer than 48 bytes, `nufs_rename(a, b)` returns 0 and `b` resolves to `ia`. -/
theorem nufs_rename_not_atomic (s : State) (c1 c2 : Nat) (a b : List Nat) (ia : Nat)
    (hok : dir_ok s 0) (ha : is_name a) (hb : is_name b)
    (hnd : ((dir_entries s 0).map Prod.fst).Nodup)
    (hneg : ∀ e ∈ dir_entries s 0, e.2 ≠ -1)
    (hfa : directory_lookup s 0 a = some (ia : Int)) (hia : ia ≠ 0) :
    (DIR_NAME_LENGTH ≤ b.length →
      ∃ s2, nufs_rename s (c1 :: a) (c2 :: b) = some (-ENAMETOOLONG, s2) ∧
        directory_lookup s2 0 a = some (-1) ∧ directory_lookup s2 0 b = some (-1) ∧
        s2.inode_table ia = s.inode_table ia ∧
        (∀ j, j < BLOCK_COUNT → bitmap_get s2.mem 0 j = bitmap_get s.mem 0 j)) ∧
    (b.length < DIR_NAME_LENGTH →
      ∃ s2, nufs_rename s (c1 :: a) (c2 :: b) = some (0, s2) ∧
        directory_lookup s2 0 b = some (ia : Int)) := by
  constructor
  · intro hlong
    obtain ⟨s2, h1, h2, h3, _, h5, _, h7⟩ :=
      nufs_rename_toolong s c1 c2 a b ia hok ha hb hnd hfa hia hlong
    exact ⟨s2, h1, h2, h3, h5, h7⟩
  · intro hshort
    exact nufs_rename_succeeds s c1 c2 a b ia hok ha hb hnd hneg hfa (by omega) hshort

/-- Witness for C21: renaming `/a` (inode 1, two blocks) to a name of 48 bytes, and to
the new name `c`. -/
theorem nufs_rename_not_atomic_witness :
    (∃ s2, nufs_rename demo_two [47, 97] (47 :: List.replicate 48 98) =
        some (-ENAMETOOLONG, s2) ∧
      directory_lookup s2 0 [97] = some (-1) ∧
      directory_lookup s2 0 (List.replicate 48 98) = some (-1) ∧
      s2.inode_table 1 = demo_two.inode_table 1 ∧
      (∀ j, j < BLOCK_COUNT → bitmap_get s2.mem 0 j = bitmap_get demo_two.mem 0 j)) ∧
    ∃ s2, nufs_rename demo_two [47, 97] [47, 99] = some (0, s2) ∧
      directory_lookup s2 0 [99] = some ((1 : Nat) : Int) :=
  ⟨(nufs_rename_not_atomic demo_two 47 47 [97] (List.replicate 48 98) 1 (by decide)
      (by decide) (by decide) (by decide) (by decide) (by decide) (by decide)).1 (by decide),
    (nufs_rename_not_atomic demo_two 47 47 [97] [99] 1 (by decide) (by decide) (by decide)
      (by decide) (by decide) (by decide) (by decide)).2 (by decide)⟩

end Nufs
